import Mathlib

/-!
Recursive filter engine of the song processor.

A shallow embedding of `Filter` (`src/src/signal/filter.cpp`,
`src/include/signal/filter.hpp`), of `AudioUtils::splitStereo` and
`AudioUtils::mergeStereo` (`src/src/utils/audio_utils.cpp`) and of
`MathUtils::isPowerOfTwo` and `MathUtils::nextPowerOfTwo`
(`src/src/utils/math_utils.cpp`), and theorems about them.

Modelling conventions.

* Samples and coefficients (`double` in the source) are elements of a field `α`;
  arithmetic is exact. Division is the division of the field.
* `static_cast<double>` of a `float` sample is exact and is the identity here;
  `static_cast<float>` of a `double` is a function `toFloat : α → α` that every
  definition and theorem takes as an argument.
* `MathUtils::PI`, `std::tan` and `std::cos` are the fields of `MathPrims`.
* `std::vector<double>` is `List α`; `size_t` indices are `Nat` (a subtraction
  `i - j` is only evaluated under the guard `i >= j`, as in the source).
* `int order` is `Int`.
* A mutating member function is a function from the state `Impl α` to the new
  state (together with the returned value, if any).
* Where a claim depends on the rounding of `double` arithmetic, the namespace
  `ieee` repeats the coefficient design and the frequency response with every
  operation rounded: a `double` is the rational number it denotes,
  `ieee.roundDouble` rounds to the nearest `double` (ties to even), and the
  library functions are parameters.
* A 32-bit `int` of `MathUtils` is an `Int`; the loop of `nextPowerOfTwo` takes a
  bound on the evaluations of its condition and reports a doubling above
  `INT_MAX` as `Outcome.overflow`.
-/

namespace song_processor
namespace signal

/-- The enumeration `FilterType` of `filter.hpp`. -/
inductive FilterType where
  | LOW_PASS
  | HIGH_PASS
  | BAND_PASS
  | BAND_STOP
  | NOTCH
deriving DecidableEq, Repr

/-- The numeric primitives the coefficient design uses: the constant
`MathUtils::PI` and the library functions `std::tan`, `std::cos`. -/
structure MathPrims (α : Type) where
  PI : α
  tan : α → α
  cos : α → α

/-- The state `Filter::Impl`. -/
structure Impl (α : Type) where
  type : FilterType
  cutoffFrequency : α
  highCutoffFrequency : α
  Q : α
  order : Int
  sampleRate : α
  bCoeffs : List α
  aCoeffs : List α
  xHistory : List α
  yHistory : List α
deriving DecidableEq, Repr

section Engine

variable {α : Type} [Field α]

/-- The state built by `Filter::Filter()`: the default member initialisers of
`Impl`; the four vectors are empty and `updateCoefficients` is not called. -/
def Impl.new : Impl α where
  type := FilterType.LOW_PASS
  cutoffFrequency := 1000
  highCutoffFrequency := 2000
  Q := 1
  order := 4
  sampleRate := 44100
  bCoeffs := []
  aCoeffs := []
  xHistory := []
  yHistory := []

/-- The member `Filter::Impl::resetHistory`. -/
def resetHistory (s : Impl α) : Impl α :=
  { s with xHistory := [], yHistory := [] }

/-- The `switch (type)` of `updateCoefficients`: the pair `(bCoeffs, aCoeffs)` it
assigns, from the fields of the state. The local `normalizedHighFreq`, which the
source computes and never reads, is left out. -/
def designCoeffs (m : MathPrims α) (s : Impl α) : List α × List α :=
  let normalizedFreq := s.cutoffFrequency / s.sampleRate
  match s.type with
  | FilterType.LOW_PASS =>
    let alpha := 1 / (1 + 2 * m.PI * normalizedFreq)
    ([alpha], [1, alpha - 1])
  | FilterType.HIGH_PASS =>
    let alpha := 1 / (1 + 2 * m.PI * normalizedFreq)
    ([1 - alpha], [1, alpha - 1])
  | FilterType.BAND_PASS =>
    let centerFreq := (s.cutoffFrequency + s.highCutoffFrequency) / 2
    let bandwidth := s.highCutoffFrequency - s.cutoffFrequency
    let normalizedCenter := centerFreq / s.sampleRate
    let normalizedBandwidth := bandwidth / s.sampleRate
    let alpha := m.tan (m.PI * normalizedBandwidth / 2)
    let beta := m.cos (2 * m.PI * normalizedCenter)
    let a0 := 1 + alpha
    ([alpha / a0, 0, (-alpha) / a0], [1, (-2) * beta / a0, (1 - alpha) / a0])
  | FilterType.BAND_STOP =>
    let centerFreq := (s.cutoffFrequency + s.highCutoffFrequency) / 2
    let bandwidth := s.highCutoffFrequency - s.cutoffFrequency
    let normalizedCenter := centerFreq / s.sampleRate
    let normalizedBandwidth := bandwidth / s.sampleRate
    let alpha := m.tan (m.PI * normalizedBandwidth / 2)
    let beta := m.cos (2 * m.PI * normalizedCenter)
    let a0 := 1 + alpha
    ([1 / a0, (-2) * beta / a0, 1 / a0], [1, (-2) * beta / a0, (1 - alpha) / a0])
  | FilterType.NOTCH =>
    let normalizedFreq := s.cutoffFrequency / s.sampleRate
    let alpha := m.tan (m.PI * normalizedFreq / s.Q)
    let a0 := 1 + alpha
    ([1 / a0, (-2) * m.cos (2 * m.PI * normalizedFreq) / a0, 1 / a0],
     [1, (-2) * m.cos (2 * m.PI * normalizedFreq) / a0, (1 - alpha) / a0])

/-- The member `Filter::Impl::updateCoefficients`: reset the history, clear both
coefficient vectors, assign them by filter type, and fall back to `{1.0}` for a
vector that is still empty. -/
def updateCoefficients (m : MathPrims α) (s : Impl α) : Impl α :=
  let s := resetHistory s
  let s := { s with bCoeffs := [], aCoeffs := [] }
  let s := { s with bCoeffs := (designCoeffs m s).1, aCoeffs := (designCoeffs m s).2 }
  let s := if s.bCoeffs.isEmpty then { s with bCoeffs := [1] } else s
  let s := if s.aCoeffs.isEmpty then { s with aCoeffs := [1] } else s
  s

/-- The member `Filter::designLowPass`. -/
def designLowPass (m : MathPrims α) (cutoffFreq sampleRate : α) (order : Int)
    (s : Impl α) : Impl α :=
  updateCoefficients m
    { s with type := FilterType.LOW_PASS, cutoffFrequency := cutoffFreq,
             sampleRate := sampleRate, order := order }

/-- The member `Filter::designHighPass`. -/
def designHighPass (m : MathPrims α) (cutoffFreq sampleRate : α) (order : Int)
    (s : Impl α) : Impl α :=
  updateCoefficients m
    { s with type := FilterType.HIGH_PASS, cutoffFrequency := cutoffFreq,
             sampleRate := sampleRate, order := order }

/-- The member `Filter::designBandPass`. -/
def designBandPass (m : MathPrims α) (lowFreq highFreq sampleRate : α) (order : Int)
    (s : Impl α) : Impl α :=
  updateCoefficients m
    { s with type := FilterType.BAND_PASS, cutoffFrequency := lowFreq,
             highCutoffFrequency := highFreq, sampleRate := sampleRate, order := order }

/-- The member `Filter::designBandStop`. -/
def designBandStop (m : MathPrims α) (lowFreq highFreq sampleRate : α) (order : Int)
    (s : Impl α) : Impl α :=
  updateCoefficients m
    { s with type := FilterType.BAND_STOP, cutoffFrequency := lowFreq,
             highCutoffFrequency := highFreq, sampleRate := sampleRate, order := order }

/-- The member `Filter::designNotch`. -/
def designNotch (m : MathPrims α) (frequency sampleRate Q : α) (s : Impl α) : Impl α :=
  updateCoefficients m
    { s with type := FilterType.NOTCH, cutoffFrequency := frequency,
             sampleRate := sampleRate, Q := Q }

/-- The feed-forward loop of `apply` at sample index `i` with current sample `x`,
started from the accumulator `y`: for `j = 0 .. bCoeffs.size()-1`, when `i >= j`,
add `bCoeffs[j] * (i - j < xHistory.size() ? xHistory[i - j] : x)`. -/
def feedForward (bCoeffs xHistory : List α) (i : Nat) (x y : α) : α :=
  (List.range bCoeffs.length).foldl
    (fun acc j =>
      if j ≤ i then
        acc + bCoeffs.getD j 0 * (if i - j < xHistory.length then xHistory.getD (i - j) 0 else x)
      else acc)
    y

/-- The feed-back loop of `apply` at sample index `i`, started from the
accumulator `y`: for `j = 1 .. aCoeffs.size()-1`, when `i >= j`, subtract
`aCoeffs[j] * (i - j < yHistory.size() ? yHistory[i - j] : 0.0)`. -/
def feedBack (aCoeffs yHistory : List α) (i : Nat) (y : α) : α :=
  (List.range' 1 (aCoeffs.length - 1)).foldl
    (fun acc j =>
      if j ≤ i then
        acc - aCoeffs.getD j 0 * (if i - j < yHistory.length then yHistory.getD (i - j) 0 else 0)
      else acc)
    y

/-- The history update of `apply`: `push_back` when the vector has at most `i`
elements, overwrite position `i` otherwise. -/
def recordAt (history : List α) (i : Nat) (v : α) : List α :=
  if history.length ≤ i then history ++ [v] else history.set i v

/-- The value `y` that one iteration of the outer loop of `apply` computes for
index `i` and sample `x`, before it is narrowed to `float`. -/
def sampleValue (s : Impl α) (i : Nat) (x : α) : α :=
  feedBack s.aCoeffs s.yHistory i (feedForward s.bCoeffs s.xHistory i x 0) / s.aCoeffs.getD 0 0

/-- The state after one iteration of the outer loop of `apply`. -/
def recordSample (s : Impl α) (i : Nat) (x : α) : Impl α :=
  { s with xHistory := recordAt s.xHistory i x,
           yHistory := recordAt s.yHistory i (sampleValue s i x) }

/-- The outer loop of `apply` from index `i` on, over the samples still to be
processed: the narrowed outputs and the final state. -/
def applyLoop (toFloat : α → α) : Nat → List α → Impl α → List α × Impl α
  | _, [], s => ([], s)
  | i, x :: rest, s =>
    let r := applyLoop toFloat (i + 1) rest (recordSample s i x)
    (toFloat (sampleValue s i x) :: r.1, r.2)

/-- The member `Filter::apply`: the returned vector and the state afterwards. -/
def apply (toFloat : α → α) (s : Impl α) (input : List α) : List α × Impl α :=
  if s.bCoeffs.isEmpty || s.aCoeffs.isEmpty then (input, s)
  else applyLoop toFloat 0 input s

/-- The state after a sequence of `apply` calls, one per chunk, first chunk
first; the returned vectors are dropped. -/
def applyAll (toFloat : α → α) (s : Impl α) (chunks : List (List α)) : Impl α :=
  chunks.foldl (fun st input => (apply toFloat st input).2) s

end Engine

section Controls

variable {α : Type} [LinearOrderedField α]

/-- The library function `std::max(a, b)`: `(a < b) ? b : a`. -/
def stdMax {β : Type} [LinearOrder β] (a b : β) : β := if a < b then b else a

/-- The library function `std::min(a, b)`: `(b < a) ? b : a`. -/
def stdMin {β : Type} [LinearOrder β] (a b : β) : β := if b < a then b else a

/-- The member `Filter::setCutoffFrequency`. -/
def setCutoffFrequency (m : MathPrims α) (freq : α) (s : Impl α) : Impl α :=
  updateCoefficients m
    { s with cutoffFrequency := stdMax 20 (stdMin freq (s.sampleRate / 2)) }

/-- The member `Filter::setQ`. -/
def setQ (m : MathPrims α) (q : α) (s : Impl α) : Impl α :=
  updateCoefficients m { s with Q := stdMax (1 / 10) (stdMin q 100) }

/-- The member `Filter::setOrder`. -/
def setOrder (m : MathPrims α) (order : Int) (s : Impl α) : Impl α :=
  updateCoefficients m { s with order := stdMax 1 (stdMin order 8) }

/-- The calls that change the state of a `Filter`: the members of `filter.hpp`
that are not `const`, and `reset`, which is `Impl::resetHistory`. -/
inductive Op (α : Type) where
  | designLowPass (cutoffFreq sampleRate : α) (order : Int)
  | designHighPass (cutoffFreq sampleRate : α) (order : Int)
  | designBandPass (lowFreq highFreq sampleRate : α) (order : Int)
  | designBandStop (lowFreq highFreq sampleRate : α) (order : Int)
  | designNotch (frequency sampleRate Q : α)
  | setCutoffFrequency (freq : α)
  | setQ (q : α)
  | setOrder (order : Int)
  | apply (input : List α)
  | reset

/-- Whether the call is a `design*` call or a setter, the calls that end in
`updateCoefficients`. -/
def Op.isDesign : Op α → Bool
  | Op.apply _ => false
  | Op.reset => false
  | _ => true

/-- The state after one call. -/
def step (m : MathPrims α) (toFloat : α → α) (s : Impl α) : Op α → Impl α
  | Op.designLowPass c r o => designLowPass m c r o s
  | Op.designHighPass c r o => designHighPass m c r o s
  | Op.designBandPass l h r o => designBandPass m l h r o s
  | Op.designBandStop l h r o => designBandStop m l h r o s
  | Op.designNotch f r q => designNotch m f r q s
  | Op.setCutoffFrequency f => setCutoffFrequency m f s
  | Op.setQ q => setQ m q s
  | Op.setOrder o => setOrder m o s
  | Op.apply input => (apply toFloat s input).2
  | Op.reset => resetHistory s

/-- The state after a sequence of calls, first call first. -/
def run (m : MathPrims α) (toFloat : α → α) (s : Impl α) (ops : List (Op α)) : Impl α :=
  ops.foldl (step m toFloat) s

/-- A state is reachable when some sequence of calls leads to it from the
freshly constructed engine. -/
def Reachable (m : MathPrims α) (toFloat : α → α) (s : Impl α) : Prop :=
  ∃ ops : List (Op α), run m toFloat Impl.new ops = s

end Controls

/-- The constant `MathUtils::PI` of `math_utils.hpp`, as the rational number its
decimal literal denotes. -/
def MathUtils.PI : ℚ := 3.14159265358979323846

/-- Rational primitives for evaluating the engine on concrete inputs: the
literal `MathUtils::PI`, and polynomial stand-ins for `std::tan` and
`std::cos`. -/
def ratPrims : MathPrims ℚ where
  PI := MathUtils.PI
  tan := fun x => x + x ^ 3 / 3
  cos := fun x => 1 - x ^ 2 / 2 + x ^ 4 / 24

/-- The direct-form difference equation in the words of the specification: the
sum of `b[j] * x[i-j]` over the taps `j < len(b)` with `j ≤ i`, minus the sum of
`a[j] * y[i-j]` over the taps `1 ≤ j < len(a)` with `j ≤ i`, divided by `a[0]`. -/
def differenceEquation {α : Type} [Field α] (b a x y : List α) (i : Nat) : α :=
  ((∑ j in Finset.range b.length, if j ≤ i then b.getD j 0 * x.getD (i - j) 0 else 0)
    - (∑ j in Finset.Ico 1 a.length, if j ≤ i then a.getD j 0 * y.getD (i - j) 0 else 0))
    / a.getD 0 0

section Accessors

variable {α : Type}

/-- The member `Filter::getType`. -/
def getType (s : Impl α) : FilterType := s.type

/-- The member `Filter::getCutoffFrequency`. -/
def getCutoffFrequency (s : Impl α) : α := s.cutoffFrequency

/-- The member `Filter::getQ`. -/
def getQ (s : Impl α) : α := s.Q

/-- The member `Filter::getOrder`. -/
def getOrder (s : Impl α) : Int := s.order

end Accessors

/-- The complex-number primitives of `getFrequencyResponse`, for complex numbers
`K` over the reals `α`: the constructor `std::complex<double>(re, im)`, the
library functions `std::exp` and `std::pow` (complex base, real exponent). -/
structure ComplexPrims (α K : Type) where
  complex : α → α → K
  exp : K → K
  pow : K → α → K

section Response

variable {α K : Type} [Field α] [Field K]

/-- One iteration of the outer loop of `getFrequencyResponse`: the value stored
in `response[i]`. The product of a `double` coefficient and a complex number is
the product with the coefficient as a complex number. -/
def responseAt (c : ComplexPrims α K) (m : MathPrims α) (s : Impl α) (numPoints : Int)
    (i : Nat) : K :=
  let frequency := ((i : α) / (numPoints : α)) * s.sampleRate / 2
  let omega := 2 * m.PI * frequency / s.sampleRate
  let z := c.exp (c.complex 0 omega)
  let numerator := (List.range s.bCoeffs.length).foldl
    (fun acc j => acc + c.complex (s.bCoeffs.getD j 0) 0 * c.pow z (-(j : α))) (c.complex 0 0)
  let denominator := (List.range s.aCoeffs.length).foldl
    (fun acc j => acc + c.complex (s.aCoeffs.getD j 0) 0 * c.pow z (-(j : α))) (c.complex 0 0)
  numerator / denominator

/-- The member `Filter::getFrequencyResponse`: the returned vector and the state
afterwards. The result is `none` when the constructor of the result vector
throws, which it does for a negative `numPoints` (converted to an element count
above `max_size()`). -/
def getFrequencyResponse (c : ComplexPrims α K) (m : MathPrims α) (s : Impl α)
    (numPoints : Int) : Option (List K) × Impl α :=
  if numPoints < 0 then (none, s)
  else (some ((List.range numPoints.toNat).map (responseAt c m s numPoints)), s)

end Response

/-- The primitives are the complex numbers of mathematics: `complex re im` is
`re + im*i`, `exp` is the complex exponential and `pow` the principal power. -/
def ComplexPrims.IsStandard (c : ComplexPrims ℝ ℂ) : Prop :=
  (∀ re im, c.complex re im = Complex.mk re im) ∧ (∀ z, c.exp z = Complex.exp z) ∧
    ∀ z x, c.pow z x = z ^ (x : ℂ)

section Ranges

variable {α : Type} [LinearOrderedField α]

/-- The ranges the specification documents for a `FilterSpec`: `order` in
`[1, 8]`, `Q` in `[0.1, 100]`, `cutoffFrequency` in `[20, sampleRate/2]`. -/
def SpecInRange (s : Impl α) : Prop :=
  1 ≤ s.order ∧ s.order ≤ 8 ∧ 1 / 10 ≤ s.Q ∧ s.Q ≤ 100 ∧
    20 ≤ s.cutoffFrequency ∧ s.cutoffFrequency ≤ s.sampleRate / 2

/-- The arguments of a `design*` call lie in the documented ranges; every other
call qualifies. -/
def Op.argsInRange : Op α → Prop
  | Op.designLowPass c r o => 20 ≤ c ∧ c ≤ r / 2 ∧ 1 ≤ o ∧ o ≤ 8
  | Op.designHighPass c r o => 20 ≤ c ∧ c ≤ r / 2 ∧ 1 ≤ o ∧ o ≤ 8
  | Op.designBandPass l _ r o => 20 ≤ l ∧ l ≤ r / 2 ∧ 1 ≤ o ∧ o ≤ 8
  | Op.designBandStop l _ r o => 20 ≤ l ∧ l ≤ r / 2 ∧ 1 ≤ o ∧ o ≤ 8
  | Op.designNotch f r q => 20 ≤ f ∧ f ≤ r / 2 ∧ 1 / 10 ≤ q ∧ q ≤ 100
  | _ => True

end Ranges

section Iterations

variable {α : Type} [Field α]

/-- The term that the feed-forward loop of `apply` adds for tap `j` at sample
index `i` (when `i >= j`):
`bCoeffs[j] * (i - j < xHistory.size() ? xHistory[i - j] : x)`. -/
def feedForwardTerm (bCoeffs xHistory : List α) (i : Nat) (x : α) (j : Nat) : α :=
  bCoeffs.getD j 0 * (if i - j < xHistory.length then xHistory.getD (i - j) 0 else x)

/-- The state in which iteration `i` of the outer loop of an `apply` call on
`input` starts: the state after the iterations `0, ..., i-1`. -/
def iterationState (toFloat : α → α) (s : Impl α) (input : List α) (i : Nat) : Impl α :=
  (applyLoop toFloat 0 (input.take i) s).2

end Iterations

namespace ieee

/-- Round a rational number to the nearest integer, a tie to the even
neighbour. -/
def roundNearestEven (q : ℚ) : ℤ :=
  if q - ⌊q⌋ < 1 / 2 then ⌊q⌋
  else if 1 / 2 < q - ⌊q⌋ then ⌊q⌋ + 1
  else if ⌊q⌋ % 2 = 0 then ⌊q⌋ else ⌊q⌋ + 1

/-- The binary exponent of the last place of the `double` values around `q`: 52
places below the leading bit of `q`, and not below the subnormal exponent
-1074. -/
def lastPlace (q : ℚ) : ℤ := max (Int.log 2 |q| - 52) (-1074)

/-- The value of type `double` (IEEE 754 binary64) nearest to the rational `q`,
a tie going to the even significand: the rounding of every `double` operation
of the source. Magnitudes of `2^1024` and above, infinities and NaN are not
represented. -/
def roundDouble (q : ℚ) : ℚ :=
  (roundNearestEven (q / 2 ^ lastPlace q) : ℚ) * 2 ^ lastPlace q

/-- The sum `a + b` of two `double` values. -/
def add (a b : ℚ) : ℚ := roundDouble (a + b)

/-- The difference `a - b` of two `double` values. -/
def sub (a b : ℚ) : ℚ := roundDouble (a - b)

/-- The product `a * b` of two `double` values. -/
def mul (a b : ℚ) : ℚ := roundDouble (a * b)

/-- The quotient `a / b` of two `double` values, for a non-zero `b`. -/
def div (a b : ℚ) : ℚ := roundDouble (a / b)

/-- The constant `MathUtils::PI` as the compiler stores it: the `double` nearest
to its decimal literal. -/
def PI : ℚ := roundDouble MathUtils.PI

/-- The `switch` of `Filter::Impl::updateCoefficients` in `double` arithmetic,
every operation rounded: the numerator and the denominator it assigns. The
fields of `m` are the `double` constant `MathUtils::PI` and the values the
library functions `std::tan` and `std::cos` return. -/
def designCoeffs (m : MathPrims ℚ) (s : Impl ℚ) : List ℚ × List ℚ :=
  let normalizedFreq := div s.cutoffFrequency s.sampleRate
  match s.type with
  | FilterType.LOW_PASS =>
    let alpha := div 1 (add 1 (mul (mul 2 m.PI) normalizedFreq))
    ([alpha], [1, sub alpha 1])
  | FilterType.HIGH_PASS =>
    let alpha := div 1 (add 1 (mul (mul 2 m.PI) normalizedFreq))
    ([sub 1 alpha], [1, sub alpha 1])
  | FilterType.BAND_PASS =>
    let centerFreq := div (add s.cutoffFrequency s.highCutoffFrequency) 2
    let bandwidth := sub s.highCutoffFrequency s.cutoffFrequency
    let normalizedCenter := div centerFreq s.sampleRate
    let normalizedBandwidth := div bandwidth s.sampleRate
    let alpha := m.tan (div (mul m.PI normalizedBandwidth) 2)
    let beta := m.cos (mul (mul 2 m.PI) normalizedCenter)
    let a0 := add 1 alpha
    ([div alpha a0, 0, div (-alpha) a0], [1, div (mul (-2) beta) a0, div (sub 1 alpha) a0])
  | FilterType.BAND_STOP =>
    let centerFreq := div (add s.cutoffFrequency s.highCutoffFrequency) 2
    let bandwidth := sub s.highCutoffFrequency s.cutoffFrequency
    let normalizedCenter := div centerFreq s.sampleRate
    let normalizedBandwidth := div bandwidth s.sampleRate
    let alpha := m.tan (div (mul m.PI normalizedBandwidth) 2)
    let beta := m.cos (mul (mul 2 m.PI) normalizedCenter)
    let a0 := add 1 alpha
    ([div 1 a0, div (mul (-2) beta) a0, div 1 a0],
     [1, div (mul (-2) beta) a0, div (sub 1 alpha) a0])
  | FilterType.NOTCH =>
    let normalizedFreq := div s.cutoffFrequency s.sampleRate
    let alpha := m.tan (div (mul m.PI normalizedFreq) s.Q)
    let a0 := add 1 alpha
    ([div 1 a0, div (mul (-2) (m.cos (mul (mul 2 m.PI) normalizedFreq))) a0, div 1 a0],
     [1, div (mul (-2) (m.cos (mul (mul 2 m.PI) normalizedFreq))) a0, div (sub 1 alpha) a0])

/-- The member `Filter::Impl::updateCoefficients` in `double` arithmetic. -/
def updateCoefficients (m : MathPrims ℚ) (s : Impl ℚ) : Impl ℚ :=
  let s := resetHistory s
  let s := { s with bCoeffs := [], aCoeffs := [] }
  let s := { s with bCoeffs := (designCoeffs m s).1, aCoeffs := (designCoeffs m s).2 }
  let s := if s.bCoeffs.isEmpty then { s with bCoeffs := [1] } else s
  let s := if s.aCoeffs.isEmpty then { s with aCoeffs := [1] } else s
  s

/-- The member `Filter::designLowPass` in `double` arithmetic. -/
def designLowPass (m : MathPrims ℚ) (cutoffFreq sampleRate : ℚ) (order : Int)
    (s : Impl ℚ) : Impl ℚ :=
  updateCoefficients m
    { s with type := FilterType.LOW_PASS, cutoffFrequency := cutoffFreq,
             sampleRate := sampleRate, order := order }

/-- The member `Filter::designBandPass` in `double` arithmetic. -/
def designBandPass (m : MathPrims ℚ) (lowFreq highFreq sampleRate : ℚ) (order : Int)
    (s : Impl ℚ) : Impl ℚ :=
  updateCoefficients m
    { s with type := FilterType.BAND_PASS, cutoffFrequency := lowFreq,
             highCutoffFrequency := highFreq, sampleRate := sampleRate, order := order }

/-- The member `Filter::designBandStop` in `double` arithmetic. -/
def designBandStop (m : MathPrims ℚ) (lowFreq highFreq sampleRate : ℚ) (order : Int)
    (s : Impl ℚ) : Impl ℚ :=
  updateCoefficients m
    { s with type := FilterType.BAND_STOP, cutoffFrequency := lowFreq,
             highCutoffFrequency := highFreq, sampleRate := sampleRate, order := order }

/-- The member `Filter::designNotch` in `double` arithmetic. -/
def designNotch (m : MathPrims ℚ) (frequency sampleRate Q : ℚ) (s : Impl ℚ) : Impl ℚ :=
  updateCoefficients m
    { s with type := FilterType.NOTCH, cutoffFrequency := frequency,
             sampleRate := sampleRate, Q := Q }

/-- The library functions on `std::complex<double>` that `getFrequencyResponse`
calls, a complex number being the pair of its real and imaginary `double`:
`std::exp`, `std::pow` with a `double` exponent, and the quotient `operator/`. -/
structure ComplexLib where
  exp : ℚ × ℚ → ℚ × ℚ
  pow : ℚ × ℚ → ℚ → ℚ × ℚ
  quotient : ℚ × ℚ → ℚ × ℚ → ℚ × ℚ

/-- The product of a `double` and a `std::complex<double>`: both parts are
multiplied by the `double`. -/
def scale (x : ℚ) (z : ℚ × ℚ) : ℚ × ℚ := (mul z.1 x, mul z.2 x)

/-- The sum of two `std::complex<double>`, part by part. -/
def cadd (u v : ℚ × ℚ) : ℚ × ℚ := (add u.1 v.1, add u.2 v.2)

/-- One iteration of the outer loop of `getFrequencyResponse` in `double`
arithmetic: the value stored in `response[i]`. -/
def responseAt (c : ComplexLib) (m : MathPrims ℚ) (s : Impl ℚ) (numPoints : Int)
    (i : Nat) : ℚ × ℚ :=
  let frequency := div (mul (div (i : ℚ) (numPoints : ℚ)) s.sampleRate) 2
  let omega := div (mul (mul 2 m.PI) frequency) s.sampleRate
  let z := c.exp (0, omega)
  let numerator := (List.range s.bCoeffs.length).foldl
    (fun acc j => cadd acc (scale (s.bCoeffs.getD j 0) (c.pow z (-(j : ℚ))))) (0, 0)
  let denominator := (List.range s.aCoeffs.length).foldl
    (fun acc j => cadd acc (scale (s.aCoeffs.getD j 0) (c.pow z (-(j : ℚ))))) (0, 0)
  c.quotient numerator denominator

/-- The member `Filter::getFrequencyResponse` in `double` arithmetic: the returned
vector, `none` when the constructor of the result vector throws. -/
def getFrequencyResponse (c : ComplexLib) (m : MathPrims ℚ) (s : Impl ℚ)
    (numPoints : Int) : Option (List (ℚ × ℚ)) :=
  if numPoints < 0 then none
  else some ((List.range numPoints.toNat).map (responseAt c m s numPoints))

end ieee

end signal

namespace utils

section Stereo

variable {α : Type} [Zero α]

/-- The function `AudioUtils::splitStereo`: the loop `for (i = 0; i < size; i += 2)`
runs for `i = 2*k`, `k = 0, ..., ceil(size/2) - 1`; each iteration appends
`stereo[i]` to `left` and, when `i + 1 < size`, `stereo[i + 1]` to `right`. -/
def AudioUtils.splitStereo (stereo : List α) : List α × List α :=
  (List.range ((stereo.length + 1) / 2)).foldl
    (fun acc k =>
      (acc.1 ++ [stereo.getD (2 * k) 0],
       if 2 * k + 1 < stereo.length then acc.2 ++ [stereo.getD (2 * k + 1) 0] else acc.2))
    ([], [])

/-- The function `AudioUtils::mergeStereo`: for `i` below the larger of the two
sizes, append `left[i]` (or `0.0f` past its end), then `right[i]` (or `0.0f`). -/
def AudioUtils.mergeStereo (left right : List α) : List α :=
  (List.range (max left.length right.length)).foldl
    (fun stereo i =>
      (stereo ++ [if i < left.length then left.getD i 0 else 0])
        ++ [if i < right.length then right.getD i 0 else 0])
    []

end Stereo

/-- How a run of a loop on 32-bit `int` ends: with a value, with a signed
overflow, or not within the iterations allowed to the model. -/
inductive Outcome where
  | value (v : Int)
  | overflow
  | unfinished
deriving DecidableEq, Repr

/-- The largest 32-bit `int`. -/
def INT_MAX : Int := 2147483647

/-- The function `MathUtils::isPowerOfTwo`: `n > 0 && (n & (n - 1)) == 0`. -/
def MathUtils.isPowerOfTwo (n : Int) : Bool :=
  decide (n > 0) && Int.land n (n - 1) == 0

/-- The loop `while (power < n) power <<= 1;` of `MathUtils::nextPowerOfTwo`, for
at most `fuel` evaluations of its condition. The shift of a positive `power`
doubles it, and overflows when the double is above `INT_MAX`. -/
def MathUtils.nextPowerOfTwoLoop (n : Int) : Nat → Int → Outcome
  | 0, _ => Outcome.unfinished
  | fuel + 1, power =>
    if power < n then
      if power * 2 ≤ INT_MAX then MathUtils.nextPowerOfTwoLoop n fuel (power * 2)
      else Outcome.overflow
    else Outcome.value power

/-- The function `MathUtils::nextPowerOfTwo`, its loop run for at most `fuel`
evaluations of the condition. -/
def MathUtils.nextPowerOfTwo (fuel : Nat) (n : Int) : Outcome :=
  if n ≤ 0 then Outcome.value 1 else MathUtils.nextPowerOfTwoLoop n fuel 1

end utils

namespace signal

section ListLemmas

/-- One iteration of the loop of `apply` at an index inside or at the end of a
history leaves its length, or adds one at the end. -/
theorem recordAt_length_eq {β : Type} (h : List β) (i : Nat) (v : β) (hi : i ≤ h.length) :
    (recordAt h i v).length = max h.length (i + 1) := by
  unfold recordAt
  split
  · rw [List.length_append, List.length_singleton]; omega
  · rw [List.length_set]; omega

end ListLemmas

section Lemmas

variable {α : Type} [Field α]

/-- A guarded accumulating loop over `s, s+1, ..., s+n-1` adds the guarded sum. -/
theorem foldl_range'_add (f : Nat → α) (i : Nat) (y : α) (s n : Nat) :
    (List.range' s n).foldl (fun acc j => if j ≤ i then acc + f j else acc) y
      = y + ∑ j in Finset.Ico s (s + n), if j ≤ i then f j else 0 := by
  induction n with
  | zero => simp
  | succ n ih =>
    rw [List.range'_1_concat, List.foldl_append, ih, ← Nat.add_assoc,
      Finset.sum_Ico_succ_top (Nat.le_add_right s n)]
    by_cases h : s + n ≤ i <;> simp [h, add_assoc]

/-- A guarded subtracting loop over `s, s+1, ..., s+n-1` subtracts the guarded sum. -/
theorem foldl_range'_sub (f : Nat → α) (i : Nat) (y : α) (s n : Nat) :
    (List.range' s n).foldl (fun acc j => if j ≤ i then acc - f j else acc) y
      = y - ∑ j in Finset.Ico s (s + n), if j ≤ i then f j else 0 := by
  induction n with
  | zero => simp
  | succ n ih =>
    rw [List.range'_1_concat, List.foldl_append, ih, ← Nat.add_assoc,
      Finset.sum_Ico_succ_top (Nat.le_add_right s n)]
    by_cases h : s + n ≤ i <;> simp [h, sub_sub]

/-- The feed-forward loop as a sum. -/
theorem feedForward_eq_sum (b xh : List α) (i : Nat) (x y : α) :
    feedForward b xh i x y
      = y + ∑ j in Finset.range b.length,
          if j ≤ i then b.getD j 0 * (if i - j < xh.length then xh.getD (i - j) 0 else x)
          else 0 := by
  unfold feedForward
  rw [List.range_eq_range', foldl_range'_add, Nat.zero_add, Finset.range_eq_Ico]

/-- The feed-back loop as a sum. -/
theorem feedBack_eq_sum (a yh : List α) (i : Nat) (y : α) :
    feedBack a yh i y
      = y - ∑ j in Finset.Ico 1 a.length,
          if j ≤ i then a.getD j 0 * (if i - j < yh.length then yh.getD (i - j) 0 else 0)
          else 0 := by
  unfold feedBack
  rw [foldl_range'_sub]
  by_cases h : a.length = 0
  · simp [h]
  · have : 1 + (a.length - 1) = a.length := by omega
    rw [this]

/-- The loop of `apply` leaves the coefficients and the filter parameters alone. -/
theorem applyLoop_frame (toFloat : α → α) (xs : List α) :
    ∀ (i : Nat) (s : Impl α),
      (applyLoop toFloat i xs s).2.bCoeffs = s.bCoeffs ∧
      (applyLoop toFloat i xs s).2.aCoeffs = s.aCoeffs := by
  induction xs with
  | nil => intro i s; simp [applyLoop]
  | cons x rest ih =>
    intro i s
    have h := ih (i + 1) (recordSample s i x)
    simpa [applyLoop, recordSample] using h

/-- The loop of `apply` produces one output per input sample. -/
theorem applyLoop_length (toFloat : α → α) (xs : List α) :
    ∀ (i : Nat) (s : Impl α), (applyLoop toFloat i xs s).1.length = xs.length := by
  induction xs with
  | nil => intro i s; simp [applyLoop]
  | cons x rest ih => intro i s; simp [applyLoop, ih]

/-- When both histories hold exactly the samples before index `i`, the value
computed at index `i` is the difference equation over the extended sequences. -/
theorem sampleValue_aligned (s : Impl α) (x : α) (xs ys : List α)
    (h : s.yHistory.length = s.xHistory.length) :
    sampleValue s s.xHistory.length x
      = differenceEquation s.bCoeffs s.aCoeffs (s.xHistory ++ x :: xs) (s.yHistory ++ ys)
          s.xHistory.length := by
  unfold sampleValue differenceEquation
  rw [feedBack_eq_sum, feedForward_eq_sum, zero_add]
  congr 2
  · apply Finset.sum_congr rfl
    intro j _
    by_cases hj : j ≤ s.xHistory.length
    · simp only [hj, if_true]
      by_cases h0 : j = 0
      · subst h0
        rw [Nat.sub_zero, if_neg (Nat.lt_irrefl _),
          List.getD_append_right _ _ _ _ (Nat.le_refl _), Nat.sub_self, List.getD_cons_zero]
      · have hlt : s.xHistory.length - j < s.xHistory.length := by omega
        rw [if_pos hlt, List.getD_append _ _ _ _ hlt]
    · simp only [hj, if_false]
  · apply Finset.sum_congr rfl
    intro j hmem
    by_cases hj : j ≤ s.xHistory.length
    · simp only [hj, if_true]
      have h1 : 1 ≤ j := (Finset.mem_Ico.mp hmem).1
      have hlt : s.xHistory.length - j < s.yHistory.length := by omega
      rw [if_pos hlt, List.getD_append _ _ _ _ hlt]
    · simp only [hj, if_false]

/-- From a state whose histories hold exactly the samples before the current
index, the loop of `apply` appends the inputs to `xHistory` and the computed
values to `yHistory`, returns the narrowed values, and every computed value
satisfies the difference equation over the whole sequences. -/
theorem applyLoop_aligned (toFloat : α → α) (xs : List α) :
    ∀ s : Impl α, s.yHistory.length = s.xHistory.length →
      ∃ ys : List α, ys.length = xs.length ∧
        (applyLoop toFloat s.xHistory.length xs s).2.xHistory = s.xHistory ++ xs ∧
        (applyLoop toFloat s.xHistory.length xs s).2.yHistory = s.yHistory ++ ys ∧
        (applyLoop toFloat s.xHistory.length xs s).1 = ys.map toFloat ∧
        ∀ k, k < xs.length →
          ys.getD k 0 = differenceEquation s.bCoeffs s.aCoeffs (s.xHistory ++ xs)
            (s.yHistory ++ ys) (s.xHistory.length + k) := by
  induction xs with
  | nil => intro s _; exact ⟨[], by simp [applyLoop]⟩
  | cons x rest ih =>
    intro s h
    have hx : (recordSample s s.xHistory.length x).xHistory = s.xHistory ++ [x] := by
      simp [recordSample, recordAt]
    have hy : (recordSample s s.xHistory.length x).yHistory
        = s.yHistory ++ [sampleValue s s.xHistory.length x] := by
      simp [recordSample, recordAt, h]
    have hlen : (recordSample s s.xHistory.length x).yHistory.length
        = (recordSample s s.xHistory.length x).xHistory.length := by
      rw [hx, hy]; simp [h]
    obtain ⟨ys, hys, h1, h2, h3, h4⟩ := ih (recordSample s s.xHistory.length x) hlen
    have hi : (recordSample s s.xHistory.length x).xHistory.length = s.xHistory.length + 1 := by
      rw [hx]; simp
    rw [hi] at h1 h2 h3 h4
    rw [hx] at h1 h4
    rw [hy] at h2 h4
    refine ⟨sampleValue s s.xHistory.length x :: ys, by simp [hys], ?_, ?_, ?_, ?_⟩
    · simpa [applyLoop] using h1
    · simpa [applyLoop] using h2
    · simpa [applyLoop] using h3
    · intro k hk
      cases k with
      | zero =>
        rw [List.getD_cons_zero, Nat.add_zero]
        exact sampleValue_aligned s x rest (sampleValue s s.xHistory.length x :: ys) h
      | succ k =>
        rw [List.getD_cons_succ, h4 k (by simpa using hk)]
        have e1 : (s.xHistory ++ [x]) ++ rest = s.xHistory ++ x :: rest := by simp
        have e2 : (s.yHistory ++ [sampleValue s s.xHistory.length x]) ++ ys
            = s.yHistory ++ sampleValue s s.xHistory.length x :: ys := by simp
        have e3 : s.xHistory.length + 1 + k = s.xHistory.length + (k + 1) := by omega
        rw [e1, e2, e3]
        rfl

/-- After `updateCoefficients` the input history is empty. -/
theorem updateCoefficients_xHistory (m : MathPrims α) (s : Impl α) :
    (updateCoefficients m s).xHistory = [] := by
  unfold updateCoefficients
  simp only [resetHistory]
  split <;> split <;> rfl

/-- After `updateCoefficients` the output history is empty. -/
theorem updateCoefficients_yHistory (m : MathPrims α) (s : Impl α) :
    (updateCoefficients m s).yHistory = [] := by
  unfold updateCoefficients
  simp only [resetHistory]
  split <;> split <;> rfl

/-- The coefficient vectors after `updateCoefficients` are the ones assigned by
the `switch`: the fallback to `{1.0}` never fires. -/
theorem updateCoefficients_coeffs (m : MathPrims α) (s : Impl α) :
    (updateCoefficients m s).bCoeffs = (designCoeffs m s).1 ∧
    (updateCoefficients m s).aCoeffs = (designCoeffs m s).2 := by
  obtain ⟨t, c, h, q, o, r, b, a, xh, yh⟩ := s
  cases t <;> simp [updateCoefficients, designCoeffs, resetHistory]

/-- The `switch` of `updateCoefficients` assigns a non-empty `bCoeffs`, and an
`aCoeffs` that starts with `1.0`. -/
theorem designCoeffs_shape (m : MathPrims α) (s : Impl α) :
    (designCoeffs m s).1 ≠ [] ∧ ∃ rest, (designCoeffs m s).2 = 1 :: rest := by
  obtain ⟨t, c, h, q, o, r, b, a, xh, yh⟩ := s
  cases t <;> simp [designCoeffs]

/-- After `updateCoefficients` the numerator is non-empty. -/
theorem updateCoefficients_bCoeffs_ne_nil (m : MathPrims α) (s : Impl α) :
    (updateCoefficients m s).bCoeffs ≠ [] := by
  rw [(updateCoefficients_coeffs m s).1]
  exact (designCoeffs_shape m s).1

/-- After `updateCoefficients` the denominator is non-empty. -/
theorem updateCoefficients_aCoeffs_ne_nil (m : MathPrims α) (s : Impl α) :
    (updateCoefficients m s).aCoeffs ≠ [] := by
  rw [(updateCoefficients_coeffs m s).2]
  obtain ⟨rest, h⟩ := (designCoeffs_shape m s).2
  rw [h]
  exact List.cons_ne_nil _ _

/-- After `updateCoefficients` the normalisation divisor `a[0]` is `1`. -/
theorem updateCoefficients_aCoeffs_head (m : MathPrims α) (s : Impl α) :
    (updateCoefficients m s).aCoeffs.head? = some 1 := by
  rw [(updateCoefficients_coeffs m s).2]
  obtain ⟨rest, h⟩ := (designCoeffs_shape m s).2
  rw [h]
  rfl

/-- Lengths of the histories after the loop of `apply`, started at an index not
beyond either history. -/
theorem applyLoop_history_length (toFloat : α → α) (xs : List α) :
    ∀ (i : Nat) (s : Impl α), i ≤ s.xHistory.length → i ≤ s.yHistory.length → xs ≠ [] →
      (applyLoop toFloat i xs s).2.xHistory.length = max s.xHistory.length (i + xs.length) ∧
      (applyLoop toFloat i xs s).2.yHistory.length = max s.yHistory.length (i + xs.length) := by
  induction xs with
  | nil => intro i s _ _ h; exact absurd rfl h
  | cons x rest ih =>
    intro i s hx hy _
    have h1 : (recordSample s i x).xHistory.length = max s.xHistory.length (i + 1) :=
      recordAt_length_eq s.xHistory i x hx
    have h2 : (recordSample s i x).yHistory.length = max s.yHistory.length (i + 1) :=
      recordAt_length_eq s.yHistory i (sampleValue s i x) hy
    by_cases hr : rest = []
    · subst hr
      simp only [applyLoop, List.length_singleton]
      exact ⟨h1, h2⟩
    · have h := ih (i + 1) (recordSample s i x) (by rw [h1]; exact Nat.le_max_right _ _)
        (by rw [h2]; exact Nat.le_max_right _ _) hr
      simp only [applyLoop, List.length_cons]
      obtain ⟨hA, hB⟩ := h
      constructor <;> omega

/-- Lengths of the histories after one `apply` call with non-empty coefficients:
the larger of the old length and the number of samples of the call. -/
theorem apply_history_length (toFloat : α → α) (s : Impl α) (input : List α)
    (hb : s.bCoeffs ≠ []) (ha : s.aCoeffs ≠ []) :
    (apply toFloat s input).2.xHistory.length = max s.xHistory.length input.length ∧
    (apply toFloat s input).2.yHistory.length = max s.yHistory.length input.length ∧
    (apply toFloat s input).2.bCoeffs = s.bCoeffs ∧
    (apply toFloat s input).2.aCoeffs = s.aCoeffs := by
  have hne : (s.bCoeffs.isEmpty || s.aCoeffs.isEmpty) = false := by
    cases hbb : s.bCoeffs with
    | nil => exact absurd hbb hb
    | cons _ _ =>
      cases haa : s.aCoeffs with
      | nil => exact absurd haa ha
      | cons _ _ => rfl
  unfold apply
  rw [hne]
  simp only [Bool.false_eq_true, if_false]
  refine ⟨?_, ?_, (applyLoop_frame toFloat input 0 s).1, (applyLoop_frame toFloat input 0 s).2⟩
  · by_cases hi : input = []
    · subst hi; simp [applyLoop]
    · have h := (applyLoop_history_length toFloat input 0 s (Nat.zero_le _) (Nat.zero_le _) hi).1
      simpa using h
  · by_cases hi : input = []
    · subst hi; simp [applyLoop]
    · have h := (applyLoop_history_length toFloat input 0 s (Nat.zero_le _) (Nat.zero_le _) hi).2
      simpa using h

/-- The loop of `apply` over `u ++ v` is the loop over `u` followed by the loop
over `v` continued at the next index, from the state the first one left. -/
theorem applyLoop_append (toFloat : α → α) (u v : List α) :
    ∀ (i : Nat) (s : Impl α),
      applyLoop toFloat i (u ++ v) s
        = ((applyLoop toFloat i u s).1
            ++ (applyLoop toFloat (i + u.length) v (applyLoop toFloat i u s).2).1,
           (applyLoop toFloat (i + u.length) v (applyLoop toFloat i u s).2).2) := by
  induction u with
  | nil => intro i s; simp [applyLoop]
  | cons x rest ih =>
    intro i s
    have e : i + 1 + rest.length = i + (rest.length + 1) := by omega
    have h := ih (i + 1) (recordSample s i x)
    rw [e] at h
    show (toFloat (sampleValue s i x) :: (applyLoop toFloat (i + 1) (rest ++ v) (recordSample s i x)).1,
        (applyLoop toFloat (i + 1) (rest ++ v) (recordSample s i x)).2) = _
    rw [h]
    rfl

/-- The member `apply` leaves both coefficient vectors as they were. -/
theorem apply_coeffs (toFloat : α → α) (s : Impl α) (input : List α) :
    (apply toFloat s input).2.bCoeffs = s.bCoeffs ∧
    (apply toFloat s input).2.aCoeffs = s.aCoeffs := by
  unfold apply
  split
  · exact ⟨rfl, rfl⟩
  · exact applyLoop_frame toFloat input 0 s

/-- An element of a list of zeros, or the default `0`, is `0`. -/
theorem getD_of_all_zero (l : List α) (hl : ∀ v ∈ l, v = 0) (k : Nat) : l.getD k 0 = 0 := by
  by_cases hk : k < l.length
  · rw [List.getD_eq_getElem _ _ hk]
    exact hl _ (List.getElem_mem hk)
  · exact List.getD_eq_default _ _ (Nat.le_of_not_lt hk)

/-- Recording a zero in a history of zeros gives a history of zeros. -/
theorem recordAt_all_zero (l : List α) (hl : ∀ v ∈ l, v = 0) (i : Nat) :
    ∀ v ∈ recordAt l i 0, v = 0 := by
  intro v hv
  unfold recordAt at hv
  split at hv
  · rcases List.mem_append.mp hv with h | h
    · exact hl v h
    · simpa using h
  · rcases List.mem_or_eq_of_mem_set hv with h | h
    · exact hl v h
    · exact h

/-- With histories of zeros, the value computed for a zero sample is zero. -/
theorem sampleValue_zero (s : Impl α) (hx : ∀ v ∈ s.xHistory, v = 0)
    (hy : ∀ v ∈ s.yHistory, v = 0) (i : Nat) : sampleValue s i 0 = 0 := by
  unfold sampleValue
  rw [feedBack_eq_sum, feedForward_eq_sum]
  have h1 : (∑ j in Finset.range s.bCoeffs.length,
      if j ≤ i then s.bCoeffs.getD j 0 *
        (if i - j < s.xHistory.length then s.xHistory.getD (i - j) 0 else 0) else 0) = 0 := by
    apply Finset.sum_eq_zero
    intro j _
    rw [getD_of_all_zero s.xHistory hx]
    simp
  have h2 : (∑ j in Finset.Ico 1 s.aCoeffs.length,
      if j ≤ i then s.aCoeffs.getD j 0 *
        (if i - j < s.yHistory.length then s.yHistory.getD (i - j) 0 else 0) else 0) = 0 := by
    apply Finset.sum_eq_zero
    intro j _
    rw [getD_of_all_zero s.yHistory hy]
    simp
  rw [h1, h2]
  simp

/-- With histories of zeros, the loop of `apply` maps zeros to narrowed zeros. -/
theorem applyLoop_zero (toFloat : α → α) (n : Nat) :
    ∀ (i : Nat) (s : Impl α), (∀ v ∈ s.xHistory, v = 0) → (∀ v ∈ s.yHistory, v = 0) →
      (applyLoop toFloat i (List.replicate n 0) s).1 = List.replicate n (toFloat 0) := by
  induction n with
  | zero => intro i s _ _; rfl
  | succ n ih =>
    intro i s hx hy
    have hv : sampleValue s i 0 = 0 := sampleValue_zero s hx hy i
    have h := ih (i + 1) (recordSample s i 0) (recordAt_all_zero s.xHistory hx i)
      (by
        show ∀ v ∈ recordAt s.yHistory i (sampleValue s i 0), v = 0
        rw [hv]
        exact recordAt_all_zero s.yHistory hy i)
    simp only [List.replicate_succ, applyLoop, hv, h]

end Lemmas

section Claims

variable {α : Type} [Field α]

/-- C4. For every engine state (coefficients empty or not, history empty or not)
and every input, the vector returned by `apply` has exactly as many elements as
the input. -/
theorem apply_length (toFloat : α → α) (s : Impl α) (input : List α) :
    (apply toFloat s input).1.length = input.length := by
  unfold apply
  split
  · rfl
  · exact applyLoop_length toFloat input 0 s

/-- C1. For an engine with non-empty coefficients and empty history, `apply(x)`
records in `yHistory` one value per input sample, returns those values narrowed
to `float`, and the value at every index `i < len(x)` satisfies the direct-form
difference equation with zero initial conditions:
`y[i] = (sum_{j < len b, j ≤ i} b[j]*x[i-j] - sum_{1 ≤ j < len a, j ≤ i} a[j]*y[i-j]) / a[0]`. -/
theorem apply_differenceEquation (toFloat : α → α) (s : Impl α)
    (hb : s.bCoeffs ≠ []) (ha : s.aCoeffs ≠ [])
    (hx : s.xHistory = []) (hy : s.yHistory = []) (x : List α) :
    (apply toFloat s x).2.yHistory.length = x.length ∧
    (apply toFloat s x).1 = (apply toFloat s x).2.yHistory.map toFloat ∧
    ∀ i, i < x.length →
      (apply toFloat s x).2.yHistory.getD i 0
        = differenceEquation s.bCoeffs s.aCoeffs x (apply toFloat s x).2.yHistory i := by
  have hne : (s.bCoeffs.isEmpty || s.aCoeffs.isEmpty) = false := by
    cases hbb : s.bCoeffs with
    | nil => exact absurd hbb hb
    | cons _ _ =>
      cases haa : s.aCoeffs with
      | nil => exact absurd haa ha
      | cons _ _ => rfl
  obtain ⟨ys, hys, _, h2, h3, h4⟩ := applyLoop_aligned toFloat x s (by rw [hx, hy])
  simp only [hx, hy, List.length_nil, List.nil_append, Nat.zero_add] at h2 h3 h4
  unfold apply
  rw [hne]
  simp only [Bool.false_eq_true, if_false]
  rw [h2, h3]
  exact ⟨hys, rfl, h4⟩

/-- Witness of C1: the low-pass design for 1000 Hz at 44100 Hz, fed the three
samples `1, 0, 0`. -/
theorem apply_differenceEquation_witness :
    (apply id (designLowPass ratPrims 1000 44100 4 Impl.new) [1, 0, 0]).2.yHistory.length
      = ([1, 0, 0] : List ℚ).length ∧
    (apply id (designLowPass ratPrims 1000 44100 4 Impl.new) [1, 0, 0]).1
      = (apply id (designLowPass ratPrims 1000 44100 4 Impl.new) [1, 0, 0]).2.yHistory.map id ∧
    ∀ i, i < ([1, 0, 0] : List ℚ).length →
      (apply id (designLowPass ratPrims 1000 44100 4 Impl.new) [1, 0, 0]).2.yHistory.getD i 0
        = differenceEquation (designLowPass ratPrims 1000 44100 4 Impl.new).bCoeffs
            (designLowPass ratPrims 1000 44100 4 Impl.new).aCoeffs [1, 0, 0]
            (apply id (designLowPass ratPrims 1000 44100 4 Impl.new) [1, 0, 0]).2.yHistory i :=
  apply_differenceEquation id (designLowPass ratPrims 1000 44100 4 Impl.new)
    (updateCoefficients_bCoeffs_ne_nil ratPrims _) (updateCoefficients_aCoeffs_ne_nil ratPrims _)
    (updateCoefficients_xHistory ratPrims _) (updateCoefficients_yHistory ratPrims _) [1, 0, 0]

/-- C2 as stated fails. The low-pass design for 1000 Hz at 44100 Hz has
non-empty coefficients and empty history; `apply([1])` followed by `apply([2])`
returns the output of the first call a second time, and the two outputs together
differ from the output of the single call `apply([1, 2])`. -/
theorem apply_chunked_ne_whole :
    (designLowPass ratPrims 1000 44100 4 Impl.new).bCoeffs ≠ [] ∧
    (designLowPass ratPrims 1000 44100 4 Impl.new).aCoeffs ≠ [] ∧
    (designLowPass ratPrims 1000 44100 4 Impl.new).xHistory = [] ∧
    (designLowPass ratPrims 1000 44100 4 Impl.new).yHistory = [] ∧
    (apply id (apply id (designLowPass ratPrims 1000 44100 4 Impl.new) [1]).2 [2]).1
      = (apply id (designLowPass ratPrims 1000 44100 4 Impl.new) [1]).1 ∧
    (apply id (designLowPass ratPrims 1000 44100 4 Impl.new) [1]).1
        ++ (apply id (apply id (designLowPass ratPrims 1000 44100 4 Impl.new) [1]).2 [2]).1
      ≠ (apply id (designLowPass ratPrims 1000 44100 4 Impl.new) [1, 2]).1 := by
  refine ⟨updateCoefficients_bCoeffs_ne_nil ratPrims _, updateCoefficients_aCoeffs_ne_nil ratPrims _,
    updateCoefficients_xHistory ratPrims _, updateCoefficients_yHistory ratPrims _, ?_⟩
  simp [apply, applyLoop, recordSample, recordAt, sampleValue, feedForward, feedBack,
    designLowPass, updateCoefficients, designCoeffs, resetHistory, Impl.new, ratPrims,
    MathUtils.PI, List.range, List.range.loop, List.range']
  norm_num

/-- C2, amended. The sample index restarts at 0 in every `apply` call. For every
engine state and all inputs `u` and `v`, the output of `apply(u)` is the first
`len(u)` elements of the output of the single call `apply(u ++ v)` from the same
state; with non-empty coefficients the remaining elements are what the loop of
`apply`, continued at index `len(u)` from the state `apply(u)` left, returns for
`v`. -/
theorem apply_append (toFloat : α → α) (s : Impl α) (u v : List α) :
    (apply toFloat s (u ++ v)).1.take u.length = (apply toFloat s u).1 ∧
    (s.bCoeffs ≠ [] → s.aCoeffs ≠ [] →
      (apply toFloat s (u ++ v)).1
        = (apply toFloat s u).1 ++ (applyLoop toFloat u.length v (apply toFloat s u).2).1) := by
  unfold apply
  split
  · next h =>
    refine ⟨by simp, ?_⟩
    intro hb ha
    cases hbb : s.bCoeffs with
    | nil => exact absurd hbb hb
    | cons _ _ =>
      cases haa : s.aCoeffs with
      | nil => exact absurd haa ha
      | cons _ _ => simp [hbb, haa] at h
  · have h := applyLoop_append toFloat u v 0 s
    rw [Nat.zero_add] at h
    rw [h]
    refine ⟨?_, fun _ _ => rfl⟩
    have hl := applyLoop_length toFloat u 0 s
    simp only
    rw [← hl, List.take_left]

/-- Witness of the amended C2: the low-pass design with `u = [1]` and `v = [2]`. -/
theorem apply_append_witness :
    (apply id (designLowPass ratPrims 1000 44100 4 Impl.new) ([1] ++ [2])).1.take
        ([1] : List ℚ).length
      = (apply id (designLowPass ratPrims 1000 44100 4 Impl.new) [1]).1 ∧
    (apply id (designLowPass ratPrims 1000 44100 4 Impl.new) ([1] ++ [2])).1
      = (apply id (designLowPass ratPrims 1000 44100 4 Impl.new) [1]).1
        ++ (applyLoop id ([1] : List ℚ).length [2]
            (apply id (designLowPass ratPrims 1000 44100 4 Impl.new) [1]).2).1 :=
  ⟨(apply_append id (designLowPass ratPrims 1000 44100 4 Impl.new) [1] [2]).1,
    (apply_append id (designLowPass ratPrims 1000 44100 4 Impl.new) [1] [2]).2
      (updateCoefficients_bCoeffs_ne_nil ratPrims _)
      (updateCoefficients_aCoeffs_ne_nil ratPrims _)⟩

/-- C3 as stated fails. After the low-pass design (non-empty coefficients, empty
history), the two calls `apply([1])` and `apply([2])` total two samples, and
both histories hold one element. -/
theorem applyAll_history_length_ne_total :
    (designLowPass ratPrims 1000 44100 4 Impl.new).bCoeffs ≠ [] ∧
    (designLowPass ratPrims 1000 44100 4 Impl.new).aCoeffs ≠ [] ∧
    (applyAll id (designLowPass ratPrims 1000 44100 4 Impl.new) [[1], [2]]).xHistory.length = 1 ∧
    (applyAll id (designLowPass ratPrims 1000 44100 4 Impl.new) [[1], [2]]).yHistory.length = 1 ∧
    ¬ ((applyAll id (designLowPass ratPrims 1000 44100 4 Impl.new) [[1], [2]]).xHistory.length
          = (([[1], [2]] : List (List ℚ)).map List.length).sum ∧
       (applyAll id (designLowPass ratPrims 1000 44100 4 Impl.new) [[1], [2]]).yHistory.length
          = (([[1], [2]] : List (List ℚ)).map List.length).sum) := by
  refine ⟨updateCoefficients_bCoeffs_ne_nil ratPrims _, updateCoefficients_aCoeffs_ne_nil ratPrims _,
    ?_⟩
  simp [applyAll, apply, applyLoop, recordSample, recordAt,
    designLowPass, updateCoefficients, designCoeffs, resetHistory, Impl.new]

/-- C3, amended. For every sequence of `apply` calls made on an engine with
non-empty coefficients, with no reset or design change in between, the length
of `xHistory` afterwards is the largest of its length before the calls and the
sample counts of the individual calls, and likewise for `yHistory`; from an
empty history it is the sample count of the longest call. -/
theorem applyAll_history_length (toFloat : α → α) (chunks : List (List α)) (s : Impl α)
    (hb : s.bCoeffs ≠ []) (ha : s.aCoeffs ≠ []) :
    (applyAll toFloat s chunks).xHistory.length
      = List.foldl max s.xHistory.length (chunks.map List.length) ∧
    (applyAll toFloat s chunks).yHistory.length
      = List.foldl max s.yHistory.length (chunks.map List.length) := by
  induction chunks generalizing s with
  | nil => exact ⟨rfl, rfl⟩
  | cons c rest ih =>
    obtain ⟨h1, h2, h3, h4⟩ := apply_history_length toFloat s c hb ha
    have h := ih (apply toFloat s c).2 (by rw [h3]; exact hb) (by rw [h4]; exact ha)
    rw [h1, h2] at h
    exact h

/-- Witness of the amended C3: three calls of 2, 3 and 1 samples from the empty
history of the low-pass design leave 3 elements in each history. -/
theorem applyAll_history_length_witness :
    (applyAll id (designLowPass ratPrims 1000 44100 4 Impl.new) [[1, 2], [3, 4, 5], [6]]).xHistory.length
      = List.foldl max (designLowPass ratPrims 1000 44100 4 Impl.new).xHistory.length
          (([[1, 2], [3, 4, 5], [6]] : List (List ℚ)).map List.length) ∧
    (applyAll id (designLowPass ratPrims 1000 44100 4 Impl.new) [[1, 2], [3, 4, 5], [6]]).yHistory.length
      = List.foldl max (designLowPass ratPrims 1000 44100 4 Impl.new).yHistory.length
          (([[1, 2], [3, 4, 5], [6]] : List (List ℚ)).map List.length) :=
  applyAll_history_length id [[1, 2], [3, 4, 5], [6]] (designLowPass ratPrims 1000 44100 4 Impl.new)
    (updateCoefficients_bCoeffs_ne_nil ratPrims _) (updateCoefficients_aCoeffs_ne_nil ratPrims _)

/-- C6. Zero in, zero out: on an engine whose history is empty and whose divisor
`a[0]`, when there is one, is not zero (the freshly constructed engine, and every
engine just designed, where `a[0] = 1`), `apply` maps the all-zero buffer of
length `n` to the all-zero buffer of length `n`; the narrowing to `float` maps
`0` to `0`. -/
theorem apply_zero (toFloat : α → α) (h0 : toFloat 0 = 0) (s : Impl α)
    (hx : s.xHistory = []) (hy : s.yHistory = []) (_ha : s.aCoeffs.head? ≠ some 0) (n : Nat) :
    (apply toFloat s (List.replicate n 0)).1 = List.replicate n 0 := by
  unfold apply
  split
  · rfl
  · rw [applyLoop_zero toFloat n 0 s (by simp [hx]) (by simp [hy]), h0]

/-- Witness of C6: the notch design for 1000 Hz at 44100 Hz with Q = 10, fed four
zeros. -/
theorem apply_zero_witness :
    (apply id (designNotch ratPrims 1000 44100 10 Impl.new) (List.replicate 4 0)).1
      = List.replicate 4 0 :=
  apply_zero id rfl (designNotch ratPrims 1000 44100 10 Impl.new)
    (updateCoefficients_xHistory ratPrims _) (updateCoefficients_yHistory ratPrims _)
    (by rw [designNotch, updateCoefficients_aCoeffs_head]; decide) 4

/-- C7. First-order designs: with `alpha = 1 / (1 + 2*PI*cutoffFrequency/sampleRate)`,
`updateCoefficients` sets `a = [1, alpha - 1]` for `LOW_PASS` and for `HIGH_PASS`,
`b = [alpha]` for `LOW_PASS` and `b = [1 - alpha]` for `HIGH_PASS`. -/
theorem updateCoefficients_firstOrder (m : MathPrims α) (s : Impl α) :
    (s.type = FilterType.LOW_PASS →
      (updateCoefficients m s).bCoeffs = [1 / (1 + 2 * m.PI * s.cutoffFrequency / s.sampleRate)] ∧
      (updateCoefficients m s).aCoeffs
        = [1, 1 / (1 + 2 * m.PI * s.cutoffFrequency / s.sampleRate) - 1]) ∧
    (s.type = FilterType.HIGH_PASS →
      (updateCoefficients m s).bCoeffs
        = [1 - 1 / (1 + 2 * m.PI * s.cutoffFrequency / s.sampleRate)] ∧
      (updateCoefficients m s).aCoeffs
        = [1, 1 / (1 + 2 * m.PI * s.cutoffFrequency / s.sampleRate) - 1]) := by
  obtain ⟨t, c, h, q, o, r, b, a, xh, yh⟩ := s
  rw [(updateCoefficients_coeffs m _).1, (updateCoefficients_coeffs m _).2]
  constructor <;> intro ht <;> simp only at ht <;> subst ht <;>
    simp [designCoeffs, mul_div_assoc]

/-- Witness of C7: the default parameters (1000 Hz at 44100 Hz), as low-pass and
as high-pass. -/
theorem updateCoefficients_firstOrder_witness :
    ((updateCoefficients ratPrims (Impl.new : Impl ℚ)).bCoeffs
        = [1 / (1 + 2 * ratPrims.PI * 1000 / 44100)] ∧
      (updateCoefficients ratPrims (Impl.new : Impl ℚ)).aCoeffs
        = [1, 1 / (1 + 2 * ratPrims.PI * 1000 / 44100) - 1]) ∧
    ((updateCoefficients ratPrims
          { (Impl.new : Impl ℚ) with type := FilterType.HIGH_PASS }).bCoeffs
        = [1 - 1 / (1 + 2 * ratPrims.PI * 1000 / 44100)] ∧
      (updateCoefficients ratPrims
          { (Impl.new : Impl ℚ) with type := FilterType.HIGH_PASS }).aCoeffs
        = [1, 1 / (1 + 2 * ratPrims.PI * 1000 / 44100) - 1]) :=
  ⟨(updateCoefficients_firstOrder ratPrims Impl.new).1 rfl,
    (updateCoefficients_firstOrder ratPrims
      { (Impl.new : Impl ℚ) with type := FilterType.HIGH_PASS }).2 rfl⟩

/-- C8. Band designs: with `center = (cutoffFrequency + highCutoffFrequency)/2`,
`bw = highCutoffFrequency - cutoffFrequency`, `alpha = tan(PI*(bw/sampleRate)/2)`,
`beta = cos(2*PI*center/sampleRate)` and `a0 = 1 + alpha`, both `BAND_PASS` and
`BAND_STOP` get `a = [1, -2*beta/a0, (1 - alpha)/a0]`; `BAND_PASS` gets
`b = [alpha/a0, 0, -alpha/a0]` and `BAND_STOP` gets `b = [1/a0, -2*beta/a0, 1/a0]`. -/
theorem updateCoefficients_band (m : MathPrims α) (s : Impl α) :
    let center := (s.cutoffFrequency + s.highCutoffFrequency) / 2
    let bw := s.highCutoffFrequency - s.cutoffFrequency
    let alpha := m.tan (m.PI * (bw / s.sampleRate) / 2)
    let beta := m.cos (2 * m.PI * center / s.sampleRate)
    let a0 := 1 + alpha
    (s.type = FilterType.BAND_PASS →
      (updateCoefficients m s).bCoeffs = [alpha / a0, 0, -alpha / a0] ∧
      (updateCoefficients m s).aCoeffs = [1, -2 * beta / a0, (1 - alpha) / a0]) ∧
    (s.type = FilterType.BAND_STOP →
      (updateCoefficients m s).bCoeffs = [1 / a0, -2 * beta / a0, 1 / a0] ∧
      (updateCoefficients m s).aCoeffs = [1, -2 * beta / a0, (1 - alpha) / a0]) := by
  obtain ⟨t, c, h, q, o, r, b, a, xh, yh⟩ := s
  rw [(updateCoefficients_coeffs m _).1, (updateCoefficients_coeffs m _).2]
  constructor <;> intro ht <;> simp only at ht <;> subst ht <;>
    simp [designCoeffs, mul_div_assoc]

/-- Witness of C8: the band 500 Hz to 2000 Hz at 44100 Hz, as band-pass and as
band-stop. -/
theorem updateCoefficients_band_witness :
    let alpha := ratPrims.tan (ratPrims.PI * ((2000 - 500) / 44100) / 2)
    let beta := ratPrims.cos (2 * ratPrims.PI * ((500 + 2000) / 2) / 44100)
    let a0 := 1 + alpha
    ((updateCoefficients ratPrims { (Impl.new : Impl ℚ) with
          type := FilterType.BAND_PASS, cutoffFrequency := 500 }).bCoeffs
        = [alpha / a0, 0, -alpha / a0] ∧
      (updateCoefficients ratPrims { (Impl.new : Impl ℚ) with
          type := FilterType.BAND_PASS, cutoffFrequency := 500 }).aCoeffs
        = [1, -2 * beta / a0, (1 - alpha) / a0]) ∧
    ((updateCoefficients ratPrims { (Impl.new : Impl ℚ) with
          type := FilterType.BAND_STOP, cutoffFrequency := 500 }).bCoeffs
        = [1 / a0, -2 * beta / a0, 1 / a0] ∧
      (updateCoefficients ratPrims { (Impl.new : Impl ℚ) with
          type := FilterType.BAND_STOP, cutoffFrequency := 500 }).aCoeffs
        = [1, -2 * beta / a0, (1 - alpha) / a0]) :=
  ⟨(updateCoefficients_band ratPrims { (Impl.new : Impl ℚ) with
        type := FilterType.BAND_PASS, cutoffFrequency := 500 }).1 rfl,
    (updateCoefficients_band ratPrims { (Impl.new : Impl ℚ) with
        type := FilterType.BAND_STOP, cutoffFrequency := 500 }).2 rfl⟩

/-- C9. Notch design: with `f_norm = cutoffFrequency/sampleRate`,
`alpha = tan(PI*f_norm/Q)`, `a0 = 1 + alpha` and `c = cos(2*PI*f_norm)`, for type
`NOTCH` `updateCoefficients` sets `b = [1/a0, -2*c/a0, 1/a0]` and
`a = [1, -2*c/a0, (1 - alpha)/a0]`, whatever `highCutoffFrequency` and `order`
are: replacing them changes neither vector. -/
theorem updateCoefficients_notch (m : MathPrims α) (s : Impl α)
    (ht : s.type = FilterType.NOTCH) :
    let f_norm := s.cutoffFrequency / s.sampleRate
    let alpha := m.tan (m.PI * f_norm / s.Q)
    let a0 := 1 + alpha
    let c := m.cos (2 * m.PI * f_norm)
    ((updateCoefficients m s).bCoeffs = [1 / a0, -2 * c / a0, 1 / a0] ∧
      (updateCoefficients m s).aCoeffs = [1, -2 * c / a0, (1 - alpha) / a0]) ∧
    ∀ (high : α) (order : Int),
      (updateCoefficients m { s with highCutoffFrequency := high, order := order }).bCoeffs
          = (updateCoefficients m s).bCoeffs ∧
      (updateCoefficients m { s with highCutoffFrequency := high, order := order }).aCoeffs
          = (updateCoefficients m s).aCoeffs := by
  obtain ⟨t, c, h, q, o, r, b, a, xh, yh⟩ := s
  simp only at ht
  subst ht
  simp only [(updateCoefficients_coeffs m _).1, (updateCoefficients_coeffs m _).2]
  simp [designCoeffs]

/-- Witness of C9: the notch at 1000 Hz, 44100 Hz sample rate, Q = 10. -/
theorem updateCoefficients_notch_witness :
    let f_norm : ℚ := 1000 / 44100
    let alpha := ratPrims.tan (ratPrims.PI * f_norm / 10)
    let a0 := 1 + alpha
    let c := ratPrims.cos (2 * ratPrims.PI * f_norm)
    ((updateCoefficients ratPrims { (Impl.new : Impl ℚ) with
          type := FilterType.NOTCH, Q := 10 }).bCoeffs = [1 / a0, -2 * c / a0, 1 / a0] ∧
      (updateCoefficients ratPrims { (Impl.new : Impl ℚ) with
          type := FilterType.NOTCH, Q := 10 }).aCoeffs = [1, -2 * c / a0, (1 - alpha) / a0]) ∧
    ∀ (high : ℚ) (order : Int),
      (updateCoefficients ratPrims { (Impl.new : Impl ℚ) with
          type := FilterType.NOTCH, Q := 10, highCutoffFrequency := high,
          order := order }).bCoeffs
        = (updateCoefficients ratPrims { (Impl.new : Impl ℚ) with
            type := FilterType.NOTCH, Q := 10 }).bCoeffs ∧
      (updateCoefficients ratPrims { (Impl.new : Impl ℚ) with
          type := FilterType.NOTCH, Q := 10, highCutoffFrequency := high,
          order := order }).aCoeffs
        = (updateCoefficients ratPrims { (Impl.new : Impl ℚ) with
            type := FilterType.NOTCH, Q := 10 }).aCoeffs :=
  updateCoefficients_notch ratPrims { (Impl.new : Impl ℚ) with
    type := FilterType.NOTCH, Q := 10 } rfl

/-- C10. Notch impulse response: for every engine state, after
`designNotch(f, sampleRate, Q)` the call `apply([1,0,0,0,0])` returns the narrowed
values `h0 = b0`, `h1 = b1 - a1*h0`, `h2 = b2 - a1*h1 - a2*h0`,
`h3 = -a1*h2 - a2*h1`, `h4 = -a1*h3 - a2*h2`, where `b` and `a` are the `NOTCH`
coefficients for `(f, sampleRate, Q)`. -/
theorem designNotch_impulse (m : MathPrims α) (toFloat : α → α) (s : Impl α)
    (f sampleRate Q : α) :
    let alpha := m.tan (m.PI * (f / sampleRate) / Q)
    let a0 := 1 + alpha
    let c := m.cos (2 * m.PI * (f / sampleRate))
    let b0 := 1 / a0
    let b1 := -2 * c / a0
    let b2 := 1 / a0
    let a1 := -2 * c / a0
    let a2 := (1 - alpha) / a0
    let h0 := b0
    let h1 := b1 - a1 * h0
    let h2 := b2 - a1 * h1 - a2 * h0
    let h3 := -a1 * h2 - a2 * h1
    let h4 := -a1 * h3 - a2 * h2
    (apply toFloat (designNotch m f sampleRate Q s) [1, 0, 0, 0, 0]).1
      = [toFloat h0, toFloat h1, toFloat h2, toFloat h3, toFloat h4] := by
  have hb := (updateCoefficients_coeffs m
    { s with type := FilterType.NOTCH, cutoffFrequency := f, sampleRate := sampleRate,
             Q := Q }).1
  have ha := (updateCoefficients_coeffs m
    { s with type := FilterType.NOTCH, cutoffFrequency := f, sampleRate := sampleRate,
             Q := Q }).2
  have hx := updateCoefficients_xHistory m
    { s with type := FilterType.NOTCH, cutoffFrequency := f, sampleRate := sampleRate,
             Q := Q }
  have hy := updateCoefficients_yHistory m
    { s with type := FilterType.NOTCH, cutoffFrequency := f, sampleRate := sampleRate,
             Q := Q }
  simp only [designCoeffs] at hb ha
  simp [apply, designNotch, applyLoop, recordSample, recordAt, sampleValue, feedForward,
    feedBack, hb, ha, hx, hy, List.range, List.range.loop, List.range']

/-- The scenario of C10: `designNotch(1000, 44100, 10)` on the freshly constructed
engine, then `apply([1,0,0,0,0])`. -/
theorem designNotch_impulse_witness :
    let alpha := ratPrims.tan (ratPrims.PI * (1000 / 44100) / 10)
    let a0 := 1 + alpha
    let c := ratPrims.cos (2 * ratPrims.PI * (1000 / 44100))
    let b0 := 1 / a0
    let b1 := -2 * c / a0
    let b2 := 1 / a0
    let a1 := -2 * c / a0
    let a2 := (1 - alpha) / a0
    let h0 := b0
    let h1 := b1 - a1 * h0
    let h2 := b2 - a1 * h1 - a2 * h0
    let h3 := -a1 * h2 - a2 * h1
    let h4 := -a1 * h3 - a2 * h2
    (apply id (designNotch ratPrims 1000 44100 10 Impl.new) [1, 0, 0, 0, 0]).1
      = [id h0, id h1, id h2, id h3, id h4] :=
  designNotch_impulse ratPrims id Impl.new 1000 44100 10

end Claims

section ReachableLemmas

variable {α : Type} [LinearOrderedField α]

/-- A `design*` call or a setter leaves both coefficient vectors non-empty. -/
theorem step_design_coeffs (m : MathPrims α) (toFloat : α → α) (s : Impl α) (op : Op α)
    (h : op.isDesign = true) :
    (step m toFloat s op).bCoeffs ≠ [] ∧ (step m toFloat s op).aCoeffs ≠ [] := by
  cases op with
  | apply input => exact absurd h (by simp [Op.isDesign])
  | reset => exact absurd h (by simp [Op.isDesign])
  | _ => exact ⟨updateCoefficients_bCoeffs_ne_nil m _, updateCoefficients_aCoeffs_ne_nil m _⟩

/-- An `apply` call or a reset leaves both coefficient vectors as they were. -/
theorem step_other_coeffs (m : MathPrims α) (toFloat : α → α) (s : Impl α) (op : Op α)
    (h : op.isDesign = false) :
    (step m toFloat s op).bCoeffs = s.bCoeffs ∧ (step m toFloat s op).aCoeffs = s.aCoeffs := by
  cases op with
  | apply input => exact apply_coeffs toFloat s input
  | reset => exact ⟨rfl, rfl⟩
  | _ => exact absurd h (by simp [Op.isDesign])

/-- Along any sequence of calls: non-empty coefficients stay non-empty, a
`design*` call or setter makes them non-empty, and without one they stay as they
were. -/
theorem run_coeffs (m : MathPrims α) (toFloat : α → α) (ops : List (Op α)) :
    ∀ s : Impl α,
      ((s.bCoeffs ≠ [] ∧ s.aCoeffs ≠ []) →
        (run m toFloat s ops).bCoeffs ≠ [] ∧ (run m toFloat s ops).aCoeffs ≠ []) ∧
      (ops.any Op.isDesign = true →
        (run m toFloat s ops).bCoeffs ≠ [] ∧ (run m toFloat s ops).aCoeffs ≠ []) ∧
      (ops.any Op.isDesign = false →
        (run m toFloat s ops).bCoeffs = s.bCoeffs ∧ (run m toFloat s ops).aCoeffs = s.aCoeffs) := by
  induction ops with
  | nil => intro s; simp [run]
  | cons op rest ih =>
    intro s
    obtain ⟨ih1, ih2, ih3⟩ := ih (step m toFloat s op)
    have hrun : run m toFloat s (op :: rest) = run m toFloat (step m toFloat s op) rest := rfl
    rw [hrun]
    cases hd : op.isDesign with
    | true =>
      have hs := step_design_coeffs m toFloat s op hd
      refine ⟨fun _ => ih1 hs, fun _ => ih1 hs, ?_⟩
      intro hany
      simp [List.any_cons, hd] at hany
    | false =>
      have hs := step_other_coeffs m toFloat s op hd
      refine ⟨?_, ?_, ?_⟩
      · intro h
        exact ih1 (by rw [hs.1, hs.2]; exact h)
      · intro hany
        simp only [List.any_cons, hd, Bool.false_or] at hany
        exact ih2 hany
      · intro hany
        simp only [List.any_cons, hd, Bool.false_or] at hany
        rw [(ih3 hany).1, (ih3 hany).2]
        exact hs

end ReachableLemmas

section ReachableClaims

variable {α : Type} [LinearOrderedField α]

/-- C5 as stated fails. The freshly constructed engine is reachable (by the empty
sequence of calls) and both of its coefficient vectors are empty, so `apply`
takes the branch that returns the input. -/
theorem reachable_new_coeffs_empty :
    Reachable ratPrims id (Impl.new : Impl ℚ) ∧
    (Impl.new : Impl ℚ).bCoeffs = [] ∧ (Impl.new : Impl ℚ).aCoeffs = [] ∧
    apply id (Impl.new : Impl ℚ) [1, 2] = ([1, 2], Impl.new) :=
  ⟨⟨[], rfl⟩, rfl, rfl, rfl⟩

/-- C5, amended. In every state reached from construction by a sequence of calls
that contains at least one `design*` call or setter, `bCoeffs` and `aCoeffs` are
both non-empty; in every state reached by a sequence without one (the freshly
constructed engine, possibly after `apply` calls) both are empty. -/
theorem reachable_coeffs (m : MathPrims α) (toFloat : α → α) (ops : List (Op α)) :
    (ops.any Op.isDesign = true →
      (run m toFloat Impl.new ops).bCoeffs ≠ [] ∧ (run m toFloat Impl.new ops).aCoeffs ≠ []) ∧
    (ops.any Op.isDesign = false →
      (run m toFloat Impl.new ops).bCoeffs = [] ∧ (run m toFloat Impl.new ops).aCoeffs = []) :=
  ⟨(run_coeffs m toFloat ops Impl.new).2.1, (run_coeffs m toFloat ops Impl.new).2.2⟩

/-- Witness of the amended C5: a sequence with a design call, and one without. -/
theorem reachable_coeffs_witness :
    ((run ratPrims id Impl.new [Op.apply [1], Op.designNotch 1000 44100 10, Op.apply [1, 0]]).bCoeffs
        ≠ [] ∧
      (run ratPrims id Impl.new [Op.apply [1], Op.designNotch 1000 44100 10, Op.apply [1, 0]]).aCoeffs
        ≠ []) ∧
    ((run ratPrims id Impl.new [Op.apply [1], Op.reset, Op.apply [1, 0]]).bCoeffs = [] ∧
      (run ratPrims id Impl.new [Op.apply [1], Op.reset, Op.apply [1, 0]]).aCoeffs = []) :=
  ⟨(reachable_coeffs ratPrims id [Op.apply [1], Op.designNotch 1000 44100 10, Op.apply [1, 0]]).1
      (by decide),
    (reachable_coeffs ratPrims id [Op.apply [1], Op.reset, Op.apply [1, 0]]).2 (by decide)⟩

end ReachableClaims

section SpecLemmas

variable {α : Type} [Field α]

/-- The member `updateCoefficients` leaves every `FilterSpec` field as it was. -/
theorem updateCoefficients_spec (m : MathPrims α) (s : Impl α) :
    (updateCoefficients m s).type = s.type ∧
    (updateCoefficients m s).cutoffFrequency = s.cutoffFrequency ∧
    (updateCoefficients m s).highCutoffFrequency = s.highCutoffFrequency ∧
    (updateCoefficients m s).Q = s.Q ∧
    (updateCoefficients m s).order = s.order ∧
    (updateCoefficients m s).sampleRate = s.sampleRate := by
  unfold updateCoefficients
  simp only [resetHistory]
  split <;> split <;> exact ⟨rfl, rfl, rfl, rfl, rfl, rfl⟩

/-- The `switch` of `updateCoefficients` reads the type, the two cutoff
frequencies, `Q` and the sample rate, and nothing else. -/
theorem designCoeffs_congr (m : MathPrims α) (s₁ s₂ : Impl α)
    (ht : s₁.type = s₂.type) (hc : s₁.cutoffFrequency = s₂.cutoffFrequency)
    (hh : s₁.highCutoffFrequency = s₂.highCutoffFrequency) (hq : s₁.Q = s₂.Q)
    (hr : s₁.sampleRate = s₂.sampleRate) : designCoeffs m s₁ = designCoeffs m s₂ := by
  unfold designCoeffs
  rw [ht, hc, hh, hq, hr]

/-- The loop of `apply` does not read the `order` field and hands it on. -/
theorem applyLoop_order (toFloat : α → α) (o : Int) (xs : List α) :
    ∀ (i : Nat) (s : Impl α),
      applyLoop toFloat i xs { s with order := o }
        = ((applyLoop toFloat i xs s).1, { (applyLoop toFloat i xs s).2 with order := o }) := by
  induction xs with
  | nil => intro i s; rfl
  | cons x rest ih =>
    intro i s
    have h := ih (i + 1) (recordSample s i x)
    show (toFloat (sampleValue s i x) ::
        (applyLoop toFloat (i + 1) rest { recordSample s i x with order := o }).1,
        (applyLoop toFloat (i + 1) rest { recordSample s i x with order := o }).2) = _
    rw [h]
    rfl

/-- The fields that `designLowPass` stores. -/
theorem designLowPass_fields (m : MathPrims α) (s : Impl α) (c r : α) (o : Int) :
    (designLowPass m c r o s).type = FilterType.LOW_PASS ∧
    (designLowPass m c r o s).cutoffFrequency = c ∧
    (designLowPass m c r o s).order = o := by
  obtain ⟨h1, h2, _, _, h5, _⟩ := updateCoefficients_spec m
    { s with type := FilterType.LOW_PASS, cutoffFrequency := c, sampleRate := r, order := o }
  exact ⟨h1, h2, h5⟩

/-- The member `updateCoefficients` does not read the `order` field and hands it
on. -/
theorem updateCoefficients_order (m : MathPrims α) (s : Impl α) (o : Int) :
    updateCoefficients m { s with order := o } = { updateCoefficients m s with order := o } := by
  obtain ⟨t, c, h, q, o', r, b, a, xh, yh⟩ := s
  cases t <;> simp [updateCoefficients, designCoeffs, resetHistory]

/-- The member `apply` does not read the `order` field and hands it on. -/
theorem apply_order (toFloat : α → α) (s : Impl α) (o : Int) (input : List α) :
    apply toFloat { s with order := o } input
      = ((apply toFloat s input).1, { (apply toFloat s input).2 with order := o }) := by
  unfold apply
  split
  · rfl
  · exact applyLoop_order toFloat o input 0 s

/-- The loop of `apply` leaves every `FilterSpec` field as it was. -/
theorem applyLoop_spec (toFloat : α → α) (xs : List α) :
    ∀ (i : Nat) (s : Impl α),
      (applyLoop toFloat i xs s).2.type = s.type ∧
      (applyLoop toFloat i xs s).2.cutoffFrequency = s.cutoffFrequency ∧
      (applyLoop toFloat i xs s).2.highCutoffFrequency = s.highCutoffFrequency ∧
      (applyLoop toFloat i xs s).2.Q = s.Q ∧
      (applyLoop toFloat i xs s).2.order = s.order ∧
      (applyLoop toFloat i xs s).2.sampleRate = s.sampleRate := by
  induction xs with
  | nil => intro i s; exact ⟨rfl, rfl, rfl, rfl, rfl, rfl⟩
  | cons x rest ih =>
    intro i s
    exact ih (i + 1) (recordSample s i x)

/-- The member `apply` leaves every `FilterSpec` field as it was. -/
theorem apply_spec (toFloat : α → α) (s : Impl α) (input : List α) :
    (apply toFloat s input).2.type = s.type ∧
    (apply toFloat s input).2.cutoffFrequency = s.cutoffFrequency ∧
    (apply toFloat s input).2.highCutoffFrequency = s.highCutoffFrequency ∧
    (apply toFloat s input).2.Q = s.Q ∧
    (apply toFloat s input).2.order = s.order ∧
    (apply toFloat s input).2.sampleRate = s.sampleRate := by
  unfold apply
  split
  · exact ⟨rfl, rfl, rfl, rfl, rfl, rfl⟩
  · exact applyLoop_spec toFloat input 0 s

end SpecLemmas

section SpecClaims

variable {α : Type} [Field α]

/-- C11. For every filter type and every value of `cutoffFrequency`,
`highCutoffFrequency`, `Q`, `order` and `sampleRate` (every state), after
`updateCoefficients` both `bCoeffs` and `aCoeffs` are non-empty. -/
theorem updateCoefficients_nonempty (m : MathPrims α) (s : Impl α) :
    (updateCoefficients m s).bCoeffs ≠ [] ∧ (updateCoefficients m s).aCoeffs ≠ [] :=
  ⟨updateCoefficients_bCoeffs_ne_nil m s, updateCoefficients_aCoeffs_ne_nil m s⟩

/-- C16. Design-then-query round trip: for every cutoff, sample rate and order,
after `designLowPass(cutoff, sampleRate, order)` the accessors give
`getType() = LOW_PASS`, `getCutoffFrequency() = cutoff` and `getOrder() = order`. -/
theorem designLowPass_query (m : MathPrims α) (s : Impl α) (cutoff sampleRate : α)
    (order : Int) :
    getType (designLowPass m cutoff sampleRate order s) = FilterType.LOW_PASS ∧
    getCutoffFrequency (designLowPass m cutoff sampleRate order s) = cutoff ∧
    getOrder (designLowPass m cutoff sampleRate order s) = order := by
  obtain ⟨h1, h2, _, _, h5, _⟩ := updateCoefficients_spec m
    { s with type := FilterType.LOW_PASS, cutoffFrequency := cutoff,
             sampleRate := sampleRate, order := order }
  exact ⟨h1, h2, h5⟩

/-- The scenario of C16: `designLowPass(1000, 44100, 4)` on the freshly
constructed engine. -/
theorem designLowPass_query_witness :
    getType (designLowPass ratPrims 1000 44100 4 Impl.new) = FilterType.LOW_PASS ∧
    getCutoffFrequency (designLowPass ratPrims 1000 44100 4 Impl.new) = 1000 ∧
    getOrder (designLowPass ratPrims 1000 44100 4 Impl.new) = 4 :=
  designLowPass_query ratPrims Impl.new 1000 44100 4

/-- C18. The `order` field never influences the coefficients: for two states that
agree on type, `cutoffFrequency`, `highCutoffFrequency`, `Q` and `sampleRate`,
`updateCoefficients` produces the same `bCoeffs` and the same `aCoeffs`; and
`designLowPass(c, sr, o1)` and `designLowPass(c, sr, o2)` from the same state
give the same `apply` output on the same input. -/
theorem updateCoefficients_order_irrelevant (m : MathPrims α) (s₁ s₂ : Impl α)
    (ht : s₁.type = s₂.type) (hc : s₁.cutoffFrequency = s₂.cutoffFrequency)
    (hh : s₁.highCutoffFrequency = s₂.highCutoffFrequency) (hq : s₁.Q = s₂.Q)
    (hr : s₁.sampleRate = s₂.sampleRate) :
    (updateCoefficients m s₁).bCoeffs = (updateCoefficients m s₂).bCoeffs ∧
    (updateCoefficients m s₁).aCoeffs = (updateCoefficients m s₂).aCoeffs ∧
    ∀ (toFloat : α → α) (s : Impl α) (c sr : α) (o₁ o₂ : Int) (input : List α),
      (apply toFloat (designLowPass m c sr o₁ s) input).1
        = (apply toFloat (designLowPass m c sr o₂ s) input).1 := by
  refine ⟨?_, ?_, ?_⟩
  · rw [(updateCoefficients_coeffs m s₁).1, (updateCoefficients_coeffs m s₂).1,
      designCoeffs_congr m s₁ s₂ ht hc hh hq hr]
  · rw [(updateCoefficients_coeffs m s₁).2, (updateCoefficients_coeffs m s₂).2,
      designCoeffs_congr m s₁ s₂ ht hc hh hq hr]
  · intro toFloat s c sr o₁ o₂ input
    have key : ∀ o : Int, (apply toFloat (designLowPass m c sr o s) input).1
        = (apply toFloat (updateCoefficients m
            { s with type := FilterType.LOW_PASS, cutoffFrequency := c, sampleRate := sr })
            input).1 := by
      intro o
      have e : designLowPass m c sr o s
          = { updateCoefficients m
                { s with type := FilterType.LOW_PASS, cutoffFrequency := c, sampleRate := sr }
              with order := o } :=
        updateCoefficients_order m
          { s with type := FilterType.LOW_PASS, cutoffFrequency := c, sampleRate := sr } o
      rw [e, apply_order]
    rw [key o₁, key o₂]

/-- Witness of C18: the default low-pass parameters with orders 4 and 7. -/
theorem updateCoefficients_order_irrelevant_witness :
    (updateCoefficients ratPrims (Impl.new : Impl ℚ)).bCoeffs
      = (updateCoefficients ratPrims { (Impl.new : Impl ℚ) with order := 7 }).bCoeffs ∧
    (updateCoefficients ratPrims (Impl.new : Impl ℚ)).aCoeffs
      = (updateCoefficients ratPrims { (Impl.new : Impl ℚ) with order := 7 }).aCoeffs ∧
    ∀ (toFloat : ℚ → ℚ) (s : Impl ℚ) (c sr : ℚ) (o₁ o₂ : Int) (input : List ℚ),
      (apply toFloat (designLowPass ratPrims c sr o₁ s) input).1
        = (apply toFloat (designLowPass ratPrims c sr o₂ s) input).1 :=
  updateCoefficients_order_irrelevant ratPrims Impl.new { (Impl.new : Impl ℚ) with order := 7 }
    rfl rfl rfl rfl rfl

end SpecClaims

section ControlLemmas

variable {α : Type} [LinearOrderedField α]

/-- The library function `std::max` is the maximum. -/
theorem stdMax_eq_max {β : Type} [LinearOrder β] (a b : β) : stdMax a b = max a b := by
  unfold stdMax
  split
  · next h => exact (max_eq_right (le_of_lt h)).symm
  · next h => exact (max_eq_left (le_of_not_lt h)).symm

/-- The library function `std::min` is the minimum. -/
theorem stdMin_eq_min {β : Type} [LinearOrder β] (a b : β) : stdMin a b = min a b := by
  unfold stdMin
  split
  · next h => exact (min_eq_right (le_of_lt h)).symm
  · next h => exact (min_eq_left (le_of_not_lt h)).symm

/-- The member `updateCoefficients` keeps a `FilterSpec` that is in range in
range. -/
theorem updateCoefficients_specInRange (m : MathPrims α) (s : Impl α) (h : SpecInRange s) :
    SpecInRange (updateCoefficients m s) := by
  obtain ⟨_, e2, _, e4, e5, e6⟩ := updateCoefficients_spec m s
  unfold SpecInRange
  rw [e2, e4, e5, e6]
  exact h

/-- A call whose arguments are in range keeps the `FilterSpec` in range. -/
theorem step_specInRange (m : MathPrims α) (toFloat : α → α) (s : Impl α) (op : Op α)
    (hs : SpecInRange s) (hop : op.argsInRange) : SpecInRange (step m toFloat s op) := by
  obtain ⟨h1, h2, h3, h4, h5, h6⟩ := hs
  have h40 : (20 : α) ≤ s.sampleRate / 2 := le_trans h5 h6
  cases op with
  | designLowPass c r o =>
    obtain ⟨a1, a2, a3, a4⟩ := hop
    exact updateCoefficients_specInRange m _ (by unfold SpecInRange; exact ⟨a3, a4, h3, h4, a1, a2⟩)
  | designHighPass c r o =>
    obtain ⟨a1, a2, a3, a4⟩ := hop
    exact updateCoefficients_specInRange m _ (by unfold SpecInRange; exact ⟨a3, a4, h3, h4, a1, a2⟩)
  | designBandPass l h r o =>
    obtain ⟨a1, a2, a3, a4⟩ := hop
    exact updateCoefficients_specInRange m _ (by unfold SpecInRange; exact ⟨a3, a4, h3, h4, a1, a2⟩)
  | designBandStop l h r o =>
    obtain ⟨a1, a2, a3, a4⟩ := hop
    exact updateCoefficients_specInRange m _ (by unfold SpecInRange; exact ⟨a3, a4, h3, h4, a1, a2⟩)
  | designNotch f r q =>
    obtain ⟨a1, a2, a3, a4⟩ := hop
    exact updateCoefficients_specInRange m _ (by unfold SpecInRange; exact ⟨h1, h2, a3, a4, a1, a2⟩)
  | setCutoffFrequency f =>
    refine updateCoefficients_specInRange m _ ?_
    unfold SpecInRange
    refine ⟨h1, h2, h3, h4, ?_, ?_⟩
    · show 20 ≤ stdMax 20 (stdMin f (s.sampleRate / 2))
      rw [stdMax_eq_max]
      exact le_max_left _ _
    · show stdMax 20 (stdMin f (s.sampleRate / 2)) ≤ s.sampleRate / 2
      rw [stdMax_eq_max, stdMin_eq_min]
      exact max_le h40 (min_le_right _ _)
  | setQ q =>
    refine updateCoefficients_specInRange m _ ?_
    unfold SpecInRange
    refine ⟨h1, h2, ?_, ?_, h5, h6⟩
    · show 1 / 10 ≤ stdMax (1 / 10) (stdMin q 100)
      rw [stdMax_eq_max]
      exact le_max_left _ _
    · show stdMax (1 / 10) (stdMin q 100) ≤ 100
      rw [stdMax_eq_max, stdMin_eq_min]
      exact max_le (by norm_num) (min_le_right _ _)
  | setOrder o =>
    refine updateCoefficients_specInRange m _ ?_
    unfold SpecInRange
    refine ⟨?_, ?_, h3, h4, h5, h6⟩
    · show 1 ≤ stdMax 1 (stdMin o 8)
      rw [stdMax_eq_max]
      exact le_max_left _ _
    · show stdMax 1 (stdMin o 8) ≤ 8
      rw [stdMax_eq_max, stdMin_eq_min]
      exact max_le (by norm_num) (min_le_right _ _)
  | apply input =>
    obtain ⟨_, e2, _, e4, e5, e6⟩ := apply_spec toFloat s input
    show SpecInRange (apply toFloat s input).2
    unfold SpecInRange
    rw [e2, e4, e5, e6]
    exact ⟨h1, h2, h3, h4, h5, h6⟩
  | reset => exact ⟨h1, h2, h3, h4, h5, h6⟩

/-- A sequence of calls whose arguments are in range keeps the `FilterSpec` in
range. -/
theorem run_specInRange (m : MathPrims α) (toFloat : α → α) (ops : List (Op α)) :
    ∀ s : Impl α, SpecInRange s → (∀ op ∈ ops, op.argsInRange) →
      SpecInRange (run m toFloat s ops) := by
  induction ops with
  | nil => intro s hs _; exact hs
  | cons op rest ih =>
    intro s hs hops
    exact ih (step m toFloat s op)
      (step_specInRange m toFloat s op hs (hops op (List.mem_cons_self _ _)))
      (fun o ho => hops o (List.mem_cons_of_mem _ ho))

/-- The freshly constructed engine has its `FilterSpec` in range. -/
theorem new_specInRange : SpecInRange (Impl.new : Impl α) := by
  refine ⟨?_, ?_, ?_, ?_, ?_, ?_⟩ <;> simp only [Impl.new] <;> norm_num

end ControlLemmas

section ControlClaims

variable {α : Type} [LinearOrderedField α]

/-- C14. For every `q`, after `setQ(q)` the accessor `getQ()` gives
`max(0.1, min(q, 100))`, and for every integer `o`, after `setOrder(o)` the
accessor `getOrder()` gives `max(1, min(o, 8))`. -/
theorem setQ_setOrder_clamp (m : MathPrims α) (s : Impl α) (q : α) (o : Int) :
    getQ (setQ m q s) = max (1 / 10) (min q 100) ∧
    getOrder (setOrder m o s) = max 1 (min o 8) := by
  constructor
  · show (updateCoefficients m { s with Q := stdMax (1 / 10) (stdMin q 100) }).Q = _
    rw [(updateCoefficients_spec m _).2.2.2.1, stdMax_eq_max, stdMin_eq_min]
  · show (updateCoefficients m { s with order := stdMax 1 (stdMin o 8) }).order = _
    rw [(updateCoefficients_spec m _).2.2.2.2.1, stdMax_eq_max, stdMin_eq_min]

/-- The scenario of C14: `setQ(0.0)` gives `0.1`; with it, `setOrder(12)` gives 8. -/
theorem setQ_setOrder_clamp_witness :
    getQ (setQ ratPrims 0 Impl.new) = 1 / 10 ∧ getOrder (setOrder ratPrims 12 Impl.new) = 8 := by
  have h := setQ_setOrder_clamp ratPrims Impl.new 0 12
  norm_num at h
  exact h

/-- C17. Every design mutation resets the history: for every engine state, after
any of `designLowPass`, `designHighPass`, `designBandPass`, `designBandStop`,
`designNotch`, `setCutoffFrequency`, `setQ` or `setOrder`, both `xHistory` and
`yHistory` are empty. -/
theorem design_resets_history (m : MathPrims α) (s : Impl α) (f g r q : α) (o : Int) :
    ((designLowPass m f r o s).xHistory = [] ∧ (designLowPass m f r o s).yHistory = []) ∧
    ((designHighPass m f r o s).xHistory = [] ∧ (designHighPass m f r o s).yHistory = []) ∧
    ((designBandPass m f g r o s).xHistory = [] ∧ (designBandPass m f g r o s).yHistory = []) ∧
    ((designBandStop m f g r o s).xHistory = [] ∧ (designBandStop m f g r o s).yHistory = []) ∧
    ((designNotch m f r q s).xHistory = [] ∧ (designNotch m f r q s).yHistory = []) ∧
    ((setCutoffFrequency m f s).xHistory = [] ∧ (setCutoffFrequency m f s).yHistory = []) ∧
    ((setQ m q s).xHistory = [] ∧ (setQ m q s).yHistory = []) ∧
    ((setOrder m o s).xHistory = [] ∧ (setOrder m o s).yHistory = []) :=
  ⟨⟨updateCoefficients_xHistory m _, updateCoefficients_yHistory m _⟩,
   ⟨updateCoefficients_xHistory m _, updateCoefficients_yHistory m _⟩,
   ⟨updateCoefficients_xHistory m _, updateCoefficients_yHistory m _⟩,
   ⟨updateCoefficients_xHistory m _, updateCoefficients_yHistory m _⟩,
   ⟨updateCoefficients_xHistory m _, updateCoefficients_yHistory m _⟩,
   ⟨updateCoefficients_xHistory m _, updateCoefficients_yHistory m _⟩,
   ⟨updateCoefficients_xHistory m _, updateCoefficients_yHistory m _⟩,
   ⟨updateCoefficients_xHistory m _, updateCoefficients_yHistory m _⟩⟩

/-- C13 as stated fails. After `designLowPass(1000, 30, 4)` the sample rate is 30;
`setCutoffFrequency(100)` then stores 20, which is above `sampleRate/2 = 15`. -/
theorem setCutoffFrequency_above_nyquist :
    getCutoffFrequency
        (setCutoffFrequency ratPrims 100 (designLowPass ratPrims 1000 30 4 Impl.new)) = 20 ∧
    (setCutoffFrequency ratPrims 100 (designLowPass ratPrims 1000 30 4 Impl.new)).sampleRate / 2
      = 15 ∧
    ¬ (getCutoffFrequency
          (setCutoffFrequency ratPrims 100 (designLowPass ratPrims 1000 30 4 Impl.new))
        ≤ (setCutoffFrequency ratPrims 100
            (designLowPass ratPrims 1000 30 4 Impl.new)).sampleRate / 2) := by
  have e : getCutoffFrequency
      (setCutoffFrequency ratPrims 100 (designLowPass ratPrims 1000 30 4 Impl.new)) = 20 := by
    show (updateCoefficients ratPrims _).cutoffFrequency = 20
    rw [(updateCoefficients_spec ratPrims _).2.1]
    show stdMax (20 : ℚ) (stdMin 100 ((updateCoefficients ratPrims _).sampleRate / 2)) = 20
    rw [(updateCoefficients_spec ratPrims _).2.2.2.2.2, stdMax_eq_max, stdMin_eq_min]
    norm_num
  have r : (setCutoffFrequency ratPrims 100
      (designLowPass ratPrims 1000 30 4 Impl.new)).sampleRate / 2 = 15 := by
    show (updateCoefficients ratPrims _).sampleRate / 2 = 15
    rw [(updateCoefficients_spec ratPrims _).2.2.2.2.2]
    show (updateCoefficients ratPrims _).sampleRate / 2 = 15
    rw [(updateCoefficients_spec ratPrims _).2.2.2.2.2]
    norm_num
  refine ⟨e, r, ?_⟩
  rw [e, r]
  norm_num

/-- C13, amended. For every engine state and every `freq`, after
`setCutoffFrequency(freq)` the stored cutoff is `max(20, min(freq, sampleRate/2))`
and the sample rate is unchanged; the stored cutoff is at least 20, it is at most
`sampleRate/2` when `sampleRate >= 40`, and it is 20 when `sampleRate < 40`. -/
theorem setCutoffFrequency_clamp (m : MathPrims α) (s : Impl α) (freq : α) :
    getCutoffFrequency (setCutoffFrequency m freq s) = max 20 (min freq (s.sampleRate / 2)) ∧
    (setCutoffFrequency m freq s).sampleRate = s.sampleRate ∧
    20 ≤ getCutoffFrequency (setCutoffFrequency m freq s) ∧
    (40 ≤ s.sampleRate →
      getCutoffFrequency (setCutoffFrequency m freq s) ≤ s.sampleRate / 2) ∧
    (s.sampleRate < 40 → getCutoffFrequency (setCutoffFrequency m freq s) = 20) := by
  have e : getCutoffFrequency (setCutoffFrequency m freq s)
      = max 20 (min freq (s.sampleRate / 2)) := by
    show (updateCoefficients m _).cutoffFrequency = _
    rw [(updateCoefficients_spec m _).2.1, stdMax_eq_max, stdMin_eq_min]
  refine ⟨e, (updateCoefficients_spec m _).2.2.2.2.2, ?_, ?_, ?_⟩
  · rw [e]; exact le_max_left _ _
  · intro h
    rw [e]
    exact max_le (by linarith) (min_le_right _ _)
  · intro h
    rw [e]
    exact max_eq_left (le_trans (min_le_right _ _) (by linarith))

/-- The scenario of C13: `setCutoffFrequency(100000)` on the freshly constructed
engine (44100 Hz) stores 22050. -/
theorem setCutoffFrequency_clamp_witness :
    getCutoffFrequency (setCutoffFrequency ratPrims 100000 Impl.new) = 22050 ∧
    getCutoffFrequency (setCutoffFrequency ratPrims 100000 Impl.new)
      ≤ (Impl.new : Impl ℚ).sampleRate / 2 := by
  have h := setCutoffFrequency_clamp ratPrims Impl.new 100000
  refine ⟨?_, h.2.2.2.1 (by simp only [Impl.new]; norm_num)⟩
  rw [h.1]
  simp only [Impl.new]
  norm_num

/-- C15 as stated fails. The state after `designLowPass(5, 44100, 100)` on the
freshly constructed engine is reachable, and its accessors return the arguments
unclamped: order 100 and cutoff 5. -/
theorem reachable_spec_out_of_range :
    Reachable ratPrims id (designLowPass ratPrims 5 44100 100 (Impl.new : Impl ℚ)) ∧
    getOrder (designLowPass ratPrims 5 44100 100 (Impl.new : Impl ℚ)) = 100 ∧
    getCutoffFrequency (designLowPass ratPrims 5 44100 100 (Impl.new : Impl ℚ)) = 5 ∧
    ¬ SpecInRange (designLowPass ratPrims 5 44100 100 (Impl.new : Impl ℚ)) := by
  have h := designLowPass_fields ratPrims (Impl.new : Impl ℚ) 5 44100 100
  refine ⟨⟨[Op.designLowPass 5 44100 100], rfl⟩, h.2.2, h.2.1, ?_⟩
  intro hr
  have h2 := hr.2.1
  rw [h.2.2] at h2
  norm_num at h2

/-- C15, amended. In every state reached from construction by a sequence of calls
(`design*`, setters, `apply`, reset) in which every `design*` call has its
arguments inside the documented ranges, `getOrder()` is in `[1, 8]`, `getQ()` is
in `[0.1, 100]` and `getCutoffFrequency()` is in `[20, sampleRate/2]`. -/
theorem reachable_specInRange (m : MathPrims α) (toFloat : α → α) (ops : List (Op α))
    (hops : ∀ op ∈ ops, op.argsInRange) :
    1 ≤ getOrder (run m toFloat Impl.new ops) ∧ getOrder (run m toFloat Impl.new ops) ≤ 8 ∧
    1 / 10 ≤ getQ (run m toFloat Impl.new ops) ∧ getQ (run m toFloat Impl.new ops) ≤ 100 ∧
    20 ≤ getCutoffFrequency (run m toFloat Impl.new ops) ∧
    getCutoffFrequency (run m toFloat Impl.new ops)
      ≤ (run m toFloat Impl.new ops).sampleRate / 2 :=
  run_specInRange m toFloat ops Impl.new new_specInRange hops

/-- Witness of the amended C15: a design call in range, two setters with
arguments outside the ranges, and an `apply` call. -/
theorem reachable_specInRange_witness :
    1 ≤ getOrder (run ratPrims id Impl.new
        [Op.designNotch 1000 48000 10, Op.setOrder 12, Op.setQ 0, Op.apply [1, 0]]) ∧
    getOrder (run ratPrims id Impl.new
        [Op.designNotch 1000 48000 10, Op.setOrder 12, Op.setQ 0, Op.apply [1, 0]]) ≤ 8 ∧
    1 / 10 ≤ getQ (run ratPrims id Impl.new
        [Op.designNotch 1000 48000 10, Op.setOrder 12, Op.setQ 0, Op.apply [1, 0]]) ∧
    getQ (run ratPrims id Impl.new
        [Op.designNotch 1000 48000 10, Op.setOrder 12, Op.setQ 0, Op.apply [1, 0]]) ≤ 100 ∧
    20 ≤ getCutoffFrequency (run ratPrims id Impl.new
        [Op.designNotch 1000 48000 10, Op.setOrder 12, Op.setQ 0, Op.apply [1, 0]]) ∧
    getCutoffFrequency (run ratPrims id Impl.new
        [Op.designNotch 1000 48000 10, Op.setOrder 12, Op.setQ 0, Op.apply [1, 0]])
      ≤ (run ratPrims id Impl.new
        [Op.designNotch 1000 48000 10, Op.setOrder 12, Op.setQ 0, Op.apply [1, 0]]).sampleRate / 2 :=
  reachable_specInRange ratPrims id
    [Op.designNotch 1000 48000 10, Op.setOrder 12, Op.setQ 0, Op.apply [1, 0]]
    (by
      intro op hop
      simp only [List.mem_cons, List.mem_singleton, List.not_mem_nil, or_false] at hop
      rcases hop with h | h | h | h <;> subst h <;> norm_num [Op.argsInRange])

end ControlClaims

section ResponseLemmas

/-- An accumulating loop over `0, ..., n-1` adds the sum of its terms. -/
theorem foldl_range_add {M : Type} [AddCommMonoid M] (f : Nat → M) (y : M) (n : Nat) :
    (List.range n).foldl (fun acc j => acc + f j) y = y + ∑ j in Finset.range n, f j := by
  induction n with
  | zero => simp
  | succ n ih =>
    rw [List.range_succ, List.foldl_append, ih, Finset.sum_range_succ]
    simp [add_assoc]

/-- With the complex numbers of mathematics, the power `std::pow(z, -j)` of the
loops of `getFrequencyResponse` is the integer power `z^(-j)`. -/
theorem standard_pow (c : ComplexPrims ℝ ℂ) (hc : c.IsStandard) (z : ℂ) (j : Nat) :
    c.pow z (-(j : ℝ)) = z ^ (-(j : ℤ)) := by
  rw [hc.2.2, zpow_neg, zpow_natCast]
  push_cast
  rw [Complex.cpow_neg, Complex.cpow_natCast]

/-- With the complex numbers of mathematics, the value that `getFrequencyResponse`
stores at index `i` is the ratio of the two polynomial sums at
`z = exp(i*omega)`. -/
theorem responseAt_standard (c : ComplexPrims ℝ ℂ) (hc : c.IsStandard) (m : MathPrims ℝ)
    (s : Impl ℝ) (numPoints : Int) (i : Nat) :
    responseAt c m s numPoints i
      = (∑ j in Finset.range s.bCoeffs.length,
            ((s.bCoeffs.getD j 0 : ℝ) : ℂ)
              * Complex.exp (Complex.I *
                  ((2 * m.PI * (((i : ℝ) / (numPoints : ℝ)) * s.sampleRate / 2)
                    / s.sampleRate : ℝ) : ℂ)) ^ (-(j : ℤ)))
        / (∑ j in Finset.range s.aCoeffs.length,
            ((s.aCoeffs.getD j 0 : ℝ) : ℂ)
              * Complex.exp (Complex.I *
                  ((2 * m.PI * (((i : ℝ) / (numPoints : ℝ)) * s.sampleRate / 2)
                    / s.sampleRate : ℝ) : ℂ)) ^ (-(j : ℤ))) := by
  have hz : ∀ w : ℝ, c.exp (c.complex 0 w) = Complex.exp (Complex.I * (w : ℂ)) := by
    intro w
    rw [hc.2.1, hc.1]
    congr 1
    apply Complex.ext <;> simp
  have h0 : c.complex 0 0 = 0 := by rw [hc.1]; rfl
  have hr : ∀ x : ℝ, c.complex x 0 = (x : ℂ) := by intro x; rw [hc.1]; rfl
  unfold responseAt
  simp only [foldl_range_add, h0, hr, hz, standard_pow c hc, zero_add]

/-- The value that `getFrequencyResponse` stores at an index reads the two
coefficient vectors and the sample rate of the state, and nothing else. -/
theorem responseAt_congr {α K : Type} [Field α] [Field K] (c : ComplexPrims α K)
    (m : MathPrims α) (s s' : Impl α) (hb : s'.bCoeffs = s.bCoeffs)
    (ha : s'.aCoeffs = s.aCoeffs) (hr : s'.sampleRate = s.sampleRate) (numPoints : Int) :
    responseAt c m s' numPoints = responseAt c m s numPoints := by
  funext i
  unfold responseAt
  rw [hb, ha, hr]

end ResponseLemmas

section ResponseClaims

/-- C19. With the complex numbers of mathematics, for `numPoints >= 1` the call
`getFrequencyResponse(numPoints)` returns exactly `numPoints` values, and for
every `k < numPoints` the `k`-th value is
`(sum_j b[j]*z^(-j)) / (sum_j a[j]*z^(-j))` with `z = exp(i*2*PI*f_k/sampleRate)`
and `f_k = (k/numPoints)*(sampleRate/2)`; in particular `f_0 = 0`. -/
theorem getFrequencyResponse_values (c : ComplexPrims ℝ ℂ) (hc : c.IsStandard)
    (m : MathPrims ℝ) (s : Impl ℝ) (numPoints : Int) (hn : 1 ≤ numPoints) :
    ∃ H : List ℂ, (getFrequencyResponse c m s numPoints).1 = some H ∧
      (H.length : Int) = numPoints ∧
      ∀ k : Nat, (k : Int) < numPoints →
        let f_k : ℝ := ((k : ℝ) / (numPoints : ℝ)) * (s.sampleRate / 2)
        let z : ℂ := Complex.exp (Complex.I * ((2 * m.PI * f_k / s.sampleRate : ℝ) : ℂ))
        H.getD k 0
          = (∑ j in Finset.range s.bCoeffs.length,
                ((s.bCoeffs.getD j 0 : ℝ) : ℂ) * z ^ (-(j : ℤ)))
            / (∑ j in Finset.range s.aCoeffs.length,
                ((s.aCoeffs.getD j 0 : ℝ) : ℂ) * z ^ (-(j : ℤ))) := by
  have hneg : ¬ numPoints < 0 := by omega
  refine ⟨(List.range numPoints.toNat).map (responseAt c m s numPoints), ?_, ?_, ?_⟩
  · unfold getFrequencyResponse
    rw [if_neg hneg]
  · rw [List.length_map, List.length_range]
    omega
  · intro k hk
    have hk' : k < numPoints.toNat := by omega
    have hlen : k < ((List.range numPoints.toNat).map (responseAt c m s numPoints)).length := by
      rw [List.length_map, List.length_range]; exact hk'
    rw [List.getD_eq_getElem _ _ hlen, List.getElem_map, List.getElem_range,
      responseAt_standard c hc]
    have e : (k : ℝ) / (numPoints : ℝ) * s.sampleRate / 2
        = (k : ℝ) / (numPoints : ℝ) * (s.sampleRate / 2) := by ring
    simp only [e]

/-- Witness of C19: four points of the response of the low-pass design for
1000 Hz at 44100 Hz, with the complex numbers of mathematics. -/
theorem getFrequencyResponse_values_witness :
    ∃ H : List ℂ,
      (getFrequencyResponse (ComplexPrims.mk Complex.mk Complex.exp (fun z x => z ^ (x : ℂ)))
          (MathPrims.mk Real.pi Real.tan Real.cos)
          (designLowPass (MathPrims.mk Real.pi Real.tan Real.cos) 1000 44100 4 Impl.new) 4).1
        = some H ∧
      (H.length : Int) = 4 ∧
      ∀ k : Nat, (k : Int) < 4 →
        let f_k : ℝ := ((k : ℝ) / ((4 : Int) : ℝ))
          * ((designLowPass (MathPrims.mk Real.pi Real.tan Real.cos) 1000 44100 4
              Impl.new).sampleRate / 2)
        let z : ℂ := Complex.exp (Complex.I * ((2 * Real.pi * f_k
          / (designLowPass (MathPrims.mk Real.pi Real.tan Real.cos) 1000 44100 4
              Impl.new).sampleRate : ℝ) : ℂ))
        H.getD k 0
          = (∑ j in Finset.range
                (designLowPass (MathPrims.mk Real.pi Real.tan Real.cos) 1000 44100 4
                  Impl.new).bCoeffs.length,
                (((designLowPass (MathPrims.mk Real.pi Real.tan Real.cos) 1000 44100 4
                  Impl.new).bCoeffs.getD j 0 : ℝ) : ℂ) * z ^ (-(j : ℤ)))
            / (∑ j in Finset.range
                (designLowPass (MathPrims.mk Real.pi Real.tan Real.cos) 1000 44100 4
                  Impl.new).aCoeffs.length,
                (((designLowPass (MathPrims.mk Real.pi Real.tan Real.cos) 1000 44100 4
                  Impl.new).aCoeffs.getD j 0 : ℝ) : ℂ) * z ^ (-(j : ℤ))) :=
  getFrequencyResponse_values (ComplexPrims.mk Complex.mk Complex.exp (fun z x => z ^ (x : ℂ)))
    ⟨fun _ _ => rfl, fun _ => rfl, fun _ _ => rfl⟩ (MathPrims.mk Real.pi Real.tan Real.cos)
    (designLowPass (MathPrims.mk Real.pi Real.tan Real.cos) 1000 44100 4 Impl.new) 4
    (by norm_num)

/-- C20. The call `getFrequencyResponse` leaves the whole engine state unchanged,
and two engines with the same coefficients and the same sample rate return the
same response for every `numPoints`, whatever their histories. -/
theorem getFrequencyResponse_pure {α K : Type} [Field α] [Field K] (c : ComplexPrims α K)
    (m : MathPrims α) (s : Impl α) (numPoints : Int) :
    (getFrequencyResponse c m s numPoints).2 = s ∧
    ∀ s' : Impl α, s'.bCoeffs = s.bCoeffs → s'.aCoeffs = s.aCoeffs →
      s'.sampleRate = s.sampleRate →
      (getFrequencyResponse c m s' numPoints).1 = (getFrequencyResponse c m s numPoints).1 := by
  constructor
  · unfold getFrequencyResponse
    split <;> rfl
  · intro s' hb ha hr
    unfold getFrequencyResponse
    rw [responseAt_congr c m s s' hb ha hr]
    split <;> rfl

/-- Witness of C20: the low-pass design before and after `apply([1, 2])`, which
fills the history, has the same response at 8 points. -/
theorem getFrequencyResponse_pure_witness :
    (getFrequencyResponse (ComplexPrims.mk Complex.mk Complex.exp (fun z x => z ^ (x : ℂ)))
        (MathPrims.mk Real.pi Real.tan Real.cos)
        (designLowPass (MathPrims.mk Real.pi Real.tan Real.cos) 1000 44100 4 Impl.new) 8).2
      = designLowPass (MathPrims.mk Real.pi Real.tan Real.cos) 1000 44100 4 Impl.new ∧
    (getFrequencyResponse (ComplexPrims.mk Complex.mk Complex.exp (fun z x => z ^ (x : ℂ)))
        (MathPrims.mk Real.pi Real.tan Real.cos)
        (apply id (designLowPass (MathPrims.mk Real.pi Real.tan Real.cos) 1000 44100 4 Impl.new)
          [1, 2]).2 8).1
      = (getFrequencyResponse (ComplexPrims.mk Complex.mk Complex.exp (fun z x => z ^ (x : ℂ)))
        (MathPrims.mk Real.pi Real.tan Real.cos)
        (designLowPass (MathPrims.mk Real.pi Real.tan Real.cos) 1000 44100 4 Impl.new) 8).1 :=
  ⟨(getFrequencyResponse_pure _ _ _ 8).1,
    (getFrequencyResponse_pure _ _ _ 8).2 _ (apply_coeffs id _ [1, 2]).1
      (apply_coeffs id _ [1, 2]).2 (apply_spec id _ [1, 2]).2.2.2.2.2⟩

end ResponseClaims

section FrameLemmas

variable {α : Type} [Field α]

/-- With an empty coefficient vector, `apply` leaves the state as it was. -/
theorem apply_absent_state (toFloat : α → α) (s : Impl α) (input : List α)
    (h : s.bCoeffs = [] ∨ s.aCoeffs = []) : (apply toFloat s input).2 = s := by
  have hc : (s.bCoeffs.isEmpty || s.aCoeffs.isEmpty) = true := by
    rcases h with h | h <;> simp [h]
  unfold apply
  rw [if_pos hc]

end FrameLemmas

section FrameClaims

variable {α : Type} [Field α]

/-- C23. When `bCoeffs` or `aCoeffs` is empty, `apply` returns its input
unmodified and leaves the whole state (both histories, both coefficient vectors
and every `FilterSpec` field) unchanged. -/
theorem apply_absent (toFloat : α → α) (s : Impl α) (input : List α)
    (h : s.bCoeffs = [] ∨ s.aCoeffs = []) :
    (apply toFloat s input).1 = input ∧ (apply toFloat s input).2 = s := by
  have hc : (s.bCoeffs.isEmpty || s.aCoeffs.isEmpty) = true := by
    rcases h with h | h <;> simp [h]
  unfold apply
  rw [if_pos hc]
  exact ⟨rfl, rfl⟩

/-- The scenario of C23: the freshly constructed engine, on which no `design*`
call or setter has been made. -/
theorem apply_absent_witness :
    (apply id (Impl.new : Impl ℚ) [3, 1, 4]).1 = [3, 1, 4] ∧
    (apply id (Impl.new : Impl ℚ) [3, 1, 4]).2 = Impl.new :=
  apply_absent id Impl.new [3, 1, 4] (Or.inl rfl)

/-- C28. The member `apply` never changes the design: for every state and every
input, after the call `bCoeffs`, `aCoeffs` and every `FilterSpec` field are what
they were before. -/
theorem apply_design_frame (toFloat : α → α) (s : Impl α) (input : List α) :
    (apply toFloat s input).2.bCoeffs = s.bCoeffs ∧
    (apply toFloat s input).2.aCoeffs = s.aCoeffs ∧
    (apply toFloat s input).2.type = s.type ∧
    (apply toFloat s input).2.cutoffFrequency = s.cutoffFrequency ∧
    (apply toFloat s input).2.highCutoffFrequency = s.highCutoffFrequency ∧
    (apply toFloat s input).2.Q = s.Q ∧
    (apply toFloat s input).2.order = s.order ∧
    (apply toFloat s input).2.sampleRate = s.sampleRate :=
  ⟨(apply_coeffs toFloat s input).1, (apply_coeffs toFloat s input).2,
    apply_spec toFloat s input⟩

end FrameClaims

section ResetClaims

variable {α : Type}

/-- C24. The member `resetHistory` clears `xHistory` and `yHistory` and leaves
`bCoeffs`, `aCoeffs` and every `FilterSpec` field (type, `cutoffFrequency`,
`highCutoffFrequency`, `Q`, `order`, `sampleRate`) unchanged. -/
theorem resetHistory_frame (s : Impl α) :
    (resetHistory s).xHistory = [] ∧ (resetHistory s).yHistory = [] ∧
    (resetHistory s).bCoeffs = s.bCoeffs ∧ (resetHistory s).aCoeffs = s.aCoeffs ∧
    (resetHistory s).type = s.type ∧
    (resetHistory s).cutoffFrequency = s.cutoffFrequency ∧
    (resetHistory s).highCutoffFrequency = s.highCutoffFrequency ∧
    (resetHistory s).Q = s.Q ∧ (resetHistory s).order = s.order ∧
    (resetHistory s).sampleRate = s.sampleRate :=
  ⟨rfl, rfl, rfl, rfl, rfl, rfl, rfl, rfl, rfl, rfl⟩

/-- C25. The member `resetHistory` is idempotent: resetting twice gives the state
that resetting once gives, and the history is empty after either. -/
theorem resetHistory_idempotent (s : Impl α) :
    resetHistory (resetHistory s) = resetHistory s ∧
    (resetHistory s).xHistory = [] ∧ (resetHistory s).yHistory = [] ∧
    (resetHistory (resetHistory s)).xHistory = [] ∧
    (resetHistory (resetHistory s)).yHistory = [] :=
  ⟨rfl, rfl, rfl, rfl, rfl⟩

end ResetClaims

section LengthLemmas

variable {α : Type} [Field α]

/-- The member `apply` keeps the two histories equally long. -/
theorem apply_same_length (toFloat : α → α) (s : Impl α) (input : List α)
    (h : s.xHistory.length = s.yHistory.length) :
    (apply toFloat s input).2.xHistory.length = (apply toFloat s input).2.yHistory.length := by
  by_cases hb : s.bCoeffs = []
  · have e := (apply_absent_state toFloat s input (Or.inl hb))
    rw [e]; exact h
  · by_cases ha : s.aCoeffs = []
    · have e := (apply_absent_state toFloat s input (Or.inr ha))
      rw [e]; exact h
    · obtain ⟨h1, h2, _, _⟩ := apply_history_length toFloat s input hb ha
      rw [h1, h2, h]

end LengthLemmas

section RecordLemmas

/-- Recording at an index inside or at the end of a history puts the value at
that index. -/
theorem recordAt_getD_self {β : Type} (h : List β) (i : Nat) (v d : β) (hi : i ≤ h.length) :
    (recordAt h i v).getD i d = v := by
  unfold recordAt
  split
  · next hle =>
    have e : i = h.length := Nat.le_antisymm hi hle
    subst e
    rw [List.getD_append_right _ _ _ _ (Nat.le_refl _), Nat.sub_self, List.getD_cons_zero]
  · next hlt =>
    have hlt' : i < (h.set i v).length := by rw [List.length_set]; omega
    rw [List.getD_eq_getElem _ _ hlt', List.getElem_set_self]

/-- Recording at an index inside or at the end of a history leaves every other
index as it was. -/
theorem recordAt_getD_ne {β : Type} (h : List β) (i p : Nat) (v d : β) (hi : i ≤ h.length)
    (hp : p ≠ i) : (recordAt h i v).getD p d = h.getD p d := by
  unfold recordAt
  split
  · next hle =>
    have e : i = h.length := Nat.le_antisymm hi hle
    by_cases hlt : p < h.length
    · exact List.getD_append _ _ _ _ hlt
    · rw [List.getD_eq_default _ _ (by rw [List.length_append, List.length_singleton]; omega),
        List.getD_eq_default _ _ (by omega)]
  · next hlt =>
    by_cases hpl : p < h.length
    · have hpl' : p < (h.set i v).length := by rw [List.length_set]; exact hpl
      rw [List.getD_eq_getElem _ _ hpl', List.getD_eq_getElem _ _ hpl,
        List.getElem_set_ne (Ne.symm hp)]
    · rw [List.getD_eq_default _ _ (by rw [List.length_set]; omega),
        List.getD_eq_default _ _ (by omega)]

end RecordLemmas

section HistoryLemmas

variable {α : Type} [Field α]

/-- The loop of `apply`, started at an index not beyond either history, leaves
each history at least as long as the index after the last sample. -/
theorem applyLoop_history_ge (toFloat : α → α) (xs : List α) (i : Nat) (s : Impl α)
    (hx : i ≤ s.xHistory.length) (hy : i ≤ s.yHistory.length) :
    i + xs.length ≤ (applyLoop toFloat i xs s).2.xHistory.length ∧
    i + xs.length ≤ (applyLoop toFloat i xs s).2.yHistory.length := by
  by_cases hxs : xs = []
  · subst hxs
    exact ⟨hx, hy⟩
  · obtain ⟨h1, h2⟩ := applyLoop_history_length toFloat xs i s hx hy hxs
    rw [h1, h2]
    exact ⟨Nat.le_max_right _ _, Nat.le_max_right _ _⟩

/-- The loop of `apply`, started at index `i` not beyond either history, changes
no history entry below `i` and none from `i + len(xs)` on. -/
theorem applyLoop_getD_outside (toFloat : α → α) (xs : List α) :
    ∀ (i : Nat) (s : Impl α), i ≤ s.xHistory.length → i ≤ s.yHistory.length →
      ∀ p, (p < i ∨ i + xs.length ≤ p) →
        (applyLoop toFloat i xs s).2.xHistory.getD p 0 = s.xHistory.getD p 0 ∧
        (applyLoop toFloat i xs s).2.yHistory.getD p 0 = s.yHistory.getD p 0 := by
  induction xs with
  | nil => intro i s _ _ p _; exact ⟨rfl, rfl⟩
  | cons x rest ih =>
    intro i s hx hy p hp
    have hpi : p ≠ i := by
      rcases hp with h | h
      · omega
      · simp only [List.length_cons] at h; omega
    have h1 : (recordSample s i x).xHistory.length = max s.xHistory.length (i + 1) :=
      recordAt_length_eq s.xHistory i x hx
    have h2 : (recordSample s i x).yHistory.length = max s.yHistory.length (i + 1) :=
      recordAt_length_eq s.yHistory i (sampleValue s i x) hy
    have hp' : p < i + 1 ∨ i + 1 + rest.length ≤ p := by
      rcases hp with h | h
      · left; omega
      · right; simp only [List.length_cons] at h; omega
    obtain ⟨e1, e2⟩ := ih (i + 1) (recordSample s i x) (by rw [h1]; exact Nat.le_max_right _ _)
      (by rw [h2]; exact Nat.le_max_right _ _) p hp'
    have f1 : (recordSample s i x).xHistory.getD p 0 = s.xHistory.getD p 0 :=
      recordAt_getD_ne s.xHistory i p x 0 hx hpi
    have f2 : (recordSample s i x).yHistory.getD p 0 = s.yHistory.getD p 0 :=
      recordAt_getD_ne s.yHistory i p (sampleValue s i x) 0 hy hpi
    exact ⟨e1.trans f1, e2.trans f2⟩

/-- An input splits at an index below its length into the samples before the
index, the sample at the index and the samples after it. -/
theorem input_split (input : List α) (i : Nat) (hi : i < input.length) :
    input = input.take i ++ input.getD i 0 :: input.drop (i + 1) := by
  rw [List.getD_eq_getElem _ _ hi, ← List.drop_eq_getElem_cons hi, List.take_append_drop]

/-- The loop of `apply` over a whole input, seen from iteration `i`: the outputs
before `i`, then the narrowed value of iteration `i`, then the outputs of the
loop continued at `i + 1`. -/
theorem applyLoop_split (toFloat : α → α) (s : Impl α) (input : List α) (i : Nat)
    (hi : i < input.length) :
    applyLoop toFloat 0 input s
      = ((applyLoop toFloat 0 (input.take i) s).1
          ++ toFloat (sampleValue (iterationState toFloat s input i) i (input.getD i 0))
            :: (applyLoop toFloat (i + 1) (input.drop (i + 1))
                (recordSample (iterationState toFloat s input i) i (input.getD i 0))).1,
         (applyLoop toFloat (i + 1) (input.drop (i + 1))
            (recordSample (iterationState toFloat s input i) i (input.getD i 0))).2) := by
  have hlen : (input.take i).length = i := by
    rw [List.length_take]; omega
  have h := applyLoop_append toFloat (input.take i)
    (input.getD i 0 :: input.drop (i + 1)) 0 s
  rw [← input_split input i hi, Nat.zero_add, hlen] at h
  rw [h]
  rfl

/-- The state in which iteration `i` of an `apply` call starts has histories of
at least `i` entries, and every entry from index `i` on is the one stored before
the call. -/
theorem iterationState_history (toFloat : α → α) (s : Impl α) (input : List α) (i : Nat)
    (hi : i ≤ input.length) :
    i ≤ (iterationState toFloat s input i).xHistory.length ∧
    i ≤ (iterationState toFloat s input i).yHistory.length ∧
    ∀ p, i ≤ p →
      (iterationState toFloat s input i).xHistory.getD p 0 = s.xHistory.getD p 0 ∧
      (iterationState toFloat s input i).yHistory.getD p 0 = s.yHistory.getD p 0 := by
  have hlen : (input.take i).length = i := by
    rw [List.length_take]; omega
  have h := applyLoop_history_ge toFloat (input.take i) 0 s (Nat.zero_le _) (Nat.zero_le _)
  rw [Nat.zero_add, hlen] at h
  refine ⟨h.1, h.2, ?_⟩
  intro p hp
  exact applyLoop_getD_outside toFloat (input.take i) 0 s (Nat.zero_le _) (Nat.zero_le _) p
    (Or.inr (by rw [Nat.zero_add, hlen]; exact hp))

/-- With non-empty coefficients `apply` is its loop started at index 0. -/
theorem apply_eq_applyLoop (toFloat : α → α) (s : Impl α) (input : List α)
    (hb : s.bCoeffs ≠ []) (ha : s.aCoeffs ≠ []) :
    apply toFloat s input = applyLoop toFloat 0 input s := by
  have hne : (s.bCoeffs.isEmpty || s.aCoeffs.isEmpty) = false := by
    cases hbb : s.bCoeffs with
    | nil => exact absurd hbb hb
    | cons _ _ =>
      cases haa : s.aCoeffs with
      | nil => exact absurd haa ha
      | cons _ _ => rfl
  unfold apply
  rw [hne]
  rfl

/-- What an `apply` call with non-empty coefficients does at an index `i` below
the input length: the output is the narrowed value of iteration `i`, and after
the call `xHistory[i]` is the input sample and `yHistory[i]` the value. -/
theorem apply_at_index (toFloat : α → α) (s : Impl α) (input : List α)
    (hb : s.bCoeffs ≠ []) (ha : s.aCoeffs ≠ []) (i : Nat) (hi : i < input.length) :
    (apply toFloat s input).1.getD i 0
      = toFloat (sampleValue (iterationState toFloat s input i) i (input.getD i 0)) ∧
    (apply toFloat s input).2.xHistory.getD i 0 = input.getD i 0 ∧
    (apply toFloat s input).2.yHistory.getD i 0
      = sampleValue (iterationState toFloat s input i) i (input.getD i 0) := by
  rw [apply_eq_applyLoop toFloat s input hb ha, applyLoop_split toFloat s input i hi]
  obtain ⟨gx, gy, _⟩ := iterationState_history toFloat s input i (Nat.le_of_lt hi)
  have hlen : (applyLoop toFloat 0 (input.take i) s).1.length = i := by
    rw [applyLoop_length, List.length_take]; omega
  have h1 : (recordSample (iterationState toFloat s input i) i (input.getD i 0)).xHistory.length
      = max (iterationState toFloat s input i).xHistory.length (i + 1) :=
    recordAt_length_eq _ i _ gx
  have h2 : (recordSample (iterationState toFloat s input i) i (input.getD i 0)).yHistory.length
      = max (iterationState toFloat s input i).yHistory.length (i + 1) :=
    recordAt_length_eq _ i _ gy
  obtain ⟨e1, e2⟩ := applyLoop_getD_outside toFloat (input.drop (i + 1)) (i + 1)
    (recordSample (iterationState toFloat s input i) i (input.getD i 0))
    (by rw [h1]; exact Nat.le_max_right _ _) (by rw [h2]; exact Nat.le_max_right _ _) i
    (Or.inl (Nat.lt_succ_self i))
  refine ⟨?_, ?_, ?_⟩
  · simp only
    rw [List.getD_append_right _ _ _ _ (by rw [hlen]), hlen, Nat.sub_self, List.getD_cons_zero]
  · simp only
    rw [e1]
    exact recordAt_getD_self _ i _ 0 gx
  · simp only
    rw [e2]
    exact recordAt_getD_self _ i _ 0 gy

/-- The state in which an iteration of an `apply` call starts has an input
history at least as long as before the call. -/
theorem iterationState_xHistory_ge (toFloat : α → α) (s : Impl α) (input : List α) (i : Nat) :
    s.xHistory.length ≤ (iterationState toFloat s input i).xHistory.length := by
  unfold iterationState
  by_cases hxs : input.take i = []
  · rw [hxs]; exact Nat.le_refl _
  · rw [(applyLoop_history_length toFloat (input.take i) 0 s (Nat.zero_le _) (Nat.zero_le _)
      hxs).1]
    exact Nat.le_max_left _ _

/-- The feed-forward loop adds the terms `feedForwardTerm` of the taps `j <= i`. -/
theorem feedForward_eq_terms (b xh : List α) (i : Nat) (x y : α) :
    feedForward b xh i x y
      = y + ∑ j in Finset.range b.length, if j ≤ i then feedForwardTerm b xh i x j else 0 :=
  feedForward_eq_sum b xh i x y

/-- At sample index 0 the value computed is `b[0]` times the first entry of the
input history, if there is one, divided by `a[0]`: the sample is not read. -/
theorem sampleValue_zero_index (s : Impl α) (hb : s.bCoeffs ≠ []) (hx : s.xHistory ≠ [])
    (x : α) :
    sampleValue s 0 x = s.bCoeffs.getD 0 0 * s.xHistory.getD 0 0 / s.aCoeffs.getD 0 0 := by
  unfold sampleValue
  rw [feedBack_eq_sum, feedForward_eq_sum, zero_add]
  have hbl : 0 < s.bCoeffs.length := List.length_pos.mpr hb
  have hxl : 0 < s.xHistory.length := List.length_pos.mpr hx
  have h1 : (∑ j in Finset.range s.bCoeffs.length,
      if j ≤ 0 then s.bCoeffs.getD j 0 *
        (if 0 - j < s.xHistory.length then s.xHistory.getD (0 - j) 0 else x) else 0)
      = s.bCoeffs.getD 0 0 * s.xHistory.getD 0 0 := by
    rw [Finset.sum_eq_single 0]
    · simp [hxl]
    · intro j _ hj
      rw [if_neg (by omega)]
    · intro h
      exact absurd (Finset.mem_range.mpr hbl) h
  have h2 : (∑ j in Finset.Ico 1 s.aCoeffs.length,
      if j ≤ 0 then s.aCoeffs.getD j 0 *
        (if 0 - j < s.yHistory.length then s.yHistory.getD (0 - j) 0 else 0) else 0) = 0 := by
    apply Finset.sum_eq_zero
    intro j hj
    have : 1 ≤ j := (Finset.mem_Ico.mp hj).1
    rw [if_neg (by omega)]
  rw [h1, h2, sub_zero]

/-- The low-pass design after a first `apply` call of three samples: non-empty
coefficients and three entries in each history. -/
theorem lowPass_after_three :
    (apply id (designLowPass ratPrims 1000 44100 4 Impl.new) [1, 2, 3]).2.bCoeffs ≠ [] ∧
    (apply id (designLowPass ratPrims 1000 44100 4 Impl.new) [1, 2, 3]).2.aCoeffs ≠ [] ∧
    (apply id (designLowPass ratPrims 1000 44100 4 Impl.new) [1, 2, 3]).2.xHistory.length = 3 ∧
    (apply id (designLowPass ratPrims 1000 44100 4 Impl.new) [1, 2, 3]).2.yHistory.length = 3 := by
  have hb : (designLowPass ratPrims 1000 44100 4 Impl.new).bCoeffs ≠ [] :=
    updateCoefficients_bCoeffs_ne_nil ratPrims _
  have ha : (designLowPass ratPrims 1000 44100 4 Impl.new).aCoeffs ≠ [] :=
    updateCoefficients_aCoeffs_ne_nil ratPrims _
  have hx : (designLowPass ratPrims 1000 44100 4 Impl.new).xHistory = [] :=
    updateCoefficients_xHistory ratPrims _
  have hy : (designLowPass ratPrims 1000 44100 4 Impl.new).yHistory = [] :=
    updateCoefficients_yHistory ratPrims _
  obtain ⟨h1, h2, h3, h4⟩ := apply_history_length id
    (designLowPass ratPrims 1000 44100 4 Impl.new) [1, 2, 3] hb ha
  rw [hx] at h1
  rw [hy] at h2
  exact ⟨by rw [h3]; exact hb, by rw [h4]; exact ha, h1, h2⟩

end HistoryLemmas

section HistoryClaims

variable {α : Type} [Field α]

/-- C26. History update of `apply`: for every engine with non-empty coefficients
whose histories both have length `L`, after `apply(input)` with `n = len(input)`
both histories have length `max(L, n)`; for every `i < n`, `xHistory[i]` is
`input[i]` and `yHistory[i]` is the value computed in iteration `i`, whose
narrowing is `output[i]`; and every entry at an index `i` with `n <= i < L` is
unchanged. -/
theorem apply_history_update (toFloat : α → α) (s : Impl α) (input : List α)
    (hb : s.bCoeffs ≠ []) (ha : s.aCoeffs ≠ []) (L : Nat)
    (hx : s.xHistory.length = L) (hy : s.yHistory.length = L) :
    (apply toFloat s input).2.xHistory.length = max L input.length ∧
    (apply toFloat s input).2.yHistory.length = max L input.length ∧
    (∀ i, i < input.length →
      (apply toFloat s input).2.xHistory.getD i 0 = input.getD i 0 ∧
      (apply toFloat s input).2.yHistory.getD i 0
        = sampleValue (iterationState toFloat s input i) i (input.getD i 0) ∧
      (apply toFloat s input).1.getD i 0
        = toFloat (sampleValue (iterationState toFloat s input i) i (input.getD i 0))) ∧
    (∀ i, input.length ≤ i → i < L →
      (apply toFloat s input).2.xHistory.getD i 0 = s.xHistory.getD i 0 ∧
      (apply toFloat s input).2.yHistory.getD i 0 = s.yHistory.getD i 0) := by
  obtain ⟨h1, h2, _, _⟩ := apply_history_length toFloat s input hb ha
  rw [hx] at h1
  rw [hy] at h2
  refine ⟨h1, h2, ?_, ?_⟩
  · intro i hi
    obtain ⟨e1, e2, e3⟩ := apply_at_index toFloat s input hb ha i hi
    exact ⟨e2, e3, e1⟩
  · intro i hi _
    rw [apply_eq_applyLoop toFloat s input hb ha]
    exact applyLoop_getD_outside toFloat input 0 s (Nat.zero_le _) (Nat.zero_le _) i
      (Or.inr (by rw [Nat.zero_add]; exact hi))

/-- Witness of C26: the low-pass design after a first call of three samples
(`L = 3`), then a call of two samples. -/
theorem apply_history_update_witness :
    (apply id (apply id (designLowPass ratPrims 1000 44100 4 Impl.new) [1, 2, 3]).2
        [4, 5]).2.xHistory.length = max 3 ([4, 5] : List ℚ).length ∧
    (apply id (apply id (designLowPass ratPrims 1000 44100 4 Impl.new) [1, 2, 3]).2
        [4, 5]).2.yHistory.length = max 3 ([4, 5] : List ℚ).length ∧
    (∀ i, i < ([4, 5] : List ℚ).length →
      (apply id (apply id (designLowPass ratPrims 1000 44100 4 Impl.new) [1, 2, 3]).2
          [4, 5]).2.xHistory.getD i 0 = ([4, 5] : List ℚ).getD i 0 ∧
      (apply id (apply id (designLowPass ratPrims 1000 44100 4 Impl.new) [1, 2, 3]).2
          [4, 5]).2.yHistory.getD i 0
        = sampleValue (iterationState id
            (apply id (designLowPass ratPrims 1000 44100 4 Impl.new) [1, 2, 3]).2 [4, 5] i)
            i (([4, 5] : List ℚ).getD i 0) ∧
      (apply id (apply id (designLowPass ratPrims 1000 44100 4 Impl.new) [1, 2, 3]).2
          [4, 5]).1.getD i 0
        = id (sampleValue (iterationState id
            (apply id (designLowPass ratPrims 1000 44100 4 Impl.new) [1, 2, 3]).2 [4, 5] i)
            i (([4, 5] : List ℚ).getD i 0))) ∧
    (∀ i, ([4, 5] : List ℚ).length ≤ i → i < 3 →
      (apply id (apply id (designLowPass ratPrims 1000 44100 4 Impl.new) [1, 2, 3]).2
          [4, 5]).2.xHistory.getD i 0
        = (apply id (designLowPass ratPrims 1000 44100 4 Impl.new) [1, 2, 3]).2.xHistory.getD i 0 ∧
      (apply id (apply id (designLowPass ratPrims 1000 44100 4 Impl.new) [1, 2, 3]).2
          [4, 5]).2.yHistory.getD i 0
        = (apply id (designLowPass ratPrims 1000 44100 4 Impl.new)
            [1, 2, 3]).2.yHistory.getD i 0) :=
  apply_history_update id (apply id (designLowPass ratPrims 1000 44100 4 Impl.new) [1, 2, 3]).2
    [4, 5] lowPass_after_three.1 lowPass_after_three.2.1 3 lowPass_after_three.2.2.1
    lowPass_after_three.2.2.2

/-- C27. On an `apply` call made when the input history holds `L >= 1` samples,
the sample index restarts at 0: for every `i < L` (below the input length) the
output is the narrowed value of iteration `i`, whose feed-forward sum is made of
the terms `feedForwardTerm`, and its `j = 0` term is `b[0]` times the entry
`xHistory[i]` stored before the call, not the current sample; `output[0]` is
`b[0]*xHistory[0]/a[0]` narrowed, for every value of `input[0]`, so two calls
that differ in `input[0]` only return the same `output[0]`. -/
theorem apply_restarts_at_zero (toFloat : α → α) (s : Impl α)
    (hb : s.bCoeffs ≠ []) (ha : s.aCoeffs ≠ []) (L : Nat) (hL : s.xHistory.length = L)
    (hL1 : 1 ≤ L) :
    (∀ (input : List α) (i : Nat), i < L → i < input.length →
      (apply toFloat s input).1.getD i 0
        = toFloat (sampleValue (iterationState toFloat s input i) i (input.getD i 0)) ∧
      feedForward s.bCoeffs (iterationState toFloat s input i).xHistory i (input.getD i 0) 0
        = 0 + (∑ j in Finset.range s.bCoeffs.length,
            if j ≤ i then
              feedForwardTerm s.bCoeffs (iterationState toFloat s input i).xHistory i
                (input.getD i 0) j
            else 0) ∧
      feedForwardTerm s.bCoeffs (iterationState toFloat s input i).xHistory i
          (input.getD i 0) 0
        = s.bCoeffs.getD 0 0 * s.xHistory.getD i 0) ∧
    (∀ (x0 : α) (rest : List α),
      (apply toFloat s (x0 :: rest)).1.head?
        = some (toFloat (s.bCoeffs.getD 0 0 * s.xHistory.getD 0 0 / s.aCoeffs.getD 0 0))) ∧
    (∀ (x0 x0' : α) (rest : List α),
      (apply toFloat s (x0 :: rest)).1.head? = (apply toFloat s (x0' :: rest)).1.head?) := by
  have hxne : s.xHistory ≠ [] := by
    intro h
    rw [h] at hL
    simp at hL
    omega
  have hhead : ∀ (x0 : α) (rest : List α),
      (apply toFloat s (x0 :: rest)).1.head?
        = some (toFloat (s.bCoeffs.getD 0 0 * s.xHistory.getD 0 0 / s.aCoeffs.getD 0 0)) := by
    intro x0 rest
    rw [apply_eq_applyLoop toFloat s _ hb ha]
    show some (toFloat (sampleValue s 0 x0)) = _
    rw [sampleValue_zero_index s hb hxne x0]
  refine ⟨?_, hhead, ?_⟩
  · intro input i hi hin
    refine ⟨(apply_at_index toFloat s input hb ha i hin).1, feedForward_eq_terms _ _ _ _ _, ?_⟩
    have hge := iterationState_xHistory_ge toFloat s input i
    have hlt : i - 0 < (iterationState toFloat s input i).xHistory.length := by omega
    unfold feedForwardTerm
    rw [if_pos hlt, Nat.sub_zero,
      ((iterationState_history toFloat s input i (Nat.le_of_lt hin)).2.2 i (Nat.le_refl _)).1]
  · intro x0 x0' rest
    rw [hhead x0 rest, hhead x0' rest]

/-- Witness of C27: the low-pass design after a first call of three samples,
then calls that start with 7 and with 9. -/
theorem apply_restarts_at_zero_witness :
    (apply id (apply id (designLowPass ratPrims 1000 44100 4 Impl.new) [1, 2, 3]).2
        [7, 5]).1.head?
      = (apply id (apply id (designLowPass ratPrims 1000 44100 4 Impl.new) [1, 2, 3]).2
        [9, 5]).1.head? :=
  (apply_restarts_at_zero id
    (apply id (designLowPass ratPrims 1000 44100 4 Impl.new) [1, 2, 3]).2
    lowPass_after_three.1 lowPass_after_three.2.1 3 lowPass_after_three.2.2.1
    (by decide)).2.2 7 9 [5]

end HistoryClaims

section ScaleLemmas

variable {α : Type} [Field α]

/-- An entry of a list scaled by `w`, with default `0`. -/
theorem getD_map_scale (w : α) (l : List α) (n : Nat) :
    (l.map (fun v => w * v)).getD n 0 = w * l.getD n 0 := by
  have h := List.getD_map (f := fun v => w * v) (l := l) (d := (0 : α)) (n := n)
  simpa using h

/-- Recording a scaled value in a scaled history is scaling the recorded
history. -/
theorem recordAt_map_scale (w : α) (h : List α) (i : Nat) (v : α) :
    recordAt (h.map (fun u => w * u)) i (w * v) = (recordAt h i v).map (fun u => w * u) := by
  unfold recordAt
  rw [List.length_map]
  split
  · rw [List.map_append]; rfl
  · rw [List.map_set]

/-- Two states with the same denominator and the same input history, the
numerator and the output history of the first being those of the second scaled
by `w`: the value computed by the first is `w` times the value computed by the
second. -/
theorem sampleValue_scale (w : α) (sH sL : Impl α) (ha : sH.aCoeffs = sL.aCoeffs)
    (hb : sH.bCoeffs = sL.bCoeffs.map (fun v => w * v)) (hx : sH.xHistory = sL.xHistory)
    (hy : sH.yHistory = sL.yHistory.map (fun v => w * v)) (i : Nat) (x : α) :
    sampleValue sH i x = w * sampleValue sL i x := by
  unfold sampleValue
  rw [feedBack_eq_sum, feedForward_eq_sum, feedBack_eq_sum, feedForward_eq_sum, ha, hb, hx, hy]
  have h1 : (∑ j in Finset.range (sL.bCoeffs.map (fun v => w * v)).length,
      if j ≤ i then (sL.bCoeffs.map (fun v => w * v)).getD j 0 *
        (if i - j < sL.xHistory.length then sL.xHistory.getD (i - j) 0 else x) else 0)
      = w * ∑ j in Finset.range sL.bCoeffs.length,
          if j ≤ i then sL.bCoeffs.getD j 0 *
            (if i - j < sL.xHistory.length then sL.xHistory.getD (i - j) 0 else x) else 0 := by
    rw [List.length_map, Finset.mul_sum]
    apply Finset.sum_congr rfl
    intro j _
    rw [getD_map_scale]
    split <;> ring
  have h2 : (∑ j in Finset.Ico 1 sL.aCoeffs.length,
      if j ≤ i then sL.aCoeffs.getD j 0 *
        (if i - j < (sL.yHistory.map (fun v => w * v)).length
          then (sL.yHistory.map (fun v => w * v)).getD (i - j) 0 else 0) else 0)
      = w * ∑ j in Finset.Ico 1 sL.aCoeffs.length,
          if j ≤ i then sL.aCoeffs.getD j 0 *
            (if i - j < sL.yHistory.length then sL.yHistory.getD (i - j) 0 else 0) else 0 := by
    rw [List.length_map, Finset.mul_sum]
    apply Finset.sum_congr rfl
    intro j _
    rw [getD_map_scale]
    split
    · split <;> ring
    · ring
  rw [h1, h2]
  ring

/-- The loop of `apply` (without narrowing) on two states related as in
`sampleValue_scale`: the outputs of the first are the outputs of the second
scaled by `w`. -/
theorem applyLoop_scale (w : α) (xs : List α) :
    ∀ (i : Nat) (sH sL : Impl α), sH.aCoeffs = sL.aCoeffs →
      sH.bCoeffs = sL.bCoeffs.map (fun v => w * v) → sH.xHistory = sL.xHistory →
      sH.yHistory = sL.yHistory.map (fun v => w * v) →
      (applyLoop id i xs sH).1 = (applyLoop id i xs sL).1.map (fun v => w * v) := by
  induction xs with
  | nil => intro i sH sL _ _ _ _; rfl
  | cons x rest ih =>
    intro i sH sL ha hb hx hy
    have hv := sampleValue_scale w sH sL ha hb hx hy i x
    have h := ih (i + 1) (recordSample sH i x) (recordSample sL i x) ha hb
      (by show recordAt sH.xHistory i x = recordAt sL.xHistory i x; rw [hx])
      (by
        show recordAt sH.yHistory i (sampleValue sH i x)
          = (recordAt sL.yHistory i (sampleValue sL i x)).map (fun v => w * v)
        rw [hy, hv, recordAt_map_scale])
    show id (sampleValue sH i x) :: (applyLoop id (i + 1) rest (recordSample sH i x)).1
      = (id (sampleValue sL i x) :: (applyLoop id (i + 1) rest (recordSample sL i x)).1).map
          (fun v => w * v)
    rw [h, List.map_cons]
    simp only [id, hv]

end ScaleLemmas

section ScaleClaims

/-- C30. `HIGH_PASS` is a scaled `LOW_PASS`: for every `sampleRate > 0` and
`cutoff >= 0` (and a positive `PI`), the output of `apply(x)` directly after
`designHighPass(cutoff, sampleRate, order)` is, sample by sample,
`2*PI*cutoff/sampleRate` times the output of `apply(x)` directly after
`designLowPass(cutoff, sampleRate, order)`, in exact arithmetic (no narrowing);
and the first value of the `HIGH_PASS` frequency response (frequency 0) is
`2*PI*cutoff/sampleRate`, which is not 0 when `cutoff > 0`. -/
theorem highPass_scaled_lowPass (c : ComplexPrims ℝ ℂ) (hc : c.IsStandard) (m : MathPrims ℝ)
    (hPI : 0 < m.PI) (s₁ s₂ : Impl ℝ) (cutoff sampleRate : ℝ) (order : Int)
    (hsr : 0 < sampleRate) (hcut : 0 ≤ cutoff) :
    (∀ x : List ℝ,
      (apply id (designHighPass m cutoff sampleRate order s₁) x).1
        = (apply id (designLowPass m cutoff sampleRate order s₂) x).1.map
            (fun v => 2 * m.PI * cutoff / sampleRate * v)) ∧
    (∀ numPoints : Int, 1 ≤ numPoints →
      ∃ H : List ℂ,
        (getFrequencyResponse c m (designHighPass m cutoff sampleRate order s₁) numPoints).1
          = some H ∧
        H.getD 0 0 = ((2 * m.PI * cutoff / sampleRate : ℝ) : ℂ)) ∧
    (0 < cutoff → 2 * m.PI * cutoff / sampleRate ≠ 0) := by
  have hw : 0 ≤ 2 * m.PI * (cutoff / sampleRate) := by positivity
  have hw1 : 1 + 2 * m.PI * (cutoff / sampleRate) ≠ 0 := by linarith
  have hwe : 2 * m.PI * cutoff / sampleRate = 2 * m.PI * (cutoff / sampleRate) := by ring
  -- the coefficients and histories of the two designs
  have hHb := (updateCoefficients_coeffs m
    { s₁ with type := FilterType.HIGH_PASS, cutoffFrequency := cutoff,
              sampleRate := sampleRate, order := order }).1
  have hHa := (updateCoefficients_coeffs m
    { s₁ with type := FilterType.HIGH_PASS, cutoffFrequency := cutoff,
              sampleRate := sampleRate, order := order }).2
  have hLb := (updateCoefficients_coeffs m
    { s₂ with type := FilterType.LOW_PASS, cutoffFrequency := cutoff,
              sampleRate := sampleRate, order := order }).1
  have hLa := (updateCoefficients_coeffs m
    { s₂ with type := FilterType.LOW_PASS, cutoffFrequency := cutoff,
              sampleRate := sampleRate, order := order }).2
  simp only [designCoeffs] at hHb hHa hLb hLa
  have hHx : (designHighPass m cutoff sampleRate order s₁).xHistory = [] :=
    updateCoefficients_xHistory m _
  have hHy : (designHighPass m cutoff sampleRate order s₁).yHistory = [] :=
    updateCoefficients_yHistory m _
  have hLx : (designLowPass m cutoff sampleRate order s₂).xHistory = [] :=
    updateCoefficients_xHistory m _
  have hLy : (designLowPass m cutoff sampleRate order s₂).yHistory = [] :=
    updateCoefficients_yHistory m _
  have hHsr : (designHighPass m cutoff sampleRate order s₁).sampleRate = sampleRate :=
    (updateCoefficients_spec m _).2.2.2.2.2
  refine ⟨?_, ?_, ?_⟩
  · intro x
    have n1 : (designHighPass m cutoff sampleRate order s₁).bCoeffs ≠ [] :=
      updateCoefficients_bCoeffs_ne_nil m _
    have n2 : (designHighPass m cutoff sampleRate order s₁).aCoeffs ≠ [] :=
      updateCoefficients_aCoeffs_ne_nil m _
    have n3 : (designLowPass m cutoff sampleRate order s₂).bCoeffs ≠ [] :=
      updateCoefficients_bCoeffs_ne_nil m _
    have n4 : (designLowPass m cutoff sampleRate order s₂).aCoeffs ≠ [] :=
      updateCoefficients_aCoeffs_ne_nil m _
    rw [apply_eq_applyLoop id _ x n1 n2, apply_eq_applyLoop id _ x n3 n4]
    apply applyLoop_scale
    · show (updateCoefficients m _).aCoeffs = (updateCoefficients m _).aCoeffs
      rw [hHa, hLa]
    · show (updateCoefficients m _).bCoeffs = (updateCoefficients m _).bCoeffs.map _
      rw [hHb, hLb, hwe]
      simp only [List.map_cons, List.map_nil]
      congr 1
      field_simp
    · rw [hHx, hLx]
    · rw [hHy, hLy]; rfl
  · intro numPoints hn
    have hneg : ¬ numPoints < 0 := by omega
    refine ⟨(List.range numPoints.toNat).map
      (responseAt c m (designHighPass m cutoff sampleRate order s₁) numPoints), ?_, ?_⟩
    · unfold getFrequencyResponse
      rw [if_neg hneg]
    · have hpos : 0 < numPoints.toNat := by omega
      have hlen : 0 < ((List.range numPoints.toNat).map
          (responseAt c m (designHighPass m cutoff sampleRate order s₁) numPoints)).length := by
        rw [List.length_map, List.length_range]; exact hpos
      rw [List.getD_eq_getElem _ _ hlen, List.getElem_map, List.getElem_range,
        responseAt_standard c hc]
      have hHb' : (designHighPass m cutoff sampleRate order s₁).bCoeffs
          = [1 - 1 / (1 + 2 * m.PI * (cutoff / sampleRate))] := hHb
      have hHa' : (designHighPass m cutoff sampleRate order s₁).aCoeffs
          = [1, 1 / (1 + 2 * m.PI * (cutoff / sampleRate)) - 1] := hHa
      rw [hHb', hHa']
      have harg : (2 * m.PI * ((((0 : ℕ) : ℝ) / (numPoints : ℝ))
          * (designHighPass m cutoff sampleRate order s₁).sampleRate / 2)
          / (designHighPass m cutoff sampleRate order s₁).sampleRate) = 0 := by simp
      rw [harg]
      simp only [Complex.ofReal_zero, mul_zero, Complex.exp_zero, one_zpow, mul_one,
        List.length_cons, List.length_nil, Finset.sum_range_succ, Finset.sum_range_zero,
        zero_add, List.getD_cons_zero, List.getD_cons_succ]
      norm_cast
      rw [hwe]
      field_simp
  · intro hc0
    have : 0 < 2 * m.PI * cutoff / sampleRate := by positivity
    exact ne_of_gt this

/-- Witness of C30: 1000 Hz at 44100 Hz, order 4, with the real `pi` and the
complex numbers of mathematics. -/
theorem highPass_scaled_lowPass_witness :
    (∀ x : List ℝ,
      (apply id (designHighPass (MathPrims.mk Real.pi Real.tan Real.cos) 1000 44100 4
          Impl.new) x).1
        = (apply id (designLowPass (MathPrims.mk Real.pi Real.tan Real.cos) 1000 44100 4
            Impl.new) x).1.map (fun v => 2 * Real.pi * 1000 / 44100 * v)) ∧
    (∀ numPoints : Int, 1 ≤ numPoints →
      ∃ H : List ℂ,
        (getFrequencyResponse
            (ComplexPrims.mk Complex.mk Complex.exp (fun z x => z ^ (x : ℂ)))
            (MathPrims.mk Real.pi Real.tan Real.cos)
            (designHighPass (MathPrims.mk Real.pi Real.tan Real.cos) 1000 44100 4 Impl.new)
            numPoints).1 = some H ∧
        H.getD 0 0 = ((2 * Real.pi * 1000 / 44100 : ℝ) : ℂ)) ∧
    ((0 : ℝ) < 1000 → 2 * Real.pi * 1000 / 44100 ≠ 0) :=
  highPass_scaled_lowPass (ComplexPrims.mk Complex.mk Complex.exp (fun z x => z ^ (x : ℂ)))
    ⟨fun _ _ => rfl, fun _ => rfl, fun _ _ => rfl⟩ (MathPrims.mk Real.pi Real.tan Real.cos)
    Real.pi_pos Impl.new Impl.new 1000 44100 4 (by norm_num) (by norm_num)

end ScaleClaims

section ThrowClaims

/-- C21 as stated fails. On the freshly constructed engine,
`getFrequencyResponse(-1)` does not return: constructing the result vector with
the element count that `-1` converts to throws. -/
theorem getFrequencyResponse_negative :
    (getFrequencyResponse (ComplexPrims.mk Complex.mk Complex.exp (fun z x => z ^ (x : ℂ)))
      (MathPrims.mk Real.pi Real.tan Real.cos) (Impl.new : Impl ℝ) (-1)).1 = none := by
  unfold getFrequencyResponse
  rw [if_pos (by norm_num)]

/-- C21, amended. For every engine state and every `numPoints >= 0`, zero
included, `getFrequencyResponse(numPoints)` returns normally, with `numPoints`
values (none for zero); for a negative `numPoints` the construction of the
result vector throws. In both cases the engine state is unchanged. -/
theorem getFrequencyResponse_returns {α K : Type} [Field α] [Field K]
    (c : ComplexPrims α K) (m : MathPrims α) (s : Impl α) (numPoints : Int) :
    (0 ≤ numPoints →
      ∃ H : List K, (getFrequencyResponse c m s numPoints).1 = some H ∧
        (H.length : Int) = numPoints) ∧
    (numPoints = 0 → (getFrequencyResponse c m s numPoints).1 = some []) ∧
    (numPoints < 0 → (getFrequencyResponse c m s numPoints).1 = none) ∧
    (getFrequencyResponse c m s numPoints).2 = s := by
  refine ⟨?_, ?_, ?_, ?_⟩
  · intro h
    refine ⟨(List.range numPoints.toNat).map (responseAt c m s numPoints), ?_, ?_⟩
    · unfold getFrequencyResponse
      rw [if_neg (by omega)]
    · rw [List.length_map, List.length_range]
      omega
  · intro h
    subst h
    rfl
  · intro h
    unfold getFrequencyResponse
    rw [if_pos h]
  · unfold getFrequencyResponse
    split <;> rfl

/-- Witness of the amended C21: the freshly constructed engine with 3 points,
with 0 points and with -5 points. -/
theorem getFrequencyResponse_returns_witness :
    (∃ H : List ℂ,
      (getFrequencyResponse (ComplexPrims.mk Complex.mk Complex.exp (fun z x => z ^ (x : ℂ)))
        (MathPrims.mk Real.pi Real.tan Real.cos) (Impl.new : Impl ℝ) 3).1 = some H ∧
      (H.length : Int) = 3) ∧
    (getFrequencyResponse (ComplexPrims.mk Complex.mk Complex.exp (fun z x => z ^ (x : ℂ)))
      (MathPrims.mk Real.pi Real.tan Real.cos) (Impl.new : Impl ℝ) 0).1 = some [] ∧
    (getFrequencyResponse (ComplexPrims.mk Complex.mk Complex.exp (fun z x => z ^ (x : ℂ)))
      (MathPrims.mk Real.pi Real.tan Real.cos) (Impl.new : Impl ℝ) (-5)).1 = none :=
  ⟨(getFrequencyResponse_returns _ _ _ 3).1 (by norm_num),
    (getFrequencyResponse_returns _ _ _ 0).2.1 rfl,
    (getFrequencyResponse_returns _ _ _ (-5)).2.2.1 (by norm_num)⟩

end ThrowClaims

section LengthClaims

variable {α : Type} [LinearOrderedField α]

/-- C29. In every state reachable from construction by a sequence of `design*`,
setter, `apply` and reset calls, `xHistory` and `yHistory` have the same
length. -/
theorem reachable_same_length (m : MathPrims α) (toFloat : α → α) (s : Impl α)
    (h : Reachable m toFloat s) : s.xHistory.length = s.yHistory.length := by
  obtain ⟨ops, rfl⟩ := h
  have key : ∀ (l : List (Op α)) (t : Impl α), t.xHistory.length = t.yHistory.length →
      (run m toFloat t l).xHistory.length = (run m toFloat t l).yHistory.length := by
    intro l
    induction l with
    | nil => intro t ht; exact ht
    | cons op rest ih =>
      intro t ht
      apply ih (step m toFloat t op)
      cases op with
      | apply input => exact apply_same_length toFloat t input ht
      | reset => rfl
      | _ =>
        show (updateCoefficients m _).xHistory.length = (updateCoefficients m _).yHistory.length
        rw [updateCoefficients_xHistory, updateCoefficients_yHistory]
  exact key ops Impl.new rfl

/-- Witness of C29: a design call, two `apply` calls of different lengths, a
setter and another `apply` call. -/
theorem reachable_same_length_witness :
    (run ratPrims id Impl.new
        [Op.designNotch 1000 44100 10, Op.apply [1, 2, 3], Op.apply [4], Op.setQ 5,
          Op.apply [6, 7]]).xHistory.length
      = (run ratPrims id Impl.new
        [Op.designNotch 1000 44100 10, Op.apply [1, 2, 3], Op.apply [4], Op.setQ 5,
          Op.apply [6, 7]]).yHistory.length :=
  reachable_same_length ratPrims id _ ⟨_, rfl⟩

end LengthClaims

section SmoothLemmas

/-- The function `t ↦ exp(i*t)` is 1-Lipschitz. -/
theorem exp_I_mul_lipschitz (x y : ℝ) :
    ‖Complex.exp (Complex.I * (x : ℂ)) - Complex.exp (Complex.I * (y : ℂ))‖ ≤ |x - y| := by
  have hd : ∀ t ∈ (Set.univ : Set ℝ),
      HasDerivWithinAt (fun t : ℝ => Complex.exp (Complex.I * (t : ℂ)))
        (Complex.exp (Complex.I * (t : ℂ)) * (Complex.I * 1)) Set.univ t := by
    intro t _
    have h1 : HasDerivAt (fun t : ℝ => (t : ℂ)) 1 t := Complex.ofRealCLM.hasDerivAt
    exact ((h1.const_mul Complex.I).cexp).hasDerivWithinAt
  have hb : ∀ t ∈ (Set.univ : Set ℝ),
      ‖Complex.exp (Complex.I * (t : ℂ)) * (Complex.I * 1)‖ ≤ 1 := by
    intro t _
    rw [mul_one, norm_mul, Complex.norm_I, mul_one, mul_comm, Complex.norm_exp_ofReal_mul_I]
  have h := Convex.norm_image_sub_le_of_norm_hasDerivWithin_le hd hb convex_univ
    (Set.mem_univ y) (Set.mem_univ x)
  rw [one_mul, Real.norm_eq_abs] at h
  exact h

/-- A negative integer power of `exp(i*x)` is `exp(i*(-j*x))`. -/
theorem exp_I_mul_zpow_neg (x : ℝ) (j : ℕ) :
    Complex.exp (Complex.I * (x : ℂ)) ^ (-(j : ℤ))
      = Complex.exp (Complex.I * ((-(j : ℝ) * x : ℝ) : ℂ)) := by
  rw [← Complex.exp_int_mul]
  congr 1
  push_cast
  ring

/-- A power of `exp(i*x)` has norm 1. -/
theorem norm_exp_I_mul_zpow (x : ℝ) (j : ℕ) :
    ‖Complex.exp (Complex.I * (x : ℂ)) ^ (-(j : ℤ))‖ = 1 := by
  rw [exp_I_mul_zpow_neg, mul_comm, Complex.norm_exp_ofReal_mul_I]

/-- The polynomial sum on the unit circle is bounded by the sum of the absolute
values of its coefficients. -/
theorem norm_circleSum_le (f : ℕ → ℝ) (n : ℕ) (x : ℝ) :
    ‖∑ j in Finset.range n, (f j : ℂ) * Complex.exp (Complex.I * (x : ℂ)) ^ (-(j : ℤ))‖
      ≤ ∑ j in Finset.range n, |f j| := by
  refine le_trans (norm_sum_le _ _) (Finset.sum_le_sum ?_)
  intro j _
  rw [norm_mul, norm_exp_I_mul_zpow, mul_one, Complex.norm_real, Real.norm_eq_abs]

/-- The polynomial sum on the unit circle is Lipschitz in the angle. -/
theorem norm_circleSum_sub_le (f : ℕ → ℝ) (n : ℕ) (x y : ℝ) :
    ‖(∑ j in Finset.range n, (f j : ℂ) * Complex.exp (Complex.I * (x : ℂ)) ^ (-(j : ℤ)))
        - ∑ j in Finset.range n, (f j : ℂ) * Complex.exp (Complex.I * (y : ℂ)) ^ (-(j : ℤ))‖
      ≤ (∑ j in Finset.range n, |f j| * (j : ℝ)) * |x - y| := by
  rw [← Finset.sum_sub_distrib, Finset.sum_mul]
  refine le_trans (norm_sum_le _ _) (Finset.sum_le_sum ?_)
  intro j _
  rw [← mul_sub, norm_mul, Complex.norm_real, Real.norm_eq_abs, exp_I_mul_zpow_neg,
    exp_I_mul_zpow_neg, mul_assoc]
  refine mul_le_mul_of_nonneg_left ?_ (abs_nonneg _)
  refine le_trans (exp_I_mul_lipschitz _ _) ?_
  have e : -(j : ℝ) * x - -(j : ℝ) * y = -(j : ℝ) * (x - y) := by ring
  rw [e, abs_mul, abs_neg, abs_of_nonneg (Nat.cast_nonneg j)]

/-- A polynomial sum without a zero on the unit circle is bounded away from zero
on it. -/
theorem circleSum_lower_bound (f : ℕ → ℝ) (n : ℕ)
    (hne : ∀ z : ℂ, ‖z‖ = 1 → (∑ j in Finset.range n, (f j : ℂ) * z ^ (-(j : ℤ))) ≠ 0) :
    ∃ δ : ℝ, 0 < δ ∧ ∀ x : ℝ,
      δ ≤ ‖∑ j in Finset.range n, (f j : ℂ) * Complex.exp (Complex.I * (x : ℂ)) ^ (-(j : ℤ))‖ := by
  have hcont : ContinuousOn
      (fun z : ℂ => ‖∑ j in Finset.range n, (f j : ℂ) * z ^ (-(j : ℤ))‖)
      (Metric.sphere (0 : ℂ) 1) := by
    apply ContinuousOn.norm
    apply continuousOn_finset_sum
    intro j _
    apply ContinuousOn.mul continuousOn_const
    apply (continuousOn_zpow₀ (-(j : ℤ))).mono
    intro z hz
    have hz1 : ‖z‖ = 1 := by simpa using hz
    intro h0
    rw [Set.mem_singleton_iff] at h0
    rw [h0, norm_zero] at hz1
    exact zero_ne_one hz1
  have hnon : (Metric.sphere (0 : ℂ) 1).Nonempty := ⟨1, by simp⟩
  obtain ⟨z0, hz0, hmin⟩ := (isCompact_sphere (0 : ℂ) 1).exists_isMinOn hnon hcont
  have hz0' : ‖z0‖ = 1 := by simpa using hz0
  refine ⟨‖∑ j in Finset.range n, (f j : ℂ) * z0 ^ (-(j : ℤ))‖,
    norm_pos_iff.mpr (hne z0 hz0'), ?_⟩
  intro x
  have hx : Complex.exp (Complex.I * (x : ℂ)) ∈ Metric.sphere (0 : ℂ) 1 := by
    rw [mem_sphere_zero_iff_norm, mul_comm, Complex.norm_exp_ofReal_mul_I]
  exact hmin hx

/-- The ratio of two polynomial sums on the unit circle, the denominator without
a zero there, is Lipschitz in the angle. -/
theorem circleRatio_lipschitz (f g : ℕ → ℝ) (n k : ℕ)
    (hne : ∀ z : ℂ, ‖z‖ = 1 → (∑ j in Finset.range k, (g j : ℂ) * z ^ (-(j : ℤ))) ≠ 0) :
    ∃ C : ℝ, 0 ≤ C ∧ ∀ x y : ℝ,
      ‖(∑ j in Finset.range n, (f j : ℂ) * Complex.exp (Complex.I * (x : ℂ)) ^ (-(j : ℤ)))
            / (∑ j in Finset.range k, (g j : ℂ) * Complex.exp (Complex.I * (x : ℂ)) ^ (-(j : ℤ)))
          - (∑ j in Finset.range n, (f j : ℂ) * Complex.exp (Complex.I * (y : ℂ)) ^ (-(j : ℤ)))
            / (∑ j in Finset.range k, (g j : ℂ)
                * Complex.exp (Complex.I * (y : ℂ)) ^ (-(j : ℤ)))‖
        ≤ C * |x - y| := by
  obtain ⟨δ, hδ, hlow⟩ := circleSum_lower_bound g k hne
  have hB0 : 0 ≤ ∑ j in Finset.range n, |f j| := Finset.sum_nonneg (fun _ _ => abs_nonneg _)
  have hA0 : 0 ≤ ∑ j in Finset.range k, |g j| := Finset.sum_nonneg (fun _ _ => abs_nonneg _)
  have hB1 : 0 ≤ ∑ j in Finset.range n, |f j| * (j : ℝ) :=
    Finset.sum_nonneg (fun j _ => mul_nonneg (abs_nonneg _) (Nat.cast_nonneg j))
  have hA1 : 0 ≤ ∑ j in Finset.range k, |g j| * (j : ℝ) :=
    Finset.sum_nonneg (fun j _ => mul_nonneg (abs_nonneg _) (Nat.cast_nonneg j))
  refine ⟨((∑ j in Finset.range n, |f j| * (j : ℝ)) * (∑ j in Finset.range k, |g j|)
      + (∑ j in Finset.range n, |f j|) * (∑ j in Finset.range k, |g j| * (j : ℝ))) / (δ * δ),
    by positivity, ?_⟩
  intro x y
  generalize hNx : (∑ j in Finset.range n,
    (f j : ℂ) * Complex.exp (Complex.I * (x : ℂ)) ^ (-(j : ℤ))) = Nx
  generalize hNy : (∑ j in Finset.range n,
    (f j : ℂ) * Complex.exp (Complex.I * (y : ℂ)) ^ (-(j : ℤ))) = Ny
  generalize hDx : (∑ j in Finset.range k,
    (g j : ℂ) * Complex.exp (Complex.I * (x : ℂ)) ^ (-(j : ℤ))) = Dx
  generalize hDy : (∑ j in Finset.range k,
    (g j : ℂ) * Complex.exp (Complex.I * (y : ℂ)) ^ (-(j : ℤ))) = Dy
  have lDx : δ ≤ ‖Dx‖ := hDx ▸ hlow x
  have lDy : δ ≤ ‖Dy‖ := hDy ▸ hlow y
  have bNy : ‖Ny‖ ≤ ∑ j in Finset.range n, |f j| := hNy ▸ norm_circleSum_le f n y
  have bDy : ‖Dy‖ ≤ ∑ j in Finset.range k, |g j| := hDy ▸ norm_circleSum_le g k y
  have dN : ‖Nx - Ny‖ ≤ (∑ j in Finset.range n, |f j| * (j : ℝ)) * |x - y| := by
    rw [← hNx, ← hNy]; exact norm_circleSum_sub_le f n x y
  have dD : ‖Dx - Dy‖ ≤ (∑ j in Finset.range k, |g j| * (j : ℝ)) * |x - y| := by
    rw [← hDx, ← hDy]; exact norm_circleSum_sub_le g k x y
  have nDx : Dx ≠ 0 := norm_pos_iff.mp (lt_of_lt_of_le hδ lDx)
  have nDy : Dy ≠ 0 := norm_pos_iff.mp (lt_of_lt_of_le hδ lDy)
  have e : Nx / Dx - Ny / Dy = ((Nx - Ny) * Dy - Ny * (Dx - Dy)) / (Dx * Dy) := by
    field_simp
    ring
  rw [e, norm_div, norm_mul]
  have hden : δ * δ ≤ ‖Dx‖ * ‖Dy‖ := mul_le_mul lDx lDy (le_of_lt hδ) (norm_nonneg _)
  have hnum : ‖(Nx - Ny) * Dy - Ny * (Dx - Dy)‖
      ≤ ((∑ j in Finset.range n, |f j| * (j : ℝ)) * (∑ j in Finset.range k, |g j|)
        + (∑ j in Finset.range n, |f j|) * (∑ j in Finset.range k, |g j| * (j : ℝ)))
        * |x - y| := by
    refine le_trans (norm_sub_le _ _) ?_
    rw [norm_mul, norm_mul]
    have t1 : ‖Nx - Ny‖ * ‖Dy‖
        ≤ (∑ j in Finset.range n, |f j| * (j : ℝ)) * |x - y| * (∑ j in Finset.range k, |g j|) :=
      mul_le_mul dN bDy (norm_nonneg _) (mul_nonneg hB1 (abs_nonneg _))
    have t2 : ‖Ny‖ * ‖Dx - Dy‖
        ≤ (∑ j in Finset.range n, |f j|) * ((∑ j in Finset.range k, |g j| * (j : ℝ)) * |x - y|) :=
      mul_le_mul bNy dD (norm_nonneg _) hB0
    linarith
  have hpos : 0 < δ * δ := mul_pos hδ hδ
  calc ‖(Nx - Ny) * Dy - Ny * (Dx - Dy)‖ / (‖Dx‖ * ‖Dy‖)
      ≤ ‖(Nx - Ny) * Dy - Ny * (Dx - Dy)‖ / (δ * δ) :=
        div_le_div_of_nonneg_left (norm_nonneg _) hpos hden
    _ ≤ (((∑ j in Finset.range n, |f j| * (j : ℝ)) * (∑ j in Finset.range k, |g j|)
        + (∑ j in Finset.range n, |f j|) * (∑ j in Finset.range k, |g j| * (j : ℝ)))
        * |x - y|) / (δ * δ) := div_le_div_of_nonneg_right hnum (le_of_lt hpos)
    _ = _ := by ring

end SmoothLemmas

section SmoothClaims

/-- C22. Frequency-response smoothness, with the complex numbers of mathematics:
for every coefficient pair `b`, `a` whose denominator polynomial
`sum_j a[j]*z^(-j)` has no zero on the unit circle there is a constant `C`
(depending on `b`, `a` and the constant `PI` only) such that for every engine
with these coefficients, every `numPoints >= 2` and every `k` with
`k + 1 < numPoints`, the response `H = getFrequencyResponse(numPoints)` satisfies
`|H[k+1] - H[k]| <= C / numPoints`. -/
theorem getFrequencyResponse_smooth (c : ComplexPrims ℝ ℂ) (hc : c.IsStandard)
    (m : MathPrims ℝ) (b a : List ℝ)
    (hne : ∀ z : ℂ, ‖z‖ = 1 →
      (∑ j in Finset.range a.length, ((a.getD j 0 : ℝ) : ℂ) * z ^ (-(j : ℤ))) ≠ 0) :
    ∃ C : ℝ, ∀ s : Impl ℝ, s.bCoeffs = b → s.aCoeffs = a →
      ∀ numPoints : Int, 2 ≤ numPoints → ∀ k : Nat, (k : Int) + 1 < numPoints →
        ∃ H : List ℂ, (getFrequencyResponse c m s numPoints).1 = some H ∧
          ‖H.getD (k + 1) 0 - H.getD k 0‖ ≤ C / (numPoints : ℝ) := by
  obtain ⟨L, hL, hlip⟩ := circleRatio_lipschitz (fun j => b.getD j 0) (fun j => a.getD j 0)
    b.length a.length hne
  refine ⟨L * |m.PI|, ?_⟩
  intro s hb ha numPoints hn k hk
  have hneg : ¬ numPoints < 0 := by omega
  refine ⟨(List.range numPoints.toNat).map (responseAt c m s numPoints), ?_, ?_⟩
  · unfold getFrequencyResponse
    rw [if_neg hneg]
  · have hk0 : k < ((List.range numPoints.toNat).map (responseAt c m s numPoints)).length := by
      rw [List.length_map, List.length_range]; omega
    have hk1 : k + 1
        < ((List.range numPoints.toNat).map (responseAt c m s numPoints)).length := by
      rw [List.length_map, List.length_range]; omega
    rw [List.getD_eq_getElem _ _ hk0, List.getD_eq_getElem _ _ hk1, List.getElem_map,
      List.getElem_map, List.getElem_range, List.getElem_range, responseAt_standard c hc,
      responseAt_standard c hc, hb, ha]
    refine le_trans (hlip _ _) ?_
    have hnpos : (0 : ℝ) < (numPoints : ℝ) := by
      have : (0 : Int) < numPoints := by omega
      exact_mod_cast this
    have hstep : 2 * m.PI * ((((k + 1 : ℕ) : ℝ) / (numPoints : ℝ)) * s.sampleRate / 2)
          / s.sampleRate
        - 2 * m.PI * (((k : ℝ) / (numPoints : ℝ)) * s.sampleRate / 2) / s.sampleRate
        = m.PI * (s.sampleRate / s.sampleRate) / (numPoints : ℝ) := by
      push_cast
      ring
    have hratio : |s.sampleRate / s.sampleRate| ≤ 1 := by
      by_cases h0 : s.sampleRate = 0
      · rw [h0]; simp
      · rw [div_self h0]; simp
    rw [hstep, abs_div, abs_mul, abs_of_pos hnpos, ← mul_div_assoc]
    apply div_le_div_of_nonneg_right _ (le_of_lt hnpos)
    calc L * (|m.PI| * |s.sampleRate / s.sampleRate|)
        ≤ L * (|m.PI| * 1) :=
          mul_le_mul_of_nonneg_left
            (mul_le_mul_of_nonneg_left hratio (abs_nonneg _)) hL
      _ = L * |m.PI| := by rw [mul_one]

/-- Witness of C22: the coefficients `b = [1/2]`, `a = [1, -1/2]`, whose
denominator `1 - z^(-1)/2` has no zero on the unit circle. -/
theorem getFrequencyResponse_smooth_witness :
    ∃ C : ℝ, ∀ s : Impl ℝ, s.bCoeffs = [1 / 2] → s.aCoeffs = [1, -1 / 2] →
      ∀ numPoints : Int, 2 ≤ numPoints → ∀ k : Nat, (k : Int) + 1 < numPoints →
        ∃ H : List ℂ,
          (getFrequencyResponse (ComplexPrims.mk Complex.mk Complex.exp (fun z x => z ^ (x : ℂ)))
            (MathPrims.mk Real.pi Real.tan Real.cos) s numPoints).1 = some H ∧
          ‖H.getD (k + 1) 0 - H.getD k 0‖ ≤ C / (numPoints : ℝ) :=
  getFrequencyResponse_smooth (ComplexPrims.mk Complex.mk Complex.exp (fun z x => z ^ (x : ℂ)))
    ⟨fun _ _ => rfl, fun _ => rfl, fun _ _ => rfl⟩ (MathPrims.mk Real.pi Real.tan Real.cos)
    [1 / 2] [1, -1 / 2]
    (by
      intro z hz h
      simp only [List.length_cons, List.length_nil, Finset.sum_range_succ, Finset.sum_range_zero,
        zero_add, List.getD_cons_zero, List.getD_cons_succ] at h
      have hz1 : z ^ (-((1 : ℕ) : ℤ)) = 2 := by
        have h' : (1 : ℂ) + ((-1 / 2 : ℝ) : ℂ) * z ^ (-((1 : ℕ) : ℤ)) = 0 := by
          simpa using h
        push_cast at h'
        linear_combination (-2 : ℂ) * h'
      have hnorm : ‖z ^ (-((1 : ℕ) : ℤ))‖ = 1 := by
        rw [norm_zpow, hz, one_zpow]
      rw [hz1] at hnorm
      norm_num at hnorm)

end SmoothClaims

namespace ieee

section RoundingLemmas

/-- A rational half way between an even integer and its successor rounds to the
even integer. -/
theorem roundNearestEven_tie_even (x : ℚ) (f : ℤ) (hx : x = (f : ℚ) + 1 / 2)
    (heven : f % 2 = 0) : roundNearestEven x = f := by
  unfold roundNearestEven
  have hf : ⌊x⌋ = f := by
    rw [Int.floor_eq_iff]
    constructor
    · linarith
    · linarith
  rw [hf, if_neg (by linarith), if_neg (by linarith), if_pos heven]

/-- The last place of a rational whose magnitude lies in the binade
`[2^(k+52), 2^(k+53))`, for an exponent `k` not below -1074, is `k`. -/
theorem lastPlace_eq (q : ℚ) (k : ℤ) (hk : -1074 ≤ k) (h1 : (2 : ℚ) ^ (k + 52) ≤ |q|)
    (h2 : |q| < (2 : ℚ) ^ (k + 53)) : lastPlace q = k := by
  unfold lastPlace
  have hpos : (0 : ℚ) < |q| := lt_of_lt_of_le (by positivity) h1
  have hlog : Int.log 2 |q| = k + 52 := by
    apply le_antisymm
    · have h := (Int.lt_zpow_iff_log_lt (b := 2) (by norm_num) hpos (x := k + 53)).mp
        (by exact_mod_cast h2)
      omega
    · exact (Int.zpow_le_iff_le_log (b := 2) (by norm_num) hpos (x := k + 52)).mp
        (by exact_mod_cast h1)
  rw [hlog]
  omega

/-- Evaluation of the rounding at a tie above an even multiple: a rational `q` in
the binade with last place `k` that is half way between `f * 2^k`, `f` even, and
the next multiple rounds to `f * 2^k`. -/
theorem roundDouble_tie_even (q r : ℚ) (k f : ℤ) (hk : -1074 ≤ k)
    (hr : r = (f : ℚ) * 2 ^ k) (h1 : (2 : ℚ) ^ (k + 52) ≤ |q|)
    (h2 : |q| < (2 : ℚ) ^ (k + 53)) (hq : q = ((f : ℚ) + 1 / 2) * 2 ^ k)
    (heven : f % 2 = 0) : roundDouble q = r := by
  unfold roundDouble
  rw [lastPlace_eq q k hk h1 h2]
  have hp : (2 : ℚ) ^ k ≠ 0 := by positivity
  have hn : roundNearestEven (q / 2 ^ k) = f := by
    apply roundNearestEven_tie_even _ f _ heven
    rw [hq, mul_div_assoc, div_self hp, mul_one]
  rw [hn, hr]

end RoundingLemmas

section DesignLemmas

end DesignLemmas

section BinadeLemmas

end BinadeLemmas

section LowPassExample

end LowPassExample

section SmallLemmas

end SmallLemmas

section BandExample

end BandExample

section NotchExample

end NotchExample

end ieee

section NotchLemmas

end NotchLemmas

section NotchClaims

end NotchClaims

section GainClaims

end GainClaims

section StabilityLemmas

end StabilityLemmas

section StabilityClaims

end StabilityClaims

end signal

namespace utils

section StereoLemmas

variable {α : Type} [Zero α]

/-- Reading a list at every index below its length gives the list back. -/
theorem map_getD_range (l : List α) :
    (List.range l.length).map (fun k => l.getD k 0) = l := by
  apply List.ext_getElem
  · rw [List.length_map, List.length_range]
  · intro i h1 h2
    rw [List.getElem_map, List.getElem_range, List.getD_eq_getElem _ _ h2]

/-- Two lists of the same length with the same entries are equal. -/
theorem ext_getD (t s : List α) (hlen : t.length = s.length)
    (h : ∀ j, j < t.length → t.getD j 0 = s.getD j 0) : t = s := by
  apply List.ext_getElem hlen
  intro i h1 h2
  have := h i h1
  rwa [List.getD_eq_getElem _ _ h1, List.getD_eq_getElem _ _ h2] at this

/-- The loop of `splitStereo` over whole pairs: after `m` iterations with
`2*m <= size`, `left` holds the entries at even indices and `right` those at odd
indices. -/
theorem splitStereo_fold (s : List α) : ∀ m, 2 * m ≤ s.length →
    (List.range m).foldl
      (fun acc k =>
        (acc.1 ++ [s.getD (2 * k) 0],
         if 2 * k + 1 < s.length then acc.2 ++ [s.getD (2 * k + 1) 0] else acc.2))
      (([], []) : List α × List α)
    = ((List.range m).map (fun k => s.getD (2 * k) 0),
       (List.range m).map (fun k => s.getD (2 * k + 1) 0)) := by
  intro m
  induction m with
  | zero => intro _; rfl
  | succ m ih =>
    intro h
    rw [List.range_succ, List.foldl_append, ih (by omega)]
    simp only [List.foldl_cons, List.foldl_nil, List.map_append, List.map_cons, List.map_nil]
    rw [if_pos (by omega)]

/-- On a buffer of even length `splitStereo` returns the entries at even indices
and the entries at odd indices. -/
theorem splitStereo_even (s : List α) (h : s.length % 2 = 0) :
    AudioUtils.splitStereo s
      = ((List.range (s.length / 2)).map (fun k => s.getD (2 * k) 0),
         (List.range (s.length / 2)).map (fun k => s.getD (2 * k + 1) 0)) := by
  unfold AudioUtils.splitStereo
  have e : (s.length + 1) / 2 = s.length / 2 := by omega
  rw [e]
  exact splitStereo_fold s (s.length / 2) (by omega)

/-- The loop of `mergeStereo` on two vectors of the same size: after `k`
iterations the output has `2*k` entries, `left[i]` at index `2*i` and `right[i]` at
index `2*i + 1`. -/
theorem mergeStereo_fold (l r : List α) (h : l.length = r.length) : ∀ k, k ≤ l.length →
    ((List.range k).foldl
      (fun stereo i =>
        (stereo ++ [if i < l.length then l.getD i 0 else 0])
          ++ [if i < r.length then r.getD i 0 else 0]) []).length = 2 * k ∧
    ∀ i, i < k →
      ((List.range k).foldl
        (fun stereo i =>
          (stereo ++ [if i < l.length then l.getD i 0 else 0])
            ++ [if i < r.length then r.getD i 0 else 0]) []).getD (2 * i) 0 = l.getD i 0 ∧
      ((List.range k).foldl
        (fun stereo i =>
          (stereo ++ [if i < l.length then l.getD i 0 else 0])
            ++ [if i < r.length then r.getD i 0 else 0]) []).getD (2 * i + 1) 0
        = r.getD i 0 := by
  intro k
  induction k with
  | zero =>
    intro _
    exact ⟨rfl, fun i hi => absurd hi (Nat.not_lt_zero i)⟩
  | succ k ih =>
    intro hk
    obtain ⟨hlen, hget⟩ := ih (by omega)
    rw [List.range_succ, List.foldl_append]
    simp only [List.foldl_cons, List.foldl_nil]
    rw [if_pos (by omega), if_pos (by omega)]
    generalize (List.range k).foldl
      (fun stereo i =>
        (stereo ++ [if i < l.length then l.getD i 0 else 0])
          ++ [if i < r.length then r.getD i 0 else 0]) [] = t at hlen hget
    refine ⟨by simp only [List.length_append, List.length_singleton]; omega, ?_⟩
    intro i hi
    rcases Nat.lt_succ_iff_lt_or_eq.mp hi with hlt | heq
    · obtain ⟨h0, h1⟩ := hget i hlt
      rw [List.append_assoc]
      constructor
      · rw [List.getD_append _ _ _ _ (by omega)]; exact h0
      · rw [List.getD_append _ _ _ _ (by omega)]; exact h1
    · subst heq
      constructor
      · rw [List.getD_append _ _ _ _
          (by simp only [List.length_append, List.length_singleton]; omega),
          List.getD_append_right _ _ _ _ (by omega), hlen, Nat.sub_self]
        rfl
      · rw [List.getD_append_right _ _ _ _
          (by simp only [List.length_append, List.length_singleton]; omega)]
        simp only [List.length_append, List.length_singleton]
        rw [hlen, show 2 * i + 1 - (2 * i + 1) = 0 by omega]
        rfl

/-- On two vectors of the same size `n`, `mergeStereo` returns `2*n` entries,
`left[i]` at index `2*i` and `right[i]` at index `2*i + 1`. -/
theorem mergeStereo_equal (l r : List α) (h : l.length = r.length) :
    (AudioUtils.mergeStereo l r).length = 2 * l.length ∧
    ∀ i, i < l.length →
      (AudioUtils.mergeStereo l r).getD (2 * i) 0 = l.getD i 0 ∧
      (AudioUtils.mergeStereo l r).getD (2 * i + 1) 0 = r.getD i 0 := by
  unfold AudioUtils.mergeStereo
  have e : max l.length r.length = l.length := by omega
  rw [e]
  exact mergeStereo_fold l r h l.length (le_refl _)

end StereoLemmas

section StereoClaims

variable {α : Type} [Zero α]

/-- C34. The functions `splitStereo` and `mergeStereo` are inverse on well-formed
data: for every interleaved buffer `s` of even length,
`mergeStereo(splitStereo(s).first, splitStereo(s).second) = s`, and for all `left`
and `right` of equal length, `splitStereo(mergeStereo(left, right)) = (left, right)`. -/
theorem splitStereo_mergeStereo_inverse :
    (∀ s : List α, s.length % 2 = 0 →
      AudioUtils.mergeStereo (AudioUtils.splitStereo s).1 (AudioUtils.splitStereo s).2 = s) ∧
    ∀ left right : List α, left.length = right.length →
      AudioUtils.splitStereo (AudioUtils.mergeStereo left right) = (left, right) := by
  constructor
  · intro s hs
    rw [splitStereo_even s hs]
    have hl : ((List.range (s.length / 2)).map (fun k => s.getD (2 * k) 0)).length
        = s.length / 2 := by rw [List.length_map, List.length_range]
    have hr : ((List.range (s.length / 2)).map (fun k => s.getD (2 * k + 1) 0)).length
        = s.length / 2 := by rw [List.length_map, List.length_range]
    obtain ⟨hlen, hget⟩ := mergeStereo_equal
      ((List.range (s.length / 2)).map (fun k => s.getD (2 * k) 0))
      ((List.range (s.length / 2)).map (fun k => s.getD (2 * k + 1) 0)) (by rw [hl, hr])
    rw [hl] at hlen hget
    apply ext_getD _ _ (by rw [hlen]; omega)
    intro j hj
    rw [hlen] at hj
    have hi : j / 2 < s.length / 2 := by omega
    obtain ⟨h0, h1⟩ := hget (j / 2) hi
    have el : ∀ (f : Nat → α), ((List.range (s.length / 2)).map f).getD (j / 2) 0 = f (j / 2) := by
      intro f
      rw [List.getD_eq_getElem _ _ (by rw [List.length_map, List.length_range]; exact hi),
        List.getElem_map, List.getElem_range]
    rw [el] at h0 h1
    rcases Nat.mod_two_eq_zero_or_one j with hj0 | hj1
    · have e : 2 * (j / 2) = j := by omega
      rw [e] at h0
      exact h0
    · have e : 2 * (j / 2) + 1 = j := by omega
      rw [e] at h1
      exact h1
  · intro left right h
    obtain ⟨hlen, hget⟩ := mergeStereo_equal left right h
    rw [splitStereo_even _ (by rw [hlen]; omega), hlen]
    have e : 2 * left.length / 2 = left.length := by omega
    rw [e]
    have e1 : (List.range left.length).map
          (fun k => (AudioUtils.mergeStereo left right).getD (2 * k) 0)
        = (List.range left.length).map (fun k => left.getD k 0) := by
      apply List.map_congr_left
      intro k hk
      exact (hget k (List.mem_range.mp hk)).1
    have e2 : (List.range left.length).map
          (fun k => (AudioUtils.mergeStereo left right).getD (2 * k + 1) 0)
        = (List.range right.length).map (fun k => right.getD k 0) := by
      rw [← h]
      apply List.map_congr_left
      intro k hk
      exact (hget k (List.mem_range.mp hk)).2
    rw [e1, e2, map_getD_range, map_getD_range]

/-- Witness for C34: the buffer `[1, 2, 3, 4]` splits into `[1, 3]` and `[2, 4]`,
which merge back to it. -/
theorem splitStereo_mergeStereo_inverse_witness :
    AudioUtils.mergeStereo (AudioUtils.splitStereo ([1, 2, 3, 4] : List ℚ)).1
        (AudioUtils.splitStereo ([1, 2, 3, 4] : List ℚ)).2 = [1, 2, 3, 4] ∧
    AudioUtils.splitStereo (AudioUtils.mergeStereo ([1, 3] : List ℚ) [2, 4])
      = ([1, 3], [2, 4]) :=
  ⟨splitStereo_mergeStereo_inverse.1 [1, 2, 3, 4] (by decide),
   splitStereo_mergeStereo_inverse.2 [1, 3] [2, 4] rfl⟩

end StereoClaims

section PowerLemmas

/-- For a positive natural number, `a & (a - 1)` is 0 exactly for the powers of
two. -/
theorem land_pred_eq_zero_iff (a : Nat) :
    0 < a → (a &&& (a - 1) = 0 ↔ ∃ k : Nat, a = 2 ^ k) := by
  induction a using Nat.strong_induction_on with
  | _ a ih =>
    intro ha
    rcases Nat.even_or_odd' a with ⟨q, hq | hq⟩
    · subst hq
      have hq0 : 0 < q := by omega
      have e : 2 * q &&& (2 * q - 1) = 2 * (q &&& (q - 1)) := by
        have h := Nat.land_bit false q true (q - 1)
        simp only [Nat.bit_false, Nat.bit_true, Bool.false_and] at h
        have e1 : 2 * (q - 1) + 1 = 2 * q - 1 := by omega
        rw [e1] at h
        exact h
      rw [e]
      constructor
      · intro h
        have h' : q &&& (q - 1) = 0 := by omega
        obtain ⟨k, hk⟩ := (ih q (by omega) hq0).mp h'
        exact ⟨k + 1, by rw [hk, pow_succ]; ring⟩
      · rintro ⟨k, hk⟩
        cases k with
        | zero => omega
        | succ k =>
          have hq : q = 2 ^ k := by rw [pow_succ] at hk; omega
          have := (ih q (by omega) hq0).mpr ⟨k, hq⟩
          omega
    · subst hq
      have e : (2 * q + 1) &&& (2 * q + 1 - 1) = 2 * q := by
        have h := Nat.land_bit true q false q
        simp only [Nat.bit_false, Nat.bit_true, Bool.and_false, Nat.and_self] at h
        exact h
      rw [e]
      constructor
      · intro h
        exact ⟨0, by omega⟩
      · rintro ⟨k, hk⟩
        cases k with
        | zero => omega
        | succ k => rw [pow_succ] at hk; omega

/-- The test `isPowerOfTwo` holds exactly for the powers of two. -/
theorem isPowerOfTwo_iff (n : Int) :
    MathUtils.isPowerOfTwo n = true ↔ ∃ k : Nat, n = 2 ^ k := by
  unfold MathUtils.isPowerOfTwo
  constructor
  · intro h
    rw [Bool.and_eq_true, decide_eq_true_eq, beq_iff_eq] at h
    obtain ⟨hpos, hland⟩ := h
    obtain ⟨a, rfl⟩ := Int.eq_ofNat_of_zero_le (le_of_lt hpos)
    have ha : 0 < a := by exact_mod_cast hpos
    have e : ((a : Int) - 1) = ((a - 1 : Nat) : Int) := by omega
    rw [e] at hland
    have hl : a &&& (a - 1) = 0 := by
      have : ((a &&& (a - 1) : Nat) : Int) = 0 := hland
      exact_mod_cast this
    obtain ⟨k, hk⟩ := (land_pred_eq_zero_iff a ha).mp hl
    exact ⟨k, by rw [hk]; norm_cast⟩
  · rintro ⟨k, hk⟩
    have hpos : (0 : Int) < n := by rw [hk]; positivity
    rw [Bool.and_eq_true, decide_eq_true_eq, beq_iff_eq]
    refine ⟨hpos, ?_⟩
    have e0 : n = ((2 ^ k : Nat) : Int) := by rw [hk]; norm_cast
    have hp : 0 < 2 ^ k := Nat.two_pow_pos k
    have e : (((2 ^ k : Nat) : Int) - 1) = ((2 ^ k - 1 : Nat) : Int) := by omega
    rw [e0, e]
    have hl := (land_pred_eq_zero_iff (2 ^ k) hp).mpr ⟨k, rfl⟩
    show ((2 ^ k &&& (2 ^ k - 1) : Nat) : Int) = 0
    rw [hl]
    rfl

/-- The loop of `nextPowerOfTwo`, entered with `power = 2^i` where every smaller
power of two is below `n`, ends without overflow within `31 - i` evaluations of its
condition, with the least power of two that is at least `n`. -/
theorem nextPowerOfTwoLoop_spec (n : Int) (hn : n ≤ 2 ^ 30) :
    ∀ (d i fuel : Nat), i + d = 30 → d + 1 ≤ fuel → (∀ j : Nat, j < i → (2 : Int) ^ j < n) →
      ∃ k : Nat, k ≤ 30 ∧
        MathUtils.nextPowerOfTwoLoop n fuel (2 ^ i) = Outcome.value (2 ^ k) ∧
        n ≤ 2 ^ k ∧ ∀ j : Nat, j < k → (2 : Int) ^ j < n := by
  intro d
  induction d with
  | zero =>
    intro i fuel hi hf hlow
    obtain ⟨f, rfl⟩ : ∃ f, fuel = f + 1 := ⟨fuel - 1, by omega⟩
    have hi30 : i = 30 := by omega
    subst hi30
    refine ⟨30, le_refl _, ?_, hn, hlow⟩
    unfold MathUtils.nextPowerOfTwoLoop
    rw [if_neg (not_lt.mpr hn)]
  | succ d ih =>
    intro i fuel hi hf hlow
    obtain ⟨f, rfl⟩ : ∃ f, fuel = f + 1 := ⟨fuel - 1, by omega⟩
    unfold MathUtils.nextPowerOfTwoLoop
    by_cases hlt : (2 : Int) ^ i < n
    · rw [if_pos hlt]
      have hle : (2 : Int) ^ (i + 1) ≤ 2 ^ 30 :=
        pow_le_pow_right₀ (by norm_num) (by omega)
      have hmax : (2 : Int) ^ i * 2 ≤ INT_MAX := by
        rw [← pow_succ]
        unfold INT_MAX
        have : (2 : Int) ^ 30 ≤ 2147483647 := by norm_num
        exact le_trans hle this
      rw [if_pos hmax, ← pow_succ]
      apply ih (i + 1) f (by omega) (by omega)
      intro j hj
      rcases Nat.lt_succ_iff_lt_or_eq.mp hj with h | h
      · exact hlow j h
      · rw [h]; exact hlt
    · rw [if_neg hlt]
      exact ⟨i, by omega, rfl, not_lt.mp hlt, hlow⟩

end PowerLemmas

section PowerClaims

/-- C35. The function `MathUtils::nextPowerOfTwo` on 32-bit `int`: for every
`n <= 0` it returns 1, and for every `n` with `1 <= n <= 2^30` the loop ends without
overflow, within 31 evaluations of its condition, and returns the least power of two
that is at least `n`; the result equals `n` exactly when `isPowerOfTwo(n)`. -/
theorem nextPowerOfTwo_least :
    (∀ (fuel : Nat) (n : Int), n ≤ 0 → MathUtils.nextPowerOfTwo fuel n = Outcome.value 1) ∧
    ∀ (fuel : Nat) (n : Int), 31 ≤ fuel → 1 ≤ n → n ≤ 2 ^ 30 →
      ∃ k : Nat, k ≤ 30 ∧
        MathUtils.nextPowerOfTwo fuel n = Outcome.value (2 ^ k) ∧
        n ≤ 2 ^ k ∧
        (∀ j : Nat, n ≤ 2 ^ j → (2 : Int) ^ k ≤ 2 ^ j) ∧
        ((2 : Int) ^ k = n ↔ MathUtils.isPowerOfTwo n = true) := by
  constructor
  · intro fuel n hn
    unfold MathUtils.nextPowerOfTwo
    rw [if_pos hn]
  · intro fuel n hf h1 h30
    obtain ⟨k, hk30, hres, hge, hlow⟩ :=
      nextPowerOfTwoLoop_spec n h30 30 0 fuel (by omega) (by omega)
        (fun j hj => absurd hj (Nat.not_lt_zero j))
    have hleast : ∀ j : Nat, n ≤ 2 ^ j → (2 : Int) ^ k ≤ 2 ^ j := by
      intro j hj
      have hkj : k ≤ j := by
        by_contra hlt
        have := hlow j (by omega)
        omega
      exact pow_le_pow_right₀ (by norm_num) hkj
    refine ⟨k, hk30, ?_, hge, hleast, ?_⟩
    · unfold MathUtils.nextPowerOfTwo
      rw [if_neg (by omega)]
      exact hres
    · rw [isPowerOfTwo_iff]
      constructor
      · intro h
        exact ⟨k, h.symm⟩
      · rintro ⟨j, hj⟩
        have h2 := hleast j (le_of_eq hj)
        rw [← hj] at h2
        exact le_antisymm h2 hge

/-- Witness for C35: `nextPowerOfTwo(0) = 1`, `nextPowerOfTwo(1000) = 1024` and
`nextPowerOfTwo(1024) = 1024`, each within 31 evaluations of the loop condition. -/
theorem nextPowerOfTwo_least_witness :
    MathUtils.nextPowerOfTwo 31 0 = Outcome.value 1 ∧
    (∃ k : Nat, k ≤ 30 ∧
        MathUtils.nextPowerOfTwo 31 1000 = Outcome.value (2 ^ k) ∧
        (1000 : Int) ≤ 2 ^ k ∧
        (∀ j : Nat, (1000 : Int) ≤ 2 ^ j → (2 : Int) ^ k ≤ 2 ^ j) ∧
        ((2 : Int) ^ k = 1000 ↔ MathUtils.isPowerOfTwo 1000 = true)) ∧
    MathUtils.nextPowerOfTwo 31 1000 = Outcome.value 1024 ∧
    MathUtils.nextPowerOfTwo 31 1024 = Outcome.value 1024 ∧
    MathUtils.isPowerOfTwo 1000 = false ∧ MathUtils.isPowerOfTwo 1024 = true :=
  ⟨nextPowerOfTwo_least.1 31 0 (le_refl _),
   nextPowerOfTwo_least.2 31 1000 (le_refl _) (by norm_num) (by norm_num),
   by decide, by decide, by decide, by decide⟩

end PowerClaims

end utils

end song_processor
